import Mathlib

/-!
# Verification of the snoonu-smart-dispatch core

Shallow embedding of the dispatch engine of the `snoonu-smart-dispatch`
repository (`src/models.py`, `src/utils.py`, `src/scoring.py`,
`src/dispatch.py`, `src/simulation.py`), together with proofs and refutations
of the specified properties.

Modelling conventions:

* Geographic coordinates and times are rationals (`ℚ`); Python `float`
  arithmetic on them is modelled exactly.  Times are minutes since midnight;
  `datetime.time` wrap-around (via `add_minutes_to_time`) is modelled by a
  rational `mod 1440`.
* The engine is parametrised by an abstract distance oracle
  `D : Loc → Loc → ℚ` standing for `utils.get_distance` (the spec treats
  GeoDist as an external collaborator).  Travel time is derived from it the
  way `utils.get_travel_time`/`calculate_travel_time_minutes` do with the
  default configuration (`USE_ROAD_DISTANCE = False`).
* Python `float('inf')` in the cost functions is `(⊤ : WithTop ℚ)`.
* Python exceptions (`KeyError`, `IndexError`, `ZeroDivisionError`) are
  modelled by `Option`: a function that can raise returns `none` there.
* Python objects mutated through shared references (orders) live in a single
  store (`List Order`); lists of orders held by drivers or queues hold the
  `order_id` keys, mirroring object identity.  Python `dict` is an
  association list with insertion-order semantics (`insertD` / `lookupA`),
  which matches CPython's insertion-ordered dictionaries, including the
  oldest-first eviction used by the OSRM cache.
* The per-dispatch-cycle TSP cache of `dispatch.py` is cleared at the start
  of every dispatch call and `find_optimal_route` is a pure function of its
  arguments, so the embedding computes it fresh (the `_clear_tsp_cache`
  calls make a hit return exactly the value that would be recomputed).
-/

namespace Snoonu

/-- A geographic location `(lat, lng)`. -/
abbrev Loc : Type := ℚ × ℚ

/-- Abstract distance oracle standing for `utils.get_distance` (km). -/
abbrev Dist : Type := Loc → Loc → ℚ

/-! ## Python `dict` as an insertion-ordered association list -/

/-- Python `d[k] = v`: overwrite in place if the key is present (CPython keeps
the original insertion position), else append at the end. -/
def insertD {K V : Type} [DecidableEq K] : List (K × V) → K → V → List (K × V)
  | [], k, v => [(k, v)]
  | (k', v') :: rest, k, v =>
    if k' = k then (k, v) :: rest else (k', v') :: insertD rest k v

/-- Python `d.get(k)` / `d[k]` lookup (`none` models `KeyError` for `d[k]`). -/
def lookupA {K V : Type} [DecidableEq K] : List (K × V) → K → Option V
  | [], _ => none
  | (k', v') :: rest, k => if k' = k then some v' else lookupA rest k

theorem lookupA_insertD {K V : Type} [DecidableEq K] (l : List (K × V)) (k k' : K) (v : V) :
    lookupA (insertD l k v) k' = if k = k' then some v else lookupA l k' := by
  induction l with
  | nil => simp [insertD, lookupA]
  | cons p rest ih =>
    obtain ⟨k₀, v₀⟩ := p
    by_cases h0 : k₀ = k
    · subst h0
      by_cases h1 : k₀ = k' <;> simp [insertD, lookupA, h1]
    · by_cases h1 : k₀ = k'
      · subst h1
        have hkk : ¬k = k₀ := fun h => h0 h.symm
        simp [insertD, lookupA, h0, hkk]
      · simp [insertD, lookupA, h0, h1, ih]

theorem insertD_length_le {K V : Type} [DecidableEq K] (l : List (K × V)) (k : K) (v : V) :
    (insertD l k v).length ≤ l.length + 1 := by
  induction l with
  | nil => simp [insertD]
  | cons p rest ih =>
    by_cases h : p.1 = k <;> simp [insertD, h] <;> omega

theorem insertD_length_of_lookup_none {K V : Type} [DecidableEq K]
    (l : List (K × V)) (k : K) (v : V) (h : lookupA l k = none) :
    (insertD l k v).length = l.length + 1 := by
  induction l with
  | nil => simp [insertD]
  | cons p rest ih =>
    obtain ⟨k₀, v₀⟩ := p
    by_cases h0 : k₀ = k
    · simp [lookupA, h0] at h
    · simp [lookupA, h0] at h
      simp [insertD, h0, ih h]

/-! ## Selection loops

Both the dispatch strategies and the TSP reconstruction use the same Python
idiom: `best = None; best_val = inf; for x in xs: if f(x) < best_val: best = x;
best_val = f(x)`.  On ties the **first** minimiser wins because the comparison
is strict. -/

/-- The Python strict-improvement selection loop: returns the first element
attaining the minimum of `f`, or `none` on an empty list. -/
def selectMin {α : Type} (xs : List α) (f : α → ℚ) : Option α :=
  (xs.foldl
    (fun acc x =>
      match acc with
      | none => some (x, f x)
      | some (b, bv) => if f x < bv then some (x, f x) else some (b, bv))
    none).map Prod.fst

theorem selectMin_go_spec {α : Type} (f : α → ℚ) (xs : List α) (b : α) :
    ∃ a, ((xs.foldl
      (fun acc x =>
        match acc with
        | none => some (x, f x)
        | some (b, bv) => if f x < bv then some (x, f x) else some (b, bv))
      (some (b, f b))).map Prod.fst) = some a ∧ (a = b ∨ a ∈ xs) ∧
      f a ≤ f b ∧ ∀ c ∈ xs, f a ≤ f c := by
  induction xs generalizing b with
  | nil => exact ⟨b, by simp, Or.inl rfl, le_refl _, by simp⟩
  | cons x rest ih =>
    by_cases hx : f x < f b
    · obtain ⟨a, ha, hmem, hle, hall⟩ := ih x
      refine ⟨a, by simpa [hx] using ha, ?_, le_trans hle (le_of_lt hx), ?_⟩
      · rcases hmem with h1 | h1
        · exact Or.inr (by simp [h1])
        · exact Or.inr (by simp [h1])
      · intro c hc
        rcases List.mem_cons.mp hc with h1 | h1
        · exact h1 ▸ hle
        · exact hall c h1
    · obtain ⟨a, ha, hmem, hle, hall⟩ := ih b
      refine ⟨a, by simpa [hx] using ha, ?_, hle, ?_⟩
      · rcases hmem with h1 | h1
        · exact Or.inl h1
        · exact Or.inr (by simp [h1])
      · intro c hc
        rcases List.mem_cons.mp hc with h1 | h1
        · exact le_trans hle (h1 ▸ not_lt.mp hx)
        · exact hall c h1

theorem selectMin_spec {α : Type} (xs : List α) (f : α → ℚ) (hne : xs ≠ []) :
    ∃ a, selectMin xs f = some a ∧ a ∈ xs ∧ ∀ b ∈ xs, f a ≤ f b := by
  match xs, hne with
  | x :: rest, _ =>
    obtain ⟨a, ha, hmem, hle, hall⟩ := selectMin_go_spec f rest x
    refine ⟨a, by simpa [selectMin] using ha, ?_, ?_⟩
    · rcases hmem with h1 | h1
      · simp [h1]
      · simp [h1]
    · intro b hb
      rcases List.mem_cons.mp hb with h1 | h1
      · exact h1 ▸ hle
      · exact hall b h1

/-! ## Configuration (`src/config.py`, defaults) -/

def AVG_SPEED_KMH : ℚ := 35
def SERVICE_TIME_MINS : ℚ := 5
def W_DISTANCE : ℚ := 1
def W_DELAY : ℚ := 3 / 2
def BUNDLE_DISCOUNT_PER_ORDER : ℚ := 1 / 4
def PENALTY_MOTORBIKE : ℚ := 1
def PENALTY_BIKE : ℚ := 6 / 5
def PENALTY_CAR : ℚ := 7 / 5
def MAX_BUNDLE_SIZE : ℕ := 2
def MAX_PICKUP_DISTANCE_KM : ℚ := 5
def MAX_DELIVERY_TIME_MINS : ℚ := 52
def BATCH_WINDOW_MINS : ℚ := 1
def HIGH_LOAD_THRESHOLD : ℚ := 2
def COMBINATORIAL_WINDOW_MINS : ℚ := 5
def SIMULATION_SPEED_MINUTES : ℚ := 1
def OSRM_CACHE_SIZE : ℕ := 10000
def USE_ROAD_DISTANCE : Bool := false
def HAVERSINE_FALLBACK_MULTIPLIER : ℚ := 7 / 5

/-! ## Domain models (`src/models.py`) -/

/-- `models.OrderStatus`. -/
inductive OrderStatus : Type
  | PENDING
  | ASSIGNED
  | PICKED_UP
  | DELIVERED
  | FAILED
deriving DecidableEq, Repr

/-- `models.DriverStatus`. -/
inductive DriverStatus : Type
  | IDLE
  | ACCRUING
  | DELIVERING
deriving DecidableEq, Repr

/-- The `stop_type` string field of `models.Stop` (`'PICKUP'`/`'DROPOFF'`). -/
inductive StopType : Type
  | PICKUP
  | DROPOFF
deriving DecidableEq, Repr

/-- `models.Stop`. -/
structure Stop : Type where
  location : Loc
  stop_type : StopType
  order_id : String
deriving DecidableEq, Repr

/-- `models.Order`.  `created_time`/`deadline` are minutes since midnight. -/
structure Order : Type where
  order_id : String
  pickup_lat : ℚ
  pickup_lng : ℚ
  dropoff_lat : ℚ
  dropoff_lng : ℚ
  created_time : ℚ
  deadline : ℚ
  estimated_delivery_time_min : ℚ
  status : OrderStatus := .PENDING
  pickup_time : Option ℚ := none
  dropoff_time : Option ℚ := none
deriving DecidableEq, Repr

def Order.pickup_loc (o : Order) : Loc := (o.pickup_lat, o.pickup_lng)

def Order.dropoff_loc (o : Order) : Loc := (o.dropoff_lat, o.dropoff_lng)

/-- `models.Driver`.  `assigned_orders` holds `order_id` keys into the order
store, modelling Python's shared object references.  `current_stop_index`
keeps the `-1` sentinel of the source, hence `ℤ`.
`arrival_time_at_next_stop` is set to `available_from` by `__post_init__`
and never `None` afterwards, so it is a plain `ℚ`. -/
structure Driver : Type where
  driver_id : String
  start_lat : ℚ
  start_lng : ℚ
  vehicle_type : String
  capacity : ℕ
  available_from : ℚ
  current_lat : ℚ
  current_lng : ℚ
  status : DriverStatus := .IDLE
  assigned_orders : List String := []
  route : List Stop := []
  current_stop_index : ℤ := -1
  arrival_time_at_next_stop : ℚ
deriving DecidableEq, Repr

def Driver.current_loc (d : Driver) : Loc := (d.current_lat, d.current_lng)

/-- `models.Bundle`.  `orders` holds full order records (their immutable
fields are the only ones a bundle is read through). -/
structure Bundle : Type where
  orders : List Order
  route_sequence : List Stop
  total_distance : ℚ := 0
deriving DecidableEq, Repr

def Bundle.num_orders (b : Bundle) : ℕ := b.orders.length

/-! ## Time and travel-time utilities (`src/utils.py`) -/

/-- `utils.calculate_travel_time_minutes`.  The source returns `float('inf')`
when `AVG_SPEED_KMH ≤ 0`; with the default constant `35` that branch is dead,
and the embedding returns `0` there. -/
def calculate_travel_time_minutes (distance_km : ℚ) : ℚ :=
  if 0 < AVG_SPEED_KMH then distance_km / AVG_SPEED_KMH * 60 else 0

/-- `utils.get_travel_time` with `USE_ROAD_DISTANCE = False`: travel time of
the oracle distance at the average speed. -/
def get_travel_time (D : Dist) (a b : Loc) : ℚ :=
  calculate_travel_time_minutes (D a b)

/-- `utils.add_minutes_to_time`: `datetime.time` arithmetic wraps modulo one
day (1440 minutes). -/
def add_minutes_to_time (t m : ℚ) : ℚ :=
  t + m - 1440 * ⌊(t + m) / 1440⌋

/-! ## The TSP-PC oracle: `dispatch.find_optimal_route`

The Held–Karp table `dp[mask][last]` of the source (filled over masks in
increasing order, with transitions `mask → mask | (1 << nxt)` gated by the
precedence constraint) satisfies, for every reachable mask `s` and `last = i`:

* `dp[{i}][i] = dist_from_start[i]` iff stop `i` has no required pickup
  (lines 341–344), and is `∞` otherwise;
* for `|s| ≥ 2`: `dp[s][i] = min over j ∈ s \ {i} of dp[s \ {i}][j] +
  dist[j][i]` when the required pickup of `i` (if any) lies in `s \ {i}`,
  and `∞` otherwise (lines 347–369; transitions from `∞` predecessors are
  skipped in the source and absorbed by `∞ + x = ∞` here).

`dpF` below is that recurrence, with a structural fuel argument (any
`fuel ≥ s.card` gives the table, see `dpF_fuel_irrel`). -/

/-- The `'PICKUP'` stop a not-yet-picked-up order contributes. -/
def pickStop (o : Order) : Stop := ⟨o.pickup_loc, .PICKUP, o.order_id⟩

/-- The `'DROPOFF'` stop every order contributes. -/
def dropStop (o : Order) : Stop := ⟨o.dropoff_loc, .DROPOFF, o.order_id⟩

/-- The stop-building loop of `find_optimal_route` (lines 276–289): for each
order append a pickup stop (recording its index in the `pickup_idx` dict)
unless the order is already picked up, then the dropoff stop. -/
def buildSP (picked : List String) :
    List Order → List Stop × List (String × ℕ) → List Stop × List (String × ℕ)
  | [], acc => acc
  | o :: rest, (stops, pidx) =>
    if o.order_id ∈ picked then
      buildSP picked rest (stops ++ [dropStop o], pidx)
    else
      buildSP picked rest
        (stops ++ [pickStop o, dropStop o], insertD pidx o.order_id stops.length)

/-- The `required_pickup` array (lines 315–325): `none` for pickups and for
dropoffs of already-picked-up orders, else the `pickup_idx` entry of the
order.  A missing `pickup_idx` key would be a `KeyError` in the source; for
stop lists produced by `buildSP` the key is always present
(`reqList_buildSP_isSome`), so the `none` returned by `lookupA` in that dead
branch is never the value of an entry whose stop is a not-picked-up dropoff. -/
def reqList (stops : List Stop) (pidx : List (String × ℕ)) (picked : List String) :
    List (Option ℕ) :=
  stops.map fun s =>
    match s.stop_type with
    | .PICKUP => none
    | .DROPOFF => if s.order_id ∈ picked then none else lookupA pidx s.order_id

/-- The symmetric pairwise distance matrix (lines 303–311): computed once
with `get_distance` for `i < j` and mirrored; diagonal `0`. -/
def dMat (D : Dist) (stops : List Stop) (i j : Fin stops.length) : ℚ :=
  if i = j then 0
  else if i.val < j.val then D (stops.get i).location (stops.get j).location
  else D (stops.get j).location (stops.get i).location

/-- `dist_from_start` (lines 296–301). -/
def dStart (D : Dist) (start_loc : Loc) (stops : List Stop) (i : Fin stops.length) : ℚ :=
  D start_loc (stops.get i).location

/-- Precedence gate of a Held–Karp transition to stop `i` after visiting
exactly `t` (lines 360–362): the required pickup of `i`, if any, must be in
`t`. -/
def okStep {n : ℕ} (req : List (Option ℕ)) (t : Finset (Fin n)) (i : Fin n) : Bool :=
  match req.getD i.val none with
  | none => true
  | some r => decide (∃ j ∈ t, j.val = r)

/-- The Held–Karp value table `dp[s][i]` (see the section comment). -/
def dpF {n : ℕ} (S : Fin n → ℚ) (W : Fin n → Fin n → ℚ) (req : List (Option ℕ)) :
    ℕ → Finset (Fin n) → Fin n → WithTop ℚ
  | 0, _, _ => ⊤
  | fuel + 1, s, i =>
    if i ∈ s then
      if s = {i} then
        if (req.getD i.val none).isNone then (S i : WithTop ℚ) else ⊤
      else
        if okStep req (s.erase i) i then
          (s.erase i).inf (fun j => dpF S W req fuel (s.erase i) j + (W j i : WithTop ℚ))
        else ⊤
    else ⊤

theorem dpF_zero {n : ℕ} (S : Fin n → ℚ) (W : Fin n → Fin n → ℚ)
    (req : List (Option ℕ)) (s : Finset (Fin n)) (i : Fin n) :
    dpF S W req 0 s i = ⊤ := rfl

theorem dpF_succ {n : ℕ} (S : Fin n → ℚ) (W : Fin n → Fin n → ℚ)
    (req : List (Option ℕ)) (fuel : ℕ) (s : Finset (Fin n)) (i : Fin n) :
    dpF S W req (fuel + 1) s i =
      if i ∈ s then
        if s = {i} then
          if (req.getD i.val none).isNone then (S i : WithTop ℚ) else ⊤
        else
          if okStep req (s.erase i) i then
            (s.erase i).inf
              (fun j => dpF S W req fuel (s.erase i) j + (W j i : WithTop ℚ))
          else ⊤
      else ⊤ := rfl

/-- Parent pointer of `(s, i)` (lines 338, 367–369): the transitions into
`dp[s][i]` scan predecessors `last` in ascending index order and record the
strictly improving ones, so the final parent is the first index of
`s \ {i}` attaining the minimum, `none` (the source's `-1`) when the gate
failed or no predecessor is finite. -/
def parentFold {n : ℕ} (dp : Finset (Fin n) → Fin n → WithTop ℚ)
    (W : Fin n → Fin n → ℚ) (s : Finset (Fin n)) (i : Fin n)
    (l : List (Fin n)) (acc : WithTop ℚ × Option (Fin n)) : WithTop ℚ × Option (Fin n) :=
  l.foldl
    (fun acc j =>
      if j ∈ s.erase i ∧ dp (s.erase i) j + (W j i : WithTop ℚ) < acc.1 then
        (dp (s.erase i) j + (W j i : WithTop ℚ), some j)
      else acc)
    acc

def parentOf {n : ℕ} (dp : Finset (Fin n) → Fin n → WithTop ℚ) (W : Fin n → Fin n → ℚ)
    (req : List (Option ℕ)) (s : Finset (Fin n)) (i : Fin n) : Option (Fin n) :=
  if okStep req (s.erase i) i then
    (parentFold dp W s i (List.finRange n) ((⊤ : WithTop ℚ), none)).2
  else none

/-- Path reconstruction by parent pointers (lines 383–394): follow parents,
removing the current stop from the mask, until the parent is `-1`; the
collected indices are reversed, i.e. the path ends at the starting `i`. -/
def buildPath {n : ℕ} (dp : Finset (Fin n) → Fin n → WithTop ℚ) (W : Fin n → Fin n → ℚ)
    (req : List (Option ℕ)) : ℕ → Finset (Fin n) → Fin n → List (Fin n)
  | 0, _, i => [i]
  | fuel + 1, s, i =>
    match parentOf dp W req s i with
    | none => [i]
    | some j => buildPath dp W req fuel (s.erase i) j ++ [i]

/-- The final scan for the best ending stop (lines 372–377): ascending scan
with strict improvement starting from `best_dist = ∞`, `best_last = -1`. -/
def bestLastPair {n : ℕ} (f : Fin n → WithTop ℚ) : WithTop ℚ × Option (Fin n) :=
  (List.finRange n).foldl
    (fun acc i => if f i < acc.1 then (f i, some i) else acc)
    ((⊤ : WithTop ℚ), none)

/-- Final lines of `dispatch.find_optimal_route` (lines 379–400): if the best
ending stop is `-1` (no finite tour) return the empty route with distance 0,
otherwise reconstruct the path and return it with the best distance. -/
def finishRoute (stops : List Stop)
    (dp : Finset (Fin stops.length) → Fin stops.length → WithTop ℚ)
    (W : Fin stops.length → Fin stops.length → ℚ)
    (req : List (Option ℕ))
    (best : WithTop ℚ × Option (Fin stops.length)) : List Stop × ℚ :=
  match best.2 with
  | none => ([], 0)
  | some bl =>
    ((buildPath dp W req stops.length Finset.univ bl).map (fun i => stops.get i),
      (best.1).untop' 0)

/-- `dispatch.find_optimal_route`.  Pure value of the oracle: the
per-dispatch-cycle cache (cleared at the start of every dispatch call) only
ever returns what this function computes on the same key. -/
def find_optimal_route (D : Dist) (start_loc : Loc) (orders : List Order)
    (already_picked_up : List Order) : List Stop × ℚ :=
  if orders = [] then ([], 0)
  else
    let pickedIds := already_picked_up.map (·.order_id)
    let sp := buildSP pickedIds orders ([], [])
    let stops := sp.1
    if stops.length = 0 then ([], 0)
    else
      let S := dStart D start_loc stops
      let W := dMat D stops
      let req := reqList stops sp.2 pickedIds
      let dp := fun (s : Finset (Fin stops.length)) (i : Fin stops.length) =>
        dpF S W req stops.length s i
      let best := bestLastPair (fun i => dp Finset.univ i)
      finishRoute stops dp W req best

theorem finishRoute_snd (stops : List Stop)
    (dp : Finset (Fin stops.length) → Fin stops.length → WithTop ℚ)
    (W : Fin stops.length → Fin stops.length → ℚ)
    (req : List (Option ℕ))
    (best : WithTop ℚ × Option (Fin stops.length))
    (h2 : best.2.isSome) :
    (finishRoute stops dp W req best).2 = (best.1).untop' 0 := by
  unfold finishRoute
  cases hb : best.2 with
  | none => rw [hb] at h2; simp at h2
  | some bl => rfl

theorem finishRoute_fst (stops : List Stop)
    (dp : Finset (Fin stops.length) → Fin stops.length → WithTop ℚ)
    (W : Fin stops.length → Fin stops.length → ℚ)
    (req : List (Option ℕ))
    (best : WithTop ℚ × Option (Fin stops.length))
    (bl : Fin stops.length) (h2 : best.2 = some bl) :
    (finishRoute stops dp W req best).1 =
      (buildPath dp W req stops.length Finset.univ bl).map (fun i => stops.get i) := by
  unfold finishRoute
  rw [h2]

theorem finishRoute_fst_none (stops : List Stop)
    (dp : Finset (Fin stops.length) → Fin stops.length → WithTop ℚ)
    (W : Fin stops.length → Fin stops.length → ℚ)
    (req : List (Option ℕ))
    (best : WithTop ℚ × Option (Fin stops.length)) (h2 : best.2 = none) :
    (finishRoute stops dp W req best).1 = [] := by
  unfold finishRoute
  rw [h2]

/-! ### Spec-side brute force for the TSP-PC claims -/

/-- Leg distances of a stop ordering continuing from stop `h`. -/
def legs {n : ℕ} (W : Fin n → Fin n → ℚ) : Fin n → List (Fin n) → ℚ
  | _, [] => 0
  | h, j :: rest => W h j + legs W j rest

/-- Total travel distance of a stop ordering: start-to-first-stop distance
plus the legs between consecutive stops. -/
def pathCost {n : ℕ} (S : Fin n → ℚ) (W : Fin n → Fin n → ℚ) : List (Fin n) → ℚ
  | [] => 0
  | i :: rest => S i + legs W i rest

/-- Precedence check of an ordering against a `required_pickup` array, with
`vis` the indices already visited. -/
def visitedOK {n : ℕ} (req : List (Option ℕ)) : List ℕ → List (Fin n) → Bool
  | _, [] => true
  | vis, i :: rest =>
    (match req.getD i.val none with
     | none => true
     | some r => decide (r ∈ vis)) && visitedOK req (i.val :: vis) rest

/-- An ordering respects the `required_pickup` precedences. -/
def precOK {n : ℕ} (req : List (Option ℕ)) (p : List (Fin n)) : Bool :=
  visitedOK req [] p

/-- Minimum of a list in `WithTop ℚ` (`⊤` for the empty list). -/
def listMin (l : List (WithTop ℚ)) : WithTop ℚ := l.foldr min ⊤

/-- Modelled from the spec: a stop ordering "visits each
not-already-picked-up order's PICKUP before its DROPOFF" — every `DROPOFF`
stop of a not-picked-up order is strictly preceded by a `PICKUP` stop with
the same order id. -/
def pickupBeforeDropoff (stops : List Stop) (pickedIds : List String)
    (p : List (Fin stops.length)) : Prop :=
  ∀ k2 : Fin p.length, (stops.get (p.get k2)).stop_type = .DROPOFF →
    (stops.get (p.get k2)).order_id ∉ pickedIds →
    ∃ k1 : Fin p.length, k1.val < k2.val ∧
      (stops.get (p.get k1)).stop_type = .PICKUP ∧
      (stops.get (p.get k1)).order_id = (stops.get (p.get k2)).order_id

instance (stops : List Stop) (pickedIds : List String) (p : List (Fin stops.length)) :
    Decidable (pickupBeforeDropoff stops pickedIds p) := by
  unfold pickupBeforeDropoff
  infer_instance

/-- Modelled from the spec: the brute-force minimum, over all orderings of
the stops that respect pickup-before-dropoff for not-picked-up orders, of
the total travel distance from the start (claim C1's factorial
enumeration). -/
def bruteForceMin (D : Dist) (start_loc : Loc) (orders : List Order)
    (already_picked_up : List Order) : WithTop ℚ :=
  let pickedIds := already_picked_up.map (·.order_id)
  let stops := (buildSP pickedIds orders ([], [])).1
  listMin (((List.finRange stops.length).permutations.filter
      (fun p => decide (pickupBeforeDropoff stops pickedIds p))).map
    (fun p => (pathCost (dStart D start_loc stops) (dMat D stops) p : WithTop ℚ)))

/-! ### Held–Karp correctness -/

/-- A visiting order `p` of exactly the stop set `s`, ending at `i` and
respecting the precedences. -/
def ValidPath {n : ℕ} (req : List (Option ℕ)) (s : Finset (Fin n)) (i : Fin n)
    (p : List (Fin n)) : Prop :=
  p ≠ [] ∧ p.Nodup ∧ p.toFinset = s ∧ p.getLast? = some i ∧ precOK req p = true

theorem dpF_fuel_irrel {n : ℕ} (S : Fin n → ℚ) (W : Fin n → Fin n → ℚ)
    (req : List (Option ℕ)) :
    ∀ (fuel fuel' : ℕ) (s : Finset (Fin n)) (i : Fin n),
      s.card ≤ fuel → s.card ≤ fuel' →
      dpF S W req fuel s i = dpF S W req fuel' s i := by
  intro fuel
  induction fuel with
  | zero =>
    intro fuel' s i h h'
    have hs : s = ∅ := Finset.card_eq_zero.mp (Nat.le_zero.mp h)
    subst hs
    cases fuel' with
    | zero => rfl
    | succ f' => simp [dpF]
  | succ f ih =>
    intro fuel' s i h h'
    cases fuel' with
    | zero =>
      have hs : s = ∅ := Finset.card_eq_zero.mp (Nat.le_zero.mp h')
      subst hs
      simp [dpF]
    | succ f' =>
      by_cases hi : i ∈ s
      · have hcard : (s.erase i).card = s.card - 1 := Finset.card_erase_of_mem hi
        have h1 : (s.erase i).card ≤ f := by omega
        have h1' : (s.erase i).card ≤ f' := by
          have : 1 ≤ s.card := Finset.card_pos.mpr ⟨i, hi⟩
          omega
        simp only [dpF, hi, if_true]
        by_cases hsi : s = {i}
        · simp [hsi]
        · simp only [hsi, if_false]
          by_cases hok : okStep req (s.erase i) i = true
          · simp only [hok, if_true]
            exact Finset.inf_congr rfl (fun j _ => by rw [ih f' (s.erase i) j h1 h1'])
          · simp [hok]
      · simp [dpF, hi]

theorem listMin_le {l : List (WithTop ℚ)} {x : WithTop ℚ} (h : x ∈ l) : listMin l ≤ x := by
  induction l with
  | nil => cases h
  | cons y rest ih =>
    rcases List.mem_cons.mp h with h1 | h1
    · exact h1 ▸ min_le_left _ _
    · exact le_trans (min_le_right _ _) (ih h1)

theorem le_listMin {l : List (WithTop ℚ)} {c : WithTop ℚ} (h : ∀ x ∈ l, c ≤ x) :
    c ≤ listMin l := by
  induction l with
  | nil => exact le_top
  | cons y rest ih =>
    exact le_min (h y (by simp)) (ih (fun x hx => h x (by simp [hx])))

theorem bestLastPair_fold_inv {n : ℕ} (f : Fin n → WithTop ℚ) (l : List (Fin n)) :
    ∀ (acc : WithTop ℚ × Option (Fin n)),
      (match acc.2 with
       | none => acc.1 = ⊤
       | some b => f b = acc.1) →
      (match (l.foldl (fun acc i => if f i < acc.1 then (f i, some i) else acc) acc).2 with
       | none =>
         (l.foldl (fun acc i => if f i < acc.1 then (f i, some i) else acc) acc).1 = ⊤
       | some b =>
         f b = (l.foldl (fun acc i => if f i < acc.1 then (f i, some i) else acc) acc).1) ∧
      (∀ i ∈ l,
        (l.foldl (fun acc i => if f i < acc.1 then (f i, some i) else acc) acc).1 ≤ f i) ∧
      (l.foldl (fun acc i => if f i < acc.1 then (f i, some i) else acc) acc).1 ≤ acc.1 := by
  induction l with
  | nil => intro acc hacc; exact ⟨hacc, by simp, le_refl _⟩
  | cons x rest ih =>
    intro acc hacc
    by_cases hx : f x < acc.1
    · obtain ⟨hinv, hall, hle⟩ := ih (f x, some x) (by simp)
      refine ⟨by simpa [hx] using hinv, ?_, ?_⟩
      · intro i hi
        rcases List.mem_cons.mp hi with h1 | h1
        · subst h1; simpa [hx] using hle
        · simpa [hx] using hall i h1
      · simp only [List.foldl_cons, if_pos hx]
        exact le_trans hle (le_of_lt hx)
    · obtain ⟨hinv, hall, hle⟩ := ih acc hacc
      refine ⟨by simpa [hx] using hinv, ?_, by simpa [hx] using hle⟩
      · intro i hi
        rcases List.mem_cons.mp hi with h1 | h1
        · subst h1
          simp only [List.foldl_cons, if_neg hx]
          exact le_trans hle (not_lt.mp hx)
        · simpa [hx] using hall i h1

theorem bestLastPair_inv {n : ℕ} (f : Fin n → WithTop ℚ) :
    (match (bestLastPair f).2 with
     | none => (bestLastPair f).1 = ⊤
     | some b => f b = (bestLastPair f).1) ∧
    (∀ i : Fin n, (bestLastPair f).1 ≤ f i) := by
  obtain ⟨hinv, hall, _⟩ := bestLastPair_fold_inv f (List.finRange n) (⊤, none) (by simp)
  exact ⟨hinv, fun i => hall i (List.mem_finRange i)⟩

theorem bestLastPair_none_top {n : ℕ} (f : Fin n → WithTop ℚ)
    (h : (bestLastPair f).2 = none) : (bestLastPair f).1 = ⊤ := by
  obtain ⟨hinv, -⟩ := bestLastPair_inv f
  rw [h] at hinv
  simpa using hinv

theorem visitedOK_append_single {n : ℕ} (req : List (Option ℕ)) (q : List (Fin n))
    (i : Fin n) :
    ∀ vis : List ℕ,
      (visitedOK req vis (q ++ [i]) = true ↔
        (visitedOK req vis q = true ∧
          ∀ r, req.getD i.val none = some r → (r ∈ vis ∨ ∃ x ∈ q, x.val = r))) := by
  induction q with
  | nil =>
    intro vis
    cases hreq : req.getD i.val none with
    | none => simp only [List.nil_append, visitedOK, hreq]; simp
    | some r => simp only [List.nil_append, visitedOK, hreq]; simp
  | cons x rest ih =>
    intro vis
    cases hreq : req.getD x.val none with
    | none =>
      simp only [List.cons_append, visitedOK, hreq, Bool.true_and, List.append_eq]
      rw [ih (x.val :: vis)]
      constructor
      · rintro ⟨h1, h2⟩
        refine ⟨h1, fun r hr => ?_⟩
        rcases h2 r hr with h3 | h3
        · rcases List.mem_cons.mp h3 with h4 | h4
          · exact Or.inr ⟨x, by simp, h4.symm⟩
          · exact Or.inl h4
        · obtain ⟨y, hy, hyv⟩ := h3
          exact Or.inr ⟨y, by simp [hy], hyv⟩
      · rintro ⟨h1, h2⟩
        refine ⟨h1, fun r hr => ?_⟩
        rcases h2 r hr with h3 | h3
        · exact Or.inl (by simp [h3])
        · obtain ⟨y, hy, hyv⟩ := h3
          rcases List.mem_cons.mp hy with h4 | h4
          · exact Or.inl (by simp [h4 ▸ hyv])
          · exact Or.inr ⟨y, h4, hyv⟩
    | some r0 =>
      simp only [List.cons_append, visitedOK, hreq, Bool.and_eq_true, decide_eq_true_eq,
        List.append_eq]
      rw [ih (x.val :: vis)]
      constructor
      · rintro ⟨hr0, h1, h2⟩
        refine ⟨⟨hr0, h1⟩, fun r hr => ?_⟩
        rcases h2 r hr with h3 | h3
        · rcases List.mem_cons.mp h3 with h4 | h4
          · exact Or.inr ⟨x, by simp, h4.symm⟩
          · exact Or.inl h4
        · obtain ⟨y, hy, hyv⟩ := h3
          exact Or.inr ⟨y, by simp [hy], hyv⟩
      · rintro ⟨⟨hr0, h1⟩, h2⟩
        refine ⟨hr0, h1, fun r hr => ?_⟩
        rcases h2 r hr with h3 | h3
        · exact Or.inl (by simp [h3])
        · obtain ⟨y, hy, hyv⟩ := h3
          rcases List.mem_cons.mp hy with h4 | h4
          · exact Or.inl (by simp [h4 ▸ hyv])
          · exact Or.inr ⟨y, h4, hyv⟩

theorem legs_append_single {n : ℕ} (W : Fin n → Fin n → ℚ) (q : List (Fin n))
    (x j i : Fin n) (hj : (x :: q).getLast? = some j) :
    legs W x (q ++ [i]) = legs W x q + W j i := by
  induction q generalizing x with
  | nil =>
    simp only [List.getLast?_singleton, Option.some.injEq] at hj
    subst hj
    simp [legs]
  | cons y rest ih =>
    have hj' : (y :: rest).getLast? = some j := by
      rw [List.getLast?_cons_cons] at hj
      exact hj
    simp only [List.cons_append, legs, List.append_eq, ih y hj']
    ring

theorem pathCost_append_single {n : ℕ} (S : Fin n → ℚ) (W : Fin n → Fin n → ℚ)
    (q : List (Fin n)) (j i : Fin n) (hq : q.getLast? = some j) :
    pathCost S W (q ++ [i]) = pathCost S W q + W j i := by
  cases q with
  | nil => simp at hq
  | cons x rest =>
    simp only [List.cons_append, pathCost, legs_append_single W rest x j i hq]
    ring

/-- Lower bound half of Held–Karp correctness: the table value is at most the
cost of any valid path over the same stop set with the same last stop. -/
theorem dpF_le_pathCost {n : ℕ} (S : Fin n → ℚ) (W : Fin n → Fin n → ℚ)
    (req : List (Option ℕ)) (p : List (Fin n)) :
    ∀ (fuel : ℕ) (i : Fin n), p.toFinset.card ≤ fuel →
      ValidPath req p.toFinset i p →
      dpF S W req fuel p.toFinset i ≤ (pathCost S W p : WithTop ℚ) := by
  induction p using List.reverseRecOn with
  | nil => intro fuel i _ hv; exact absurd rfl hv.1
  | append_singleton q x ih =>
    intro fuel i hcard hv
    obtain ⟨-, hnd, -, hlast, hprec⟩ := hv
    have hix : i = x := by
      rw [List.getLast?_concat] at hlast
      exact (Option.some.injEq _ _ ▸ hlast).symm
    rw [hix]
    have hxq : x ∉ q := by
      rcases List.nodup_append.mp hnd with ⟨-, -, hdisj⟩
      intro hmem
      exact hdisj hmem (by simp)
    have hndq : q.Nodup := (List.nodup_append.mp hnd).1
    have hts : (q ++ [x]).toFinset = insert x q.toFinset := by
      rw [List.toFinset_append, Finset.union_comm]
      rfl
    have hxqf : x ∉ q.toFinset := fun h => hxq (List.mem_toFinset.mp h)
    obtain ⟨hpq, hpre⟩ := (visitedOK_append_single req q x []).mp hprec
    rw [hts] at hcard ⊢
    have hcard1 : q.toFinset.card + 1 ≤ fuel := by
      rw [Finset.card_insert_of_not_mem hxqf] at hcard
      omega
    obtain ⟨f, rfl⟩ : ∃ f, fuel = f + 1 := ⟨fuel - 1, by omega⟩
    by_cases hqe : q = []
    · subst hqe
      have hreqx : req.getD x.val none = none := by
        cases hr : req.getD x.val none with
        | none => rfl
        | some r =>
          rcases hpre r hr with h1 | h1
          · simp at h1
          · obtain ⟨y, hy, -⟩ := h1
            simp at hy
      have hval : dpF S W req (f + 1) (insert x ([] : List (Fin n)).toFinset) x =
          (S x : WithTop ℚ) := by
        simp only [List.toFinset_nil, insert_emptyc_eq]
        rw [dpF_succ, hreqx]
        simp
      rw [hval]
      simp [pathCost, legs]
    · have hjex : q.getLast?.isSome := List.getLast?_isSome.mpr hqe
      obtain ⟨j, hj⟩ := Option.isSome_iff_exists.mp hjex
      have hjq : j ∈ q := List.mem_of_mem_getLast? hj
      obtain ⟨z, hzq⟩ := List.exists_mem_of_ne_nil q hqe
      have hsne : insert x q.toFinset ≠ {x} := by
        intro hcontra
        have hz1 : z ∈ insert x q.toFinset :=
          Finset.mem_insert_of_mem (List.mem_toFinset.mpr hzq)
        rw [hcontra] at hz1
        have hz2 : z = x := Finset.mem_singleton.mp hz1
        exact hxq (hz2 ▸ hzq)
      have herase : (insert x q.toFinset).erase x = q.toFinset :=
        Finset.erase_insert hxqf
      have hok : okStep req ((insert x q.toFinset).erase x) x = true := by
        rw [herase]
        unfold okStep
        cases hr : req.getD x.val none with
        | none => rfl
        | some r =>
          rcases hpre r hr with h1 | h1
          · simp at h1
          · obtain ⟨y, hy, hyv⟩ := h1
            show decide (∃ j ∈ q.toFinset, j.val = r) = true
            simp only [decide_eq_true_eq]
            exact ⟨y, List.mem_toFinset.mpr hy, hyv⟩
      have hxmem : x ∈ insert x q.toFinset := Finset.mem_insert_self _ _
      have hstep : dpF S W req (f + 1) (insert x q.toFinset) x =
          ((insert x q.toFinset).erase x).inf
            (fun j' => dpF S W req f ((insert x q.toFinset).erase x) j' +
              (W j' x : WithTop ℚ)) := by
        rw [dpF_succ, if_pos hxmem, if_neg hsne, if_pos hok]
      rw [hstep, herase]
      have hinfle : q.toFinset.inf
            (fun j' => dpF S W req f q.toFinset j' + (W j' x : WithTop ℚ)) ≤
          dpF S W req f q.toFinset j + (W j x : WithTop ℚ) :=
        Finset.inf_le (List.mem_toFinset.mpr hjq)
      have hih : dpF S W req f q.toFinset j ≤ (pathCost S W q : WithTop ℚ) :=
        ih f j (by omega) ⟨hqe, hndq, rfl, hj, hpq⟩
      calc q.toFinset.inf (fun j' => dpF S W req f q.toFinset j' + (W j' x : WithTop ℚ))
          ≤ dpF S W req f q.toFinset j + (W j x : WithTop ℚ) := hinfle
        _ ≤ (pathCost S W q : WithTop ℚ) + (W j x : WithTop ℚ) :=
            add_le_add_right hih _
        _ = ((pathCost S W q + W j x : ℚ) : WithTop ℚ) := by
            rw [WithTop.coe_add]
        _ = (pathCost S W (q ++ [x]) : WithTop ℚ) := by
            rw [pathCost_append_single S W q j x hj]

/-- The stops contributed by one order (helper for reasoning about
`buildSP`; not part of the source). -/
def stopsOf (picked : List String) (o : Order) : List Stop :=
  if o.order_id ∈ picked then [dropStop o] else [pickStop o, dropStop o]

theorem buildSP_fst (picked : List String) (os : List Order) :
    ∀ (s0 : List Stop) (p0 : List (String × ℕ)),
      (buildSP picked os (s0, p0)).1 = s0 ++ os.flatMap (stopsOf picked) := by
  induction os with
  | nil => intro s0 p0; simp [buildSP]
  | cons o rest ih =>
    intro s0 p0
    by_cases h : o.order_id ∈ picked <;>
      simp [buildSP, h, stopsOf, ih]

/-- The `pickup_idx` dict only ever points at pickup stops carrying the same
order id. -/
def goodPidx (stops : List Stop) (pidx : List (String × ℕ)) : Prop :=
  ∀ id u, lookupA pidx id = some u →
    ∃ h : u < stops.length,
      (stops.get ⟨u, h⟩).stop_type = StopType.PICKUP ∧
      (stops.get ⟨u, h⟩).order_id = id

theorem goodPidx_mono (s0 ext : List Stop) (pidx : List (String × ℕ))
    (h : goodPidx s0 pidx) : goodPidx (s0 ++ ext) pidx := by
  intro id u hu
  obtain ⟨hlt, h1, h2⟩ := h id u hu
  have hlt' : u < (s0 ++ ext).length := by
    rw [List.length_append]; omega
  refine ⟨hlt', ?_, ?_⟩
  · rw [List.get_append_left]
    exact h1
  · rw [List.get_append_left]
    exact h2

theorem buildSP_goodPidx (picked : List String) (os : List Order) :
    ∀ (s0 : List Stop) (p0 : List (String × ℕ)), goodPidx s0 p0 →
      goodPidx (buildSP picked os (s0, p0)).1 (buildSP picked os (s0, p0)).2 := by
  induction os with
  | nil => intro s0 p0 h; exact h
  | cons o rest ih =>
    intro s0 p0 h
    by_cases hmem : o.order_id ∈ picked
    · simp only [buildSP, hmem, if_true]
      exact ih _ _ (goodPidx_mono s0 [dropStop o] p0 h)
    · simp only [buildSP, hmem, if_false]
      apply ih
      intro id u hu
      rw [lookupA_insertD] at hu
      by_cases hid : o.order_id = id
      · rw [if_pos hid] at hu
        have hu' : u = s0.length := by
          exact (Option.some.injEq _ _ ▸ hu).symm
        subst hu'
        have hlen : (s0 ++ [pickStop o, dropStop o]).length = s0.length + 2 := by
          simp
        have hlt : s0.length < (s0 ++ [pickStop o, dropStop o]).length := by omega
        have hget : (s0 ++ [pickStop o, dropStop o]).get ⟨s0.length, hlt⟩ = pickStop o :=
          List.get_of_append rfl rfl
        refine ⟨hlt, ?_, ?_⟩
        · rw [hget]
          rfl
        · rw [hget]
          exact hid
      · rw [if_neg hid] at hu
        exact goodPidx_mono s0 [pickStop o, dropStop o] p0 h id u hu

theorem buildSP_lookup_isSome (picked : List String) (os : List Order) :
    ∀ (s0 : List Stop) (p0 : List (String × ℕ)) (id : String),
      ((lookupA p0 id).isSome ∨ (∃ o ∈ os, o.order_id = id ∧ id ∉ picked)) →
      (lookupA (buildSP picked os (s0, p0)).2 id).isSome := by
  induction os with
  | nil =>
    intro s0 p0 id h
    rcases h with h | h
    · exact h
    · obtain ⟨o, ho, -⟩ := h
      cases ho
  | cons o rest ih =>
    intro s0 p0 id h
    by_cases hmem : o.order_id ∈ picked
    · simp only [buildSP, hmem, if_true]
      apply ih
      rcases h with h | h
      · exact Or.inl h
      · obtain ⟨o', ho', hid, hpick⟩ := h
        rcases List.mem_cons.mp ho' with h1 | h1
        · exfalso
          apply hpick
          rw [← hid, h1]
          exact hmem
        · exact Or.inr ⟨o', h1, hid, hpick⟩
    · simp only [buildSP, hmem, if_false]
      apply ih
      rcases h with h | h
      · refine Or.inl ?_
        rw [lookupA_insertD]
        by_cases hid : o.order_id = id
        · simp [hid]
        · simp [hid, h]
      · obtain ⟨o', ho', hid, hpick⟩ := h
        rcases List.mem_cons.mp ho' with h1 | h1
        · refine Or.inl ?_
          rw [lookupA_insertD]
          have hoid : o.order_id = id := by rw [← h1]; exact hid
          simp [hoid]
        · exact Or.inr ⟨o', h1, hid, hpick⟩

/-- Two distinct positions satisfying a predicate force at least two matches
in the filtered list. -/
theorem two_get_le_count {α : Type} (l : List α) (pred : α → Bool) :
    ∀ (a b : Fin l.length), a.val ≠ b.val → pred (l.get a) = true → pred (l.get b) = true →
      2 ≤ (l.filter pred).length := by
  induction l with
  | nil => intro a; exact absurd a.2 (by simp)
  | cons x rest ih =>
    intro a b hab ha hb
    match a, b with
    | ⟨0, _⟩, ⟨0, _⟩ => exact absurd rfl hab
    | ⟨0, _⟩, ⟨b' + 1, hb'⟩ =>
      have hx : pred x = true := ha
      have hbmem : rest.get ⟨b', by simpa using hb'⟩ ∈ rest := List.get_mem _ _ _
      have hfb : rest.get ⟨b', by simpa using hb'⟩ ∈ rest.filter pred :=
        List.mem_filter.mpr ⟨hbmem, hb⟩
      have h1 : 1 ≤ (rest.filter pred).length := List.length_pos.mpr
        (fun hcontra => by rw [hcontra] at hfb; cases hfb)
      simp [List.filter_cons, hx]
      omega
    | ⟨a' + 1, ha'⟩, ⟨0, _⟩ =>
      have hx : pred x = true := hb
      have hamem : rest.get ⟨a', by simpa using ha'⟩ ∈ rest := List.get_mem _ _ _
      have hfa : rest.get ⟨a', by simpa using ha'⟩ ∈ rest.filter pred :=
        List.mem_filter.mpr ⟨hamem, ha⟩
      have h1 : 1 ≤ (rest.filter pred).length := List.length_pos.mpr
        (fun hcontra => by rw [hcontra] at hfa; cases hfa)
      simp [List.filter_cons, hx]
      omega
    | ⟨a' + 1, ha'⟩, ⟨b' + 1, hb'⟩ =>
      have h1 : 2 ≤ (rest.filter pred).length :=
        ih ⟨a', by simpa using ha'⟩ ⟨b', by simpa using hb'⟩ (by simpa using hab) ha hb
      cases hx : pred x <;> simp [List.filter_cons, hx] <;> omega

/-- With pairwise-distinct order ids, the stop list contains at most one
pickup stop per order id. -/
theorem pickup_filter_le_one (picked : List String) (os : List Order)
    (hnd : (os.map Order.order_id).Nodup) (id : String) :
    ((os.flatMap (stopsOf picked)).filter
      (fun s => s.stop_type = StopType.PICKUP && s.order_id = id)).length ≤ 1 := by
  induction os with
  | nil => simp
  | cons o rest ih =>
    have hnd' : (rest.map Order.order_id).Nodup := (List.nodup_cons.mp hnd).2
    have hno : o.order_id ∉ rest.map Order.order_id := (List.nodup_cons.mp hnd).1
    rw [List.flatMap_cons, List.filter_append, List.length_append]
    by_cases hid : o.order_id = id
    · have hrest :
          ((rest.flatMap (stopsOf picked)).filter
            (fun s => s.stop_type = StopType.PICKUP && s.order_id = id)).length = 0 := by
        rw [List.length_eq_zero]
        rw [List.filter_eq_nil_iff]
        intro s hs
        rw [List.mem_flatMap] at hs
        obtain ⟨o', ho', hso'⟩ := hs
        have hsid : s.order_id = o'.order_id := by
          unfold stopsOf at hso'
          by_cases hp : o'.order_id ∈ picked
          · rw [if_pos hp] at hso'
            simp only [List.mem_singleton] at hso'
            rw [hso']; rfl
          · rw [if_neg hp] at hso'
            rcases List.mem_cons.mp hso' with h1 | h1
            · rw [h1]; rfl
            · simp only [List.mem_singleton] at h1
              rw [h1]; rfl
        simp only [Bool.and_eq_true, decide_eq_true_eq, not_and]
        intro _ hcontra
        apply hno
        have hoo : o'.order_id = o.order_id := by rw [← hsid, hcontra, hid]
        rw [← hoo]
        exact List.mem_map_of_mem Order.order_id ho'
      have hself :
          ((stopsOf picked o).filter
            (fun s => s.stop_type = StopType.PICKUP && s.order_id = id)).length ≤ 1 := by
        unfold stopsOf
        by_cases hp : o.order_id ∈ picked
        · simp [hp, dropStop]
        · simp [hp, pickStop, dropStop, List.filter]
          by_cases hid2 : o.order_id = id <;> simp [hid2]
      omega
    · have hself :
          ((stopsOf picked o).filter
            (fun s => s.stop_type = StopType.PICKUP && s.order_id = id)).length = 0 := by
        unfold stopsOf
        by_cases hp : o.order_id ∈ picked
        · simp [hp, dropStop]
        · simp [hp, pickStop, dropStop, List.filter, hid]
      have := ih hnd'
      omega

/-- Every stop in the built list comes from one of the orders. -/
theorem mem_flatMap_stopsOf (picked : List String) (os : List Order) (s : Stop) :
    s ∈ os.flatMap (stopsOf picked) ↔
      ∃ o ∈ os, s ∈ stopsOf picked o := List.mem_flatMap

/-- Positional form of the precedence check: an ordering passes iff for every
position whose stop has a required pickup, that pickup's index occurs earlier
(or was already visited). -/
theorem visitedOK_iff_positions {n : ℕ} (req : List (Option ℕ)) :
    ∀ (p : List (Fin n)) (vis : List ℕ),
      (visitedOK req vis p = true ↔
        ∀ (k2 : Fin p.length) (r : ℕ), req.getD (p.get k2).val none = some r →
          r ∈ vis ∨ ∃ k1 : Fin p.length, k1.val < k2.val ∧ (p.get k1).val = r) := by
  intro p
  induction p with
  | nil =>
    intro vis
    constructor
    · intro _ k2
      exact k2.elim0
    · intro _
      rfl
  | cons i rest ih =>
    intro vis
    have hstep : visitedOK req vis (i :: rest) = true ↔
        ((∀ r, req.getD i.val none = some r → r ∈ vis) ∧
          visitedOK req (i.val :: vis) rest = true) := by
      cases hreq : req.getD i.val none with
      | none =>
        show ((match req.getD i.val none with
               | none => true
               | some r => decide (r ∈ vis)) && visitedOK req (i.val :: vis) rest) = true ↔ _
        rw [hreq]
        simp
      | some r0 =>
        show ((match req.getD i.val none with
               | none => true
               | some r => decide (r ∈ vis)) && visitedOK req (i.val :: vis) rest) = true ↔ _
        rw [hreq]
        simp
    rw [hstep, ih (i.val :: vis)]
    constructor
    · rintro ⟨h0, hrest⟩ k2 r hr
      match k2 with
      | ⟨0, hk⟩ =>
        exact Or.inl (h0 r hr)
      | ⟨k2' + 1, hk⟩ =>
        have hk2' : k2' < rest.length := by simpa using hk
        have hr' : req.getD ((rest.get ⟨k2', hk2'⟩)).val none = some r := hr
        rcases hrest ⟨k2', hk2'⟩ r hr' with hv | ⟨k1', hk1, hk1v⟩
        · rcases List.mem_cons.mp hv with h1 | h1
          · refine Or.inr ⟨⟨0, Nat.succ_pos _⟩, Nat.succ_pos _, ?_⟩
            exact h1.symm
          · exact Or.inl h1
        · refine Or.inr ⟨⟨k1'.val + 1, Nat.succ_lt_succ k1'.2⟩, Nat.succ_lt_succ hk1, ?_⟩
          exact hk1v
    · intro hall
      constructor
      · intro r hr
        rcases hall ⟨0, Nat.succ_pos _⟩ r hr with h1 | ⟨k1, hlt, -⟩
        · exact h1
        · simp at hlt
      · intro k2' r hr'
        rcases hall ⟨k2'.val + 1, Nat.succ_lt_succ k2'.2⟩ r hr' with h1 | ⟨k1, hlt, hk⟩
        · exact Or.inl (List.mem_cons_of_mem _ h1)
        · match k1, hlt, hk with
          | ⟨0, _⟩, _, hk =>
            refine Or.inl ?_
            rw [← hk]
            exact List.mem_cons_self _ _
          | ⟨k1' + 1, hh⟩, hlt, hk =>
            refine Or.inr ⟨⟨k1', by simpa using hh⟩, by simpa using hlt, ?_⟩
            exact hk

/-- Attainment half of Held–Karp correctness: a finite table value is the
cost of some valid path. -/
theorem dpF_attained {n : ℕ} (S : Fin n → ℚ) (W : Fin n → Fin n → ℚ)
    (req : List (Option ℕ)) :
    ∀ (fuel : ℕ) (s : Finset (Fin n)) (i : Fin n), s.card ≤ fuel → i ∈ s →
      dpF S W req fuel s i ≠ ⊤ →
      ∃ p, ValidPath req s i p ∧ p.toFinset = s ∧
        (pathCost S W p : WithTop ℚ) = dpF S W req fuel s i := by
  intro fuel
  induction fuel with
  | zero =>
    intro s i hcard hi _
    exact absurd hcard (by simp [Finset.card_pos.mpr ⟨i, hi⟩, Nat.pos_iff_ne_zero.mp])
  | succ f ih =>
    intro s i hcard hi hne
    by_cases hsi : s = {i}
    · subst hsi
      have hreq : req.getD i.val none = none := by
        cases hr : req.getD i.val none with
        | none => rfl
        | some r =>
          exfalso
          apply hne
          rw [dpF_succ, hr]
          simp
      have hval : dpF S W req (f + 1) {i} i = (S i : WithTop ℚ) := by
        rw [dpF_succ, hreq]
        simp
      refine ⟨[i], ⟨by simp, by simp, by simp, by simp, ?_⟩, by simp, ?_⟩
      · unfold precOK visitedOK
        rw [hreq]
        simp [visitedOK]
      · simp [hval, pathCost, legs]
    · have hok : okStep req (s.erase i) i = true := by
        by_contra hcontra
        apply hne
        simp [dpF, hi, hsi, hcontra]
      have hstep : dpF S W req (f + 1) s i =
          (s.erase i).inf
            (fun j => dpF S W req f (s.erase i) j + (W j i : WithTop ℚ)) := by
        simp [dpF, hi, hsi, hok]
      have herasene : (s.erase i).Nonempty := by
        have h2 : 1 < s.card := by
          rcases Nat.lt_or_ge 1 s.card with h | h
          · exact h
          · exfalso
            have h1 : 0 < s.card := Finset.card_pos.mpr ⟨i, hi⟩
            have hc1 : s.card = 1 := by omega
            obtain ⟨a, ha⟩ := Finset.card_eq_one.mp hc1
            apply hsi
            rw [ha] at hi ⊢
            rw [Finset.mem_singleton.mp hi]
        obtain ⟨j, hj, hji⟩ := Finset.exists_ne_of_one_lt_card h2 i
        exact ⟨j, Finset.mem_erase.mpr ⟨hji, hj⟩⟩
      obtain ⟨j, hj, hjinf⟩ := Finset.exists_mem_eq_inf (s.erase i)
        herasene (fun j => dpF S W req f (s.erase i) j + (W j i : WithTop ℚ))
      rw [hstep, hjinf]
      have hdpne : dpF S W req f (s.erase i) j ≠ ⊤ := by
        intro hcontra
        rw [hstep, hjinf, hcontra] at hne
        simp at hne
      have hcarde : (s.erase i).card ≤ f := by
        rw [Finset.card_erase_of_mem hi]
        have : 0 < s.card := Finset.card_pos.mpr ⟨i, hi⟩
        omega
      have hjs : j ∈ s := Finset.mem_of_mem_erase hj
      obtain ⟨q, ⟨hqne, hqnd, hqts, hqlast, hqprec⟩, hqts2, hqcost⟩ :=
        ih (s.erase i) j hcarde hj hdpne
      have htsp : (q ++ [i]).toFinset = s := by
        rw [List.toFinset_append, Finset.union_comm]
        show insert i q.toFinset = s
        rw [hqts]
        exact Finset.insert_erase hi
      refine ⟨q ++ [i], ⟨by simp, ?_, htsp, List.getLast?_concat _, ?_⟩, htsp, ?_⟩
      · rw [List.nodup_append]
        refine ⟨hqnd, by simp, ?_⟩
        intro a ha hb
        have hai : a = i := by simpa using hb
        rw [hai] at ha
        have hmem : i ∈ s.erase i := hqts ▸ List.mem_toFinset.mpr ha
        exact (Finset.mem_erase.mp hmem).1 rfl
      · unfold precOK
        rw [visitedOK_append_single req q i []]
        refine ⟨hqprec, fun r hr => ?_⟩
        unfold okStep at hok
        rw [hr] at hok
        simp only [decide_eq_true_eq] at hok
        obtain ⟨y, hy, hyv⟩ := hok
        exact Or.inr ⟨y, List.mem_toFinset.mp (hqts ▸ hy), hyv⟩
      · rw [pathCost_append_single S W q j i hqlast]
        rw [WithTop.coe_add, hqcost]


theorem order_id_of_mem_stopsOf (picked : List String) (o : Order) (s : Stop)
    (h : s ∈ stopsOf picked o) : s.order_id = o.order_id := by
  unfold stopsOf at h
  by_cases hp : o.order_id ∈ picked
  · rw [if_pos hp] at h
    simp only [List.mem_singleton] at h
    rw [h]
    rfl
  · rw [if_neg hp] at h
    rcases List.mem_cons.mp h with h1 | h1
    · rw [h1]
      rfl
    · simp only [List.mem_singleton] at h1
      rw [h1]
      rfl

theorem mem_buildSP_source (picked : List String) (orders : List Order) (s : Stop)
    (h : s ∈ (buildSP picked orders ([], [])).1) : ∃ o ∈ orders, s ∈ stopsOf picked o := by
  rw [buildSP_fst] at h
  rw [List.nil_append] at h
  exact List.mem_flatMap.mp h

theorem buildSP_filter_pickup_le_one (picked : List String) (orders : List Order)
    (hnd : (orders.map Order.order_id).Nodup) (id : String) :
    ((buildSP picked orders ([], [])).1.filter
      (fun s => s.stop_type = StopType.PICKUP && s.order_id = id)).length ≤ 1 := by
  rw [buildSP_fst, List.nil_append]
  exact pickup_filter_le_one picked orders hnd id

theorem reqList_getD (stops : List Stop) (pidx : List (String × ℕ))
    (picked : List String) (v : Fin stops.length) :
    (reqList stops pidx picked).getD v.val none =
      if (stops.get v).stop_type = StopType.DROPOFF ∧ (stops.get v).order_id ∉ picked
      then lookupA pidx (stops.get v).order_id
      else none := by
  unfold reqList
  have h2 : v.val < (stops.map (fun s =>
      match s.stop_type with
      | StopType.PICKUP => none
      | StopType.DROPOFF =>
        if s.order_id ∈ picked then none else lookupA pidx s.order_id)).length := by
    simpa using v.2
  rw [List.getD_eq_getElem _ _ h2, List.getElem_map, List.get_eq_getElem]
  cases hst : stops[v.val].stop_type with
  | PICKUP => simp [hst]
  | DROPOFF =>
    by_cases hp : stops[v.val].order_id ∈ picked
    · simp [hst, hp]
    · simp [hst, hp]

/-- The key glue: over the stop list built by `find_optimal_route`, the
`required_pickup` precedence check of an ordering coincides with the
spec-level pickup-before-dropoff property, provided the order ids are
pairwise distinct. -/
theorem precOK_iff_pickupBeforeDropoff (picked : List String) (orders : List Order)
    (hnd : (orders.map Order.order_id).Nodup)
    (p : List (Fin (buildSP picked orders ([], [])).1.length)) :
    (precOK (reqList (buildSP picked orders ([], [])).1
        (buildSP picked orders ([], [])).2 picked) p = true) ↔
      pickupBeforeDropoff (buildSP picked orders ([], [])).1 picked p := by
  have hstops : (buildSP picked orders ([], [])).1 = orders.flatMap (stopsOf picked) := by
    rw [buildSP_fst]
    rfl
  have hgood : goodPidx (buildSP picked orders ([], [])).1 (buildSP picked orders ([], [])).2 :=
    buildSP_goodPidx picked orders [] [] (fun id u hu => by cases hu)
  unfold precOK
  rw [visitedOK_iff_positions]
  unfold pickupBeforeDropoff
  constructor
  · intro hpos k2 hdrop hnpick
    have hreqv : (reqList (buildSP picked orders ([], [])).1
        (buildSP picked orders ([], [])).2 picked).getD (p.get k2).val none =
        lookupA (buildSP picked orders ([], [])).2
          (((buildSP picked orders ([], [])).1.get (p.get k2)).order_id) :=
      (reqList_getD _ _ picked (p.get k2)).trans (if_pos ⟨hdrop, hnpick⟩)
    obtain ⟨o, ho, hso⟩ := mem_buildSP_source picked orders _ (List.get_mem _ _ _)
    have hido : ((buildSP picked orders ([], [])).1.get (p.get k2)).order_id = o.order_id :=
      order_id_of_mem_stopsOf picked o _ hso
    have hpick2 : o.order_id ∉ picked := by
      rw [← hido]
      exact hnpick
    have hsome : (lookupA (buildSP picked orders ([], [])).2 o.order_id).isSome :=
      buildSP_lookup_isSome picked orders [] [] o.order_id
        (Or.inr ⟨o, ho, rfl, hpick2⟩)
    obtain ⟨u, hu⟩ := Option.isSome_iff_exists.mp hsome
    have hrequ : (reqList (buildSP picked orders ([], [])).1
        (buildSP picked orders ([], [])).2 picked).getD (p.get k2).val none = some u := by
      rw [hreqv, hido]
      exact hu
    rcases hpos k2 u hrequ with hv | ⟨k1, hlt, hk1v⟩
    · cases hv
    · obtain ⟨hult, htyp, hidu⟩ := hgood o.order_id u hu
      have hk1eq : p.get k1 = ⟨u, hult⟩ := Fin.ext hk1v
      refine ⟨k1, hlt, ?_, ?_⟩
      · rw [hk1eq]
        exact htyp
      · rw [hk1eq, hidu, hido]
  · intro hpbd k2 r hr
    replace hr := (reqList_getD (buildSP picked orders ([], [])).1
      (buildSP picked orders ([], [])).2 picked (p.get k2)).symm.trans hr
    by_cases hcond : ((buildSP picked orders ([], [])).1.get (p.get k2)).stop_type =
        StopType.DROPOFF ∧
        ((buildSP picked orders ([], [])).1.get (p.get k2)).order_id ∉ picked
    · replace hr := (if_pos hcond).symm.trans hr
      obtain ⟨htyp, hnp⟩ := hcond
      obtain ⟨hrlt, hrtyp, hrid⟩ := hgood _ r hr
      obtain ⟨k1, hlt, htyp1, hid1⟩ := hpbd k2 htyp hnp
      have hvals : (p.get k1).val = r := by
        by_contra hne
        have h2c := two_get_le_count (buildSP picked orders ([], [])).1
          (fun s => s.stop_type = StopType.PICKUP &&
            s.order_id = ((buildSP picked orders ([], [])).1.get (p.get k2)).order_id)
          (p.get k1) ⟨r, hrlt⟩ hne
          (by simp only [Bool.and_eq_true, decide_eq_true_eq]; exact ⟨htyp1, hid1⟩)
          (by simp only [Bool.and_eq_true, decide_eq_true_eq]; exact ⟨hrtyp, hrid⟩)
        have h1c := buildSP_filter_pickup_le_one picked orders hnd
          (((buildSP picked orders ([], [])).1.get (p.get k2)).order_id)
        omega
      exact Or.inr ⟨k1, hlt, hvals⟩
    · replace hr := (if_neg hcond).symm.trans hr
      cases hr


theorem coe_untop'_of_ne_top {x : WithTop ℚ} (h : x ≠ ⊤) :
    ((x.untop' 0 : ℚ) : WithTop ℚ) = x := by
  cases x with
  | top => exact absurd rfl h
  | coe q => rfl

theorem source_mem_buildSP (picked : List String) (orders : List Order) (s : Stop)
    (o : Order) (ho : o ∈ orders) (hs : s ∈ stopsOf picked o) :
    s ∈ (buildSP picked orders ([], [])).1 := by
  rw [buildSP_fst, List.nil_append]
  exact List.mem_flatMap.mpr ⟨o, ho, hs⟩

theorem buildSP_length_pos (picked : List String) (orders : List Order)
    (hne : orders ≠ []) : 0 < (buildSP picked orders ([], [])).1.length := by
  rw [buildSP_fst, List.nil_append]
  match orders, hne with
  | o :: rest, _ =>
    rw [List.flatMap_cons, List.length_append]
    unfold stopsOf
    by_cases h : o.order_id ∈ picked <;> simp [h]

/-- The Held–Karp answer (value of the final best-last scan) equals the
brute-force minimum over precedence-respecting orderings, at the
`required_pickup` level. -/
theorem bestLastPair_dpF_eq_listMin {n : ℕ} (hn : 0 < n) (S : Fin n → ℚ)
    (W : Fin n → Fin n → ℚ) (req : List (Option ℕ)) :
    (bestLastPair (fun i => dpF S W req n Finset.univ i)).1 =
      listMin (((List.finRange n).permutations.filter (fun p => precOK req p)).map
        (fun p => (pathCost S W p : WithTop ℚ))) := by
  obtain ⟨hinv, hall⟩ := bestLastPair_inv (fun i => dpF S W req n Finset.univ i)
  have hcardu : (Finset.univ : Finset (Fin n)).card = n := by
    rw [Finset.card_univ, Fintype.card_fin]
  apply le_antisymm
  · apply le_listMin
    intro c hc
    obtain ⟨p, hpf, rfl⟩ := List.mem_map.mp hc
    obtain ⟨hpmem, hprec⟩ := List.mem_filter.mp hpf
    have hperm : List.Perm p (List.finRange n) := List.mem_permutations.mp hpmem
    have hpne : p ≠ [] := by
      intro hcontra
      have hlen := hperm.length_eq
      rw [hcontra] at hlen
      simp at hlen
      omega
    have hpnd : p.Nodup := hperm.nodup_iff.mpr (List.nodup_finRange n)
    have hpts : p.toFinset = Finset.univ := by
      rw [List.toFinset_eq_of_perm p (List.finRange n) hperm, List.toFinset_finRange]
    obtain ⟨i, hi⟩ := Option.isSome_iff_exists.mp (List.getLast?_isSome.mpr hpne)
    have hle := dpF_le_pathCost S W req p n i
      (by rw [hpts, hcardu]) ⟨hpne, hpnd, rfl, hi, hprec⟩
    rw [hpts] at hle
    exact le_trans (hall i) hle
  · cases hb2 : (bestLastPair (fun i => dpF S W req n Finset.univ i)).2 with
    | none =>
      rw [hb2] at hinv
      simp only at hinv
      rw [hinv]
      exact le_top
    | some bl =>
      rw [hb2] at hinv
      simp only at hinv
      by_cases htop : (bestLastPair (fun i => dpF S W req n Finset.univ i)).1 = ⊤
      · rw [htop]
        exact le_top
      · have hdpne : dpF S W req n Finset.univ bl ≠ ⊤ := by
          rw [hinv]
          exact htop
        obtain ⟨p, ⟨hpne, hpnd, hpts, hplast, hpprec⟩, -, hpcost⟩ :=
          dpF_attained S W req n Finset.univ bl (by rw [hcardu]) (Finset.mem_univ bl) hdpne
        have hpmem : p ∈ (List.finRange n).permutations := by
          rw [List.mem_permutations]
          exact List.perm_of_nodup_nodup_toFinset_eq hpnd (List.nodup_finRange n)
            (by rw [hpts, List.toFinset_finRange])
        have hcmem : (pathCost S W p : WithTop ℚ) ∈
            (((List.finRange n).permutations.filter (fun p => precOK req p)).map
              (fun p => (pathCost S W p : WithTop ℚ))) :=
          List.mem_map_of_mem _ (List.mem_filter.mpr ⟨hpmem, hpprec⟩)
        have := listMin_le hcmem
        rw [hpcost, hinv] at this
        exact this


/-- A precedence-respecting ordering always exists (all pickups first, then
all dropoffs), so the brute-force minimum over a non-empty order set is
finite. -/
theorem bruteForceMin_ne_top (D : Dist) (start_loc : Loc)
    (orders already_picked_up : List Order) (hne : orders ≠ []) :
    bruteForceMin D start_loc orders already_picked_up ≠ ⊤ := by
  simp only [bruteForceMin]
  intro htop
  set pickedIds := already_picked_up.map (fun x => x.order_id) with hpck
  set stops := (buildSP pickedIds orders ([], [])).1 with hst
  set n := stops.length with hn
  set A := (List.finRange n).filter
    (fun i => decide ((stops.get i).stop_type = StopType.PICKUP)) with hA
  set B := (List.finRange n).filter
    (fun i => !decide ((stops.get i).stop_type = StopType.PICKUP)) with hB
  have hperm : List.Perm (A ++ B) (List.finRange n) := List.filter_append_perm _ _
  have hgmem : (A ++ B) ∈ (List.finRange n).permutations :=
    List.mem_permutations.mpr hperm
  have hpbd : pickupBeforeDropoff stops pickedIds (A ++ B) := by
    intro k2 hdrop hnpick
    have hk2A : A.length ≤ k2.val := by
      by_contra hlt
      push_neg at hlt
      have hget : (A ++ B).get k2 = A.get ⟨k2.val, hlt⟩ := by
        rw [List.get_append_left]
      have hmemA : A.get ⟨k2.val, hlt⟩ ∈ (List.finRange n).filter
          (fun i => decide ((stops.get i).stop_type = StopType.PICKUP)) := by
        rw [← hA]
        exact List.get_mem _ _ _
      have := (List.mem_filter.mp hmemA).2
      rw [← hget] at this
      simp only [decide_eq_true_eq] at this
      rw [this] at hdrop
      cases hdrop
    obtain ⟨o, ho, hso⟩ := mem_buildSP_source pickedIds orders _
      (List.get_mem stops ((A ++ B).get k2).val ((A ++ B).get k2).2)
    have hido : (stops.get ((A ++ B).get k2)).order_id = o.order_id :=
      order_id_of_mem_stopsOf pickedIds o _ hso
    have hpick2 : o.order_id ∉ pickedIds := by
      rw [← hido]
      exact hnpick
    have hpsmem : pickStop o ∈ stops := by
      apply source_mem_buildSP pickedIds orders _ o ho
      unfold stopsOf
      rw [if_neg hpick2]
      exact List.mem_cons_self _ _
    obtain ⟨u, hu⟩ := List.mem_iff_get.mp hpsmem
    have huA : u ∈ A := by
      rw [hA]
      refine List.mem_filter.mpr ⟨List.mem_finRange u, ?_⟩
      rw [hu]
      simp [pickStop]
    obtain ⟨j, hj⟩ := List.mem_iff_get.mp huA
    have hk1lt : j.val < (A ++ B).length := by
      rw [List.length_append]
      have := j.2
      omega
    refine ⟨⟨j.val, hk1lt⟩, ?_, ?_, ?_⟩
    · have := j.2
      simp only
      omega
    · have hget : (A ++ B).get ⟨j.val, hk1lt⟩ = A.get j := by
        rw [List.get_append_left]
      rw [hget, hj, hu]
      rfl
    · have hget : (A ++ B).get ⟨j.val, hk1lt⟩ = A.get j := by
        rw [List.get_append_left]
      rw [hget, hj, hu]
      show (pickStop o).order_id = _
      rw [hido]
      rfl
  have hfmem : (pathCost (dStart D start_loc stops) (dMat D stops) (A ++ B) : WithTop ℚ) ∈
      (((List.finRange n).permutations.filter
        (fun p => decide (pickupBeforeDropoff stops pickedIds p))).map
        (fun p => (pathCost (dStart D start_loc stops) (dMat D stops) p : WithTop ℚ))) := by
    apply List.mem_map_of_mem
    exact List.mem_filter.mpr ⟨hgmem, decide_eq_true hpbd⟩
  have hle := listMin_le hfmem
  rw [htop] at hle
  exact WithTop.coe_ne_top (top_le_iff.mp hle)


/-- **C1** (TSP-PC optimality): for every start location, every non-empty
order set with pairwise-distinct ids, and every subset of those orders
marked already picked up, the distance returned by `find_optimal_route`
equals the brute-force minimum, over all stop orderings that visit each
not-already-picked-up order's PICKUP before its DROPOFF (and each DROPOFF
exactly once, being orderings of the stop list), of the total travel
distance from the start through the stops in that order. -/
theorem find_optimal_route_optimal (D : Dist) (start_loc : Loc)
    (orders already_picked_up : List Order)
    (hne : orders ≠ [])
    (hnd : (orders.map Order.order_id).Nodup)
    (hsub : ∀ o ∈ already_picked_up, o ∈ orders) :
    ((find_optimal_route D start_loc orders already_picked_up).2 : WithTop ℚ) =
      bruteForceMin D start_loc orders already_picked_up := by
  have hn : 0 < (buildSP (already_picked_up.map (fun x => x.order_id)) orders ([], [])).1.length :=
    buildSP_length_pos _ orders hne
  have hnz : ¬((buildSP (already_picked_up.map (fun x => x.order_id)) orders ([], [])).1.length = 0) := by
    omega
  have hmain : (bestLastPair (fun i =>
      dpF (dStart D start_loc (buildSP (already_picked_up.map (fun x => x.order_id)) orders ([], [])).1)
          (dMat D (buildSP (already_picked_up.map (fun x => x.order_id)) orders ([], [])).1)
          (reqList (buildSP (already_picked_up.map (fun x => x.order_id)) orders ([], [])).1
                   (buildSP (already_picked_up.map (fun x => x.order_id)) orders ([], [])).2
                   (already_picked_up.map (fun x => x.order_id)))
          (buildSP (already_picked_up.map (fun x => x.order_id)) orders ([], [])).1.length
          Finset.univ i)).1 =
      bruteForceMin D start_loc orders already_picked_up := by
    rw [bestLastPair_dpF_eq_listMin hn]
    simp only [bruteForceMin]
    congr 1
    congr 1
    apply List.filter_congr
    intro q hq
    have hiff := precOK_iff_pickupBeforeDropoff
      (already_picked_up.map (fun x => x.order_id)) orders hnd q
    by_cases hp : pickupBeforeDropoff
        (buildSP (already_picked_up.map (fun x => x.order_id)) orders ([], [])).1
        (already_picked_up.map (fun x => x.order_id)) q
    · rw [decide_eq_true hp]
      exact hiff.mpr hp
    · rw [decide_eq_false hp]
      cases hq2 : precOK (reqList
          (buildSP (already_picked_up.map (fun x => x.order_id)) orders ([], [])).1
          (buildSP (already_picked_up.map (fun x => x.order_id)) orders ([], [])).2
          (already_picked_up.map (fun x => x.order_id))) q
      · rfl
      · exact absurd (hiff.mp hq2) hp
  have hnetop := bruteForceMin_ne_top D start_loc orders already_picked_up hne
  unfold find_optimal_route
  rw [if_neg hne]
  dsimp only
  rw [if_neg hnz]
  have hbne : (bestLastPair (fun i =>
      dpF (dStart D start_loc (buildSP (already_picked_up.map (fun x => x.order_id)) orders ([], [])).1)
          (dMat D (buildSP (already_picked_up.map (fun x => x.order_id)) orders ([], [])).1)
          (reqList (buildSP (already_picked_up.map (fun x => x.order_id)) orders ([], [])).1
                   (buildSP (already_picked_up.map (fun x => x.order_id)) orders ([], [])).2
                   (already_picked_up.map (fun x => x.order_id)))
          (buildSP (already_picked_up.map (fun x => x.order_id)) orders ([], [])).1.length
          Finset.univ i)).1 ≠ ⊤ := by
    rw [hmain]
    exact hnetop
  have h2 : (bestLastPair (fun i =>
      dpF (dStart D start_loc (buildSP (already_picked_up.map (fun x => x.order_id)) orders ([], [])).1)
          (dMat D (buildSP (already_picked_up.map (fun x => x.order_id)) orders ([], [])).1)
          (reqList (buildSP (already_picked_up.map (fun x => x.order_id)) orders ([], [])).1
                   (buildSP (already_picked_up.map (fun x => x.order_id)) orders ([], [])).2
                   (already_picked_up.map (fun x => x.order_id)))
          (buildSP (already_picked_up.map (fun x => x.order_id)) orders ([], [])).1.length
          Finset.univ i)).2.isSome := by
    rw [Option.isSome_iff_ne_none]
    intro hb2
    exact hbne (bestLastPair_none_top _ hb2)
  rw [finishRoute_snd _ _ _ _ _ h2, coe_untop'_of_ne_top hbne, hmain]

/-! ### Concrete fixtures for witnesses -/

/-- A concrete order used by witness instances. -/
def oA : Order :=
  { order_id := "A", pickup_lat := 0, pickup_lng := 0, dropoff_lat := 1, dropoff_lng := 1,
    created_time := 0, deadline := 30, estimated_delivery_time_min := 30 }

/-- A second concrete order used by witness instances. -/
def oB : Order :=
  { order_id := "B", pickup_lat := 2, pickup_lng := 0, dropoff_lat := 3, dropoff_lng := 1,
    created_time := 0, deadline := 30, estimated_delivery_time_min := 30 }

/-- A concrete distance oracle: every pair of locations is 1 km apart. -/
def D0 : Dist := fun _ _ => 1

/-- Witness for C1: on a concrete two-order instance with one order already
picked up, the engine's optimal distance equals the brute-force minimum. -/
theorem find_optimal_route_optimal_witness :
    ((find_optimal_route D0 (0, 0) [oA, oB] [oA]).2 : WithTop ℚ) =
      bruteForceMin D0 (0, 0) [oA, oB] [oA] :=
  find_optimal_route_optimal D0 (0, 0) [oA, oB] [oA]
    (by decide) (by decide) (by simp)

/-! ### Path reconstruction respects the precedences (claim C5) -/

theorem parentFold_nil {n : ℕ} (dp : Finset (Fin n) → Fin n → WithTop ℚ)
    (W : Fin n → Fin n → ℚ) (s : Finset (Fin n)) (i : Fin n)
    (acc : WithTop ℚ × Option (Fin n)) :
    parentFold dp W s i [] acc = acc := rfl

theorem parentFold_cons {n : ℕ} (dp : Finset (Fin n) → Fin n → WithTop ℚ)
    (W : Fin n → Fin n → ℚ) (s : Finset (Fin n)) (i : Fin n)
    (x : Fin n) (rest : List (Fin n)) (acc : WithTop ℚ × Option (Fin n)) :
    parentFold dp W s i (x :: rest) acc =
      parentFold dp W s i rest
        (if x ∈ s.erase i ∧ dp (s.erase i) x + (W x i : WithTop ℚ) < acc.1 then
          (dp (s.erase i) x + (W x i : WithTop ℚ), some x)
        else acc) := rfl

theorem parentFold_inv {n : ℕ} (dp : Finset (Fin n) → Fin n → WithTop ℚ)
    (W : Fin n → Fin n → ℚ) (s : Finset (Fin n)) (i : Fin n) (l : List (Fin n)) :
    ∀ acc : WithTop ℚ × Option (Fin n),
      (match acc.2 with
       | none => acc.1 = ⊤
       | some b => b ∈ s.erase i ∧ dp (s.erase i) b + (W b i : WithTop ℚ) = acc.1) →
      (match (parentFold dp W s i l acc).2 with
       | none => (parentFold dp W s i l acc).1 = ⊤
       | some b => b ∈ s.erase i ∧
           dp (s.erase i) b + (W b i : WithTop ℚ) = (parentFold dp W s i l acc).1) ∧
      (∀ j ∈ l, j ∈ s.erase i →
        (parentFold dp W s i l acc).1 ≤ dp (s.erase i) j + (W j i : WithTop ℚ)) ∧
      (parentFold dp W s i l acc).1 ≤ acc.1 := by
  induction l with
  | nil =>
    intro acc hacc
    rw [parentFold_nil]
    exact ⟨hacc, by simp, le_refl _⟩
  | cons x rest ih =>
    intro acc hacc
    rw [parentFold_cons]
    by_cases hx : x ∈ s.erase i ∧ dp (s.erase i) x + (W x i : WithTop ℚ) < acc.1
    · rw [if_pos hx]
      obtain ⟨hinv, hall, hle⟩ :=
        ih (dp (s.erase i) x + (W x i : WithTop ℚ), some x) ⟨hx.1, rfl⟩
      refine ⟨hinv, ?_, le_trans hle (le_of_lt hx.2)⟩
      intro j hj hjt
      rcases List.mem_cons.mp hj with h1 | h1
      · subst h1
        exact le_trans hle (le_refl _)
      · exact hall j h1 hjt
    · rw [if_neg hx]
      obtain ⟨hinv, hall, hle⟩ := ih acc hacc
      refine ⟨hinv, ?_, hle⟩
      intro j hj hjt
      rcases List.mem_cons.mp hj with h1 | h1
      · subst h1
        have hnl : ¬ dp (s.erase i) j + (W j i : WithTop ℚ) < acc.1 :=
          fun hlt => hx ⟨hjt, hlt⟩
        exact le_trans hle (not_lt.mp hnl)
      · exact hall j h1 hjt

theorem parentFold_const {n : ℕ} (dp : Finset (Fin n) → Fin n → WithTop ℚ)
    (W : Fin n → Fin n → ℚ) (s : Finset (Fin n)) (i : Fin n)
    (h : s.erase i = ∅) (l : List (Fin n)) :
    ∀ acc : WithTop ℚ × Option (Fin n), parentFold dp W s i l acc = acc := by
  induction l with
  | nil => intro acc; rfl
  | cons x rest ih =>
    intro acc
    rw [parentFold_cons, if_neg]
    · exact ih acc
    · rw [h]
      simp

theorem parentOf_erase_empty {n : ℕ} (dp : Finset (Fin n) → Fin n → WithTop ℚ)
    (W : Fin n → Fin n → ℚ) (req : List (Option ℕ)) (s : Finset (Fin n)) (i : Fin n)
    (h : s.erase i = ∅) : parentOf dp W req s i = none := by
  unfold parentOf
  by_cases hok : okStep req (s.erase i) i = true
  · rw [if_pos hok, parentFold_const dp W s i h (List.finRange n) (⊤, none)]
  · rw [if_neg hok]

theorem parentOf_some_of_ne_top {n : ℕ} (dp : Finset (Fin n) → Fin n → WithTop ℚ)
    (W : Fin n → Fin n → ℚ) (req : List (Option ℕ)) (s : Finset (Fin n)) (i : Fin n)
    (hok : okStep req (s.erase i) i = true)
    (j₀ : Fin n) (hj₀ : j₀ ∈ s.erase i)
    (hfin : dp (s.erase i) j₀ + (W j₀ i : WithTop ℚ) ≠ ⊤) :
    ∃ j, parentOf dp W req s i = some j ∧ j ∈ s.erase i ∧ dp (s.erase i) j ≠ ⊤ := by
  obtain ⟨hinv, hall, -⟩ :=
    parentFold_inv dp W s i (List.finRange n) ((⊤ : WithTop ℚ), none) (by simp)
  have hle := hall j₀ (List.mem_finRange j₀) hj₀
  unfold parentOf
  rw [if_pos hok]
  cases hp : (parentFold dp W s i (List.finRange n) ((⊤ : WithTop ℚ), none)).2 with
  | none =>
    rw [hp] at hinv
    simp only at hinv
    rw [hinv] at hle
    exact absurd (top_le_iff.mp hle) hfin
  | some b =>
    rw [hp] at hinv
    simp only at hinv
    obtain ⟨hbmem, hbeq⟩ := hinv
    have h1 : (parentFold dp W s i (List.finRange n) ((⊤ : WithTop ℚ), none)).1 ≠ ⊤ := by
      intro hcontra
      rw [hcontra] at hle
      exact hfin (top_le_iff.mp hle)
    rw [← hbeq] at h1
    exact ⟨b, rfl, hbmem, (WithTop.add_ne_top.mp h1).1⟩

theorem buildPath_succ {n : ℕ} (dp : Finset (Fin n) → Fin n → WithTop ℚ)
    (W : Fin n → Fin n → ℚ) (req : List (Option ℕ)) (fuel : ℕ)
    (s : Finset (Fin n)) (i : Fin n) :
    buildPath dp W req (fuel + 1) s i =
      match parentOf dp W req s i with
      | none => [i]
      | some j => buildPath dp W req fuel (s.erase i) j ++ [i] := rfl

theorem buildPath_valid {n : ℕ} (S : Fin n → ℚ) (W : Fin n → Fin n → ℚ)
    (req : List (Option ℕ)) (N : ℕ) :
    ∀ (fuel : ℕ) (s : Finset (Fin n)) (i : Fin n),
      s.card ≤ fuel → s.card ≤ N → i ∈ s → dpF S W req N s i ≠ ⊤ →
      ValidPath req s i
        (buildPath (fun t j => dpF S W req N t j) W req fuel s i) := by
  intro fuel
  induction fuel with
  | zero =>
    intro s i hcard _ hi _
    exact absurd hcard (by simp [Finset.card_pos.mpr ⟨i, hi⟩, Nat.pos_iff_ne_zero.mp])
  | succ f ih =>
    intro s i hcard hN hi hne
    cases N with
    | zero => exact absurd (dpF_zero S W req s i) hne
    | succ nn =>
      by_cases hsi : s = {i}
      · subst hsi
        have hreq : req.getD i.val none = none := by
          cases hr : req.getD i.val none with
          | none => rfl
          | some r =>
            exfalso
            apply hne
            rw [dpF_succ, hr]
            simp
        have hpar : parentOf (fun t j => dpF S W req (nn + 1) t j) W req {i} i = none :=
          parentOf_erase_empty _ W req {i} i (Finset.erase_singleton i)
        rw [buildPath_succ, hpar]
        show ValidPath req {i} i [i]
        refine ⟨by simp, by simp, by simp, by simp, ?_⟩
        unfold precOK visitedOK
        rw [hreq]
        simp [visitedOK]
      · have hok : okStep req (s.erase i) i = true := by
          by_contra hcontra
          apply hne
          simp [dpF, hi, hsi, hcontra]
        have hstep : dpF S W req (nn + 1) s i =
            (s.erase i).inf
              (fun j => dpF S W req nn (s.erase i) j + (W j i : WithTop ℚ)) := by
          simp [dpF, hi, hsi, hok]
        have hpos : 0 < s.card := Finset.card_pos.mpr ⟨i, hi⟩
        have hcarde : (s.erase i).card ≤ nn := by
          rw [Finset.card_erase_of_mem hi]
          omega
        have hcardf : (s.erase i).card ≤ f := by
          rw [Finset.card_erase_of_mem hi]
          omega
        have hex : ∃ j ∈ s.erase i,
            dpF S W req nn (s.erase i) j + (W j i : WithTop ℚ) ≠ ⊤ := by
          by_contra hcontra
          push_neg at hcontra
          apply hne
          rw [hstep, Finset.inf_eq_top_iff]
          exact hcontra
        obtain ⟨j₀, hj₀, hfin0⟩ := hex
        have hfin : dpF S W req (nn + 1) (s.erase i) j₀ + (W j₀ i : WithTop ℚ) ≠ ⊤ := by
          rw [← dpF_fuel_irrel S W req nn (nn + 1) (s.erase i) j₀ hcarde
            (le_trans hcarde (Nat.le_succ nn))]
          exact hfin0
        obtain ⟨j, hpar, hjmem, hjne⟩ :=
          parentOf_some_of_ne_top (fun t k => dpF S W req (nn + 1) t k) W req s i hok
            j₀ hj₀ hfin
        rw [buildPath_succ, hpar]
        show ValidPath req s i
          (buildPath (fun t k => dpF S W req (nn + 1) t k) W req f (s.erase i) j ++ [i])
        obtain ⟨hqne, hqnd, hqts, hqlast, hqprec⟩ :=
          ih (s.erase i) j hcardf (le_trans hcarde (Nat.le_succ nn)) hjmem hjne
        have htsp :
            ((buildPath (fun t k => dpF S W req (nn + 1) t k) W req f (s.erase i) j)
              ++ [i]).toFinset = s := by
          rw [List.toFinset_append, Finset.union_comm]
          show insert i (buildPath (fun t k => dpF S W req (nn + 1) t k) W req f
            (s.erase i) j).toFinset = s
          rw [hqts]
          exact Finset.insert_erase hi
        refine ⟨by simp, ?_, htsp, List.getLast?_concat _, ?_⟩
        · rw [List.nodup_append]
          refine ⟨hqnd, by simp, ?_⟩
          intro a ha hb
          have hai : a = i := by simpa using hb
          rw [hai] at ha
          have hmem : i ∈ s.erase i := hqts ▸ List.mem_toFinset.mpr ha
          exact (Finset.mem_erase.mp hmem).1 rfl
        · unfold precOK
          rw [visitedOK_append_single req _ i []]
          refine ⟨hqprec, fun r hr => ?_⟩
          unfold okStep at hok
          rw [hr] at hok
          simp only [decide_eq_true_eq] at hok
          obtain ⟨y, hy, hyv⟩ := hok
          have hyq : y ∈ (buildPath (fun t k => dpF S W req (nn + 1) t k) W req f
              (s.erase i) j).toFinset := by
            rw [hqts]
            exact hy
          exact Or.inr ⟨y, List.mem_toFinset.mp hyq, hyv⟩

/-- Modelled from the spec: a returned stop sequence "visits, for every order
not marked already picked up, that order's PICKUP stop strictly before its
DROPOFF stop". -/
def stopSeqPrecedence (pickedIds : List String) (route : List Stop) : Prop :=
  ∀ k2 : Fin route.length, (route.get k2).stop_type = StopType.DROPOFF →
    (route.get k2).order_id ∉ pickedIds →
    ∃ k1 : Fin route.length, k1.val < k2.val ∧
      (route.get k1).stop_type = StopType.PICKUP ∧
      (route.get k1).order_id = (route.get k2).order_id

theorem stopSeqPrecedence_nil (pickedIds : List String) :
    stopSeqPrecedence pickedIds [] := by
  intro k2
  exact absurd k2.2 (by simp)

theorem pickupBeforeDropoff_map (stops : List Stop) (picked : List String)
    (p : List (Fin stops.length))
    (h : pickupBeforeDropoff stops picked p) :
    stopSeqPrecedence picked (p.map (fun i => stops.get i)) := by
  intro k2 hdrop hnpick
  have hk2 : k2.val < p.length := by
    have h2 := k2.2
    simpa using h2
  have he2 : (p.map (fun i => stops.get i)).get k2 = stops.get (p.get ⟨k2.val, hk2⟩) := by
    simp [List.get_eq_getElem, List.getElem_map]
  rw [he2] at hdrop hnpick
  obtain ⟨k1, hlt, hpick, hid⟩ := h ⟨k2.val, hk2⟩ hdrop hnpick
  have hk1 : k1.val < (p.map (fun i => stops.get i)).length := by simpa using k1.2
  have he1 : (p.map (fun i => stops.get i)).get ⟨k1.val, hk1⟩ = stops.get (p.get k1) := by
    simp [List.get_eq_getElem, List.getElem_map]
  refine ⟨⟨k1.val, hk1⟩, hlt, ?_, ?_⟩
  · rw [he1]
    exact hpick
  · rw [he1, he2]
    exact hid

theorem bestLastPair_fold_some_ne_top {n : ℕ} (f : Fin n → WithTop ℚ)
    (l : List (Fin n)) :
    ∀ acc : WithTop ℚ × Option (Fin n),
      (∀ b, acc.2 = some b → acc.1 ≠ ⊤) →
      ∀ b, (l.foldl (fun acc i => if f i < acc.1 then (f i, some i) else acc) acc).2 =
          some b →
        (l.foldl (fun acc i => if f i < acc.1 then (f i, some i) else acc) acc).1 ≠ ⊤ := by
  induction l with
  | nil => intro acc hacc; exact hacc
  | cons x rest ih =>
    intro acc hacc
    by_cases hx : f x < acc.1
    · simp only [List.foldl_cons, if_pos hx]
      exact ih (f x, some x) (fun b _ => ne_top_of_lt hx)
    · simp only [List.foldl_cons, if_neg hx]
      exact ih acc hacc

theorem bestLastPair_some_ne_top {n : ℕ} (f : Fin n → WithTop ℚ) (b : Fin n)
    (h : (bestLastPair f).2 = some b) : (bestLastPair f).1 ≠ ⊤ :=
  bestLastPair_fold_some_ne_top f (List.finRange n) (⊤, none) (by simp) b h

/-- **C5** (TSP-PC precedence): every stop sequence returned by
`find_optimal_route` visits, for every order not marked already picked up,
that order's PICKUP stop strictly before its DROPOFF stop (given pairwise
distinct order ids). -/
theorem find_optimal_route_precedence (D : Dist) (start_loc : Loc)
    (orders already_picked_up : List Order)
    (hnd : (orders.map Order.order_id).Nodup) :
    stopSeqPrecedence (already_picked_up.map (fun x => x.order_id))
      (find_optimal_route D start_loc orders already_picked_up).1 := by
  by_cases hone : orders = []
  · unfold find_optimal_route
    rw [if_pos hone]
    exact stopSeqPrecedence_nil _
  · unfold find_optimal_route
    rw [if_neg hone]
    dsimp only
    by_cases hz :
        (buildSP (already_picked_up.map (fun x => x.order_id)) orders ([], [])).1.length = 0
    · rw [if_pos hz]
      exact stopSeqPrecedence_nil _
    · rw [if_neg hz]
      have hsplit := Option.eq_none_or_eq_some (bestLastPair (fun i =>
          dpF (dStart D start_loc (buildSP (already_picked_up.map (fun x => x.order_id)) orders ([], [])).1)
              (dMat D (buildSP (already_picked_up.map (fun x => x.order_id)) orders ([], [])).1)
              (reqList (buildSP (already_picked_up.map (fun x => x.order_id)) orders ([], [])).1
                       (buildSP (already_picked_up.map (fun x => x.order_id)) orders ([], [])).2
                       (already_picked_up.map (fun x => x.order_id)))
              (buildSP (already_picked_up.map (fun x => x.order_id)) orders ([], [])).1.length
              Finset.univ i)).2
      rcases hsplit with hb | hb
      · rw [finishRoute_fst_none _ _ _ _ _ hb]
        exact stopSeqPrecedence_nil _
      · obtain ⟨bl, hb⟩ := hb
        rw [finishRoute_fst _ _ _ _ _ bl hb]
        have hne1 := bestLastPair_some_ne_top _ bl hb
        have hinv := (bestLastPair_inv (fun i =>
          dpF (dStart D start_loc (buildSP (already_picked_up.map (fun x => x.order_id)) orders ([], [])).1)
              (dMat D (buildSP (already_picked_up.map (fun x => x.order_id)) orders ([], [])).1)
              (reqList (buildSP (already_picked_up.map (fun x => x.order_id)) orders ([], [])).1
                       (buildSP (already_picked_up.map (fun x => x.order_id)) orders ([], [])).2
                       (already_picked_up.map (fun x => x.order_id)))
              (buildSP (already_picked_up.map (fun x => x.order_id)) orders ([], [])).1.length
              Finset.univ i)).1
        rw [hb] at hinv
        simp only at hinv
        rw [← hinv] at hne1
        obtain ⟨-, -, -, -, hprec⟩ :=
          buildPath_valid
            (dStart D start_loc (buildSP (already_picked_up.map (fun x => x.order_id)) orders ([], [])).1)
            (dMat D (buildSP (already_picked_up.map (fun x => x.order_id)) orders ([], [])).1)
            (reqList (buildSP (already_picked_up.map (fun x => x.order_id)) orders ([], [])).1
                     (buildSP (already_picked_up.map (fun x => x.order_id)) orders ([], [])).2
                     (already_picked_up.map (fun x => x.order_id)))
            (buildSP (already_picked_up.map (fun x => x.order_id)) orders ([], [])).1.length
            (buildSP (already_picked_up.map (fun x => x.order_id)) orders ([], [])).1.length
            Finset.univ bl (by simp) (by simp) (Finset.mem_univ bl) hne1
        exact pickupBeforeDropoff_map _ _ _
          ((precOK_iff_pickupBeforeDropoff
            (already_picked_up.map (fun x => x.order_id)) orders hnd _).mp hprec)

/-- Witness for C5: the precedence theorem applied at a concrete two-order
instance with no order picked up yet. -/
theorem find_optimal_route_precedence_witness :
    stopSeqPrecedence (([] : List Order).map (fun x => x.order_id))
      (find_optimal_route D0 (0, 0) [oA, oB] []).1 :=
  find_optimal_route_precedence D0 (0, 0) [oA, oB] [] (by decide)

/-! ## Scoring (`src/scoring.py`)

Python's `str.lower` restricted to ASCII (all vehicle-type strings in the
repository are ASCII); `VEHICLE_PENALTIES` is a literal dict, modelled as an
association list with `dict.get`'s default. -/

def pyLowerChar (c : Char) : Char :=
  if 'A' ≤ c ∧ c ≤ 'Z' then Char.ofNat (c.toNat + 32) else c

def pyLower (s : String) : String := ⟨s.data.map pyLowerChar⟩

def VEHICLE_PENALTIES : List (String × ℚ) :=
  [("motorbike", PENALTY_MOTORBIKE), ("bike", PENALTY_BIKE), ("car", PENALTY_CAR)]

/-- `scoring.get_vehicle_penalty`: `VEHICLE_PENALTIES.get(vehicle_type.lower(), 1.0)`. -/
def get_vehicle_penalty (vehicle_type : String) : ℚ :=
  (lookupA VEHICLE_PENALTIES (pyLower vehicle_type)).getD 1

/-- The route-traversal loop of `scoring.calculate_trip_cost` (lines
103–133).  `datetime` arithmetic does not wrap at midnight, so the running
clock is plain rational arithmetic.  Result: `none` models the `KeyError`
raised by `order_map[stop.order_id]` when a `DROPOFF` stop's id is not in the
bundle; `some none` models the early `return float('inf')` on an SLA
violation; `some (some d)` is normal completion with total capped delay `d`. -/
def tripWalk (D : Dist) (order_map : List (String × Order)) :
    List Stop → Loc → ℚ → ℚ → Option (Option ℚ)
  | [], _, _, total_delay_mins => some (some total_delay_mins)
  | stop :: rest, last_loc, time_at_current_loc, total_delay_mins =>
    let travel_time := get_travel_time D last_loc stop.location
    let t := time_at_current_loc + travel_time + SERVICE_TIME_MINS
    if stop.stop_type = StopType.DROPOFF then
      match lookupA order_map stop.order_id with
      | none => none
      | some order =>
        let actual_delivery_duration := t - order.created_time
        if MAX_DELIVERY_TIME_MINS < actual_delivery_duration then some none
        else
          let delay := actual_delivery_duration - order.estimated_delivery_time_min
          let total' := if 0 < delay then total_delay_mins + min delay 20
                        else total_delay_mins
          tripWalk D order_map rest stop.location t total'
    else
      tripWalk D order_map rest stop.location t total_delay_mins

/-- `scoring.calculate_trip_cost`.  `some ⊤` is Python's `float('inf')`;
`none` models the two uncaught exceptions (`KeyError` on an unknown dropoff
id, `ZeroDivisionError` on an empty bundle reaching step 7). -/
def calculate_trip_cost (D : Dist) (driver : Driver) (bundle : Bundle)
    (current_time : ℚ) (existing_route_distance : ℚ) : Option (WithTop ℚ) :=
  if driver.capacity < bundle.num_orders then some ⊤
  else
    let order_map := bundle.orders.foldl (fun m o => insertD m o.order_id o) []
    match tripWalk D order_map bundle.route_sequence driver.current_loc current_time 0 with
    | none => none
    | some none => some ⊤
    | some (some total_delay_mins) =>
      if bundle.num_orders = 0 then none
      else
        let marginal_distance := bundle.total_distance - existing_route_distance
        let distance_cost := W_DISTANCE * marginal_distance
        let delay_cost := W_DELAY * total_delay_mins
        let base_score := distance_cost + delay_cost
        let score_with_vehicle := base_score * get_vehicle_penalty driver.vehicle_type
        let cost_per_order := score_with_vehicle / (bundle.num_orders : ℚ)
        if 1 < bundle.num_orders then
          some ((cost_per_order *
            (1 - BUNDLE_DISCOUNT_PER_ORDER * ((bundle.num_orders : ℚ) - 1)) : ℚ) : WithTop ℚ)
        else some ((cost_per_order : ℚ) : WithTop ℚ)

/-! ### Spec-side mirror of the cost function (claim C3) -/

/-- Completion time of each stop in order: previous completion time plus
travel time plus the per-stop service time. -/
def stopTimes (D : Dist) : Loc → ℚ → List Stop → List ℚ
  | _, _, [] => []
  | last_loc, t, stop :: rest =>
    let t1 := t + get_travel_time D last_loc stop.location + SERVICE_TIME_MINS
    t1 :: stopTimes D stop.location t1 rest

/-- Modelled from the spec: the capped lateness a dropoff stop contributes,
looking its order up by id. -/
def specDelay (orders : List Order) (s : Stop) (t : ℚ) : ℚ :=
  if s.stop_type = StopType.DROPOFF then
    match orders.find? (fun o => o.order_id = s.order_id) with
    | none => 0
    | some o => min (max 0 (t - o.created_time - o.estimated_delivery_time_min)) 20
  else 0

/-- Modelled from the spec: `+∞` exactly when the bundle's order count
exceeds the driver's capacity or some order's dropoff completion time exceeds
`MAX_DELIVERY_TIME_MINS` after its creation; otherwise the weighted
marginal-distance/delay score with vehicle penalty, per-order normalisation
and bundle discount. -/
def tripCostSpec (D : Dist) (driver : Driver) (bundle : Bundle)
    (current_time : ℚ) (existing_route_distance : ℚ) : WithTop ℚ :=
  let ts := stopTimes D driver.current_loc current_time bundle.route_sequence
  if driver.capacity < bundle.num_orders ∨
      ∃ p ∈ bundle.route_sequence.zip ts,
        p.1.stop_type = StopType.DROPOFF ∧
        ∃ o ∈ bundle.orders, o.order_id = p.1.order_id ∧
          MAX_DELIVERY_TIME_MINS < p.2 - o.created_time then ⊤
  else
    (((W_DISTANCE * (bundle.total_distance - existing_route_distance) +
        W_DELAY * ((bundle.route_sequence.zip ts).map
          (fun p => specDelay bundle.orders p.1 p.2)).sum) *
        get_vehicle_penalty driver.vehicle_type / (bundle.num_orders : ℚ) *
        (1 - BUNDLE_DISCOUNT_PER_ORDER * ((bundle.num_orders : ℚ) - 1)) : ℚ) : WithTop ℚ)

/-! ## Geodesic distance (`src/utils.py`, claim C10) -/

noncomputable def radians (deg : ℝ) : ℝ := deg * Real.pi / 180

/-- `utils.haversine_distance` over exact reals. -/
noncomputable def haversine_distance (lat1 lon1 lat2 lon2 : ℝ) : ℝ :=
  let lon1r := radians lon1
  let lat1r := radians lat1
  let lon2r := radians lon2
  let lat2r := radians lat2
  let dlon := lon2r - lon1r
  let dlat := lat2r - lat1r
  let a := Real.sin (dlat / 2) ^ 2 +
    Real.cos lat1r * Real.cos lat2r * Real.sin (dlon / 2) ^ 2
  let c := 2 * Real.arcsin (Real.sqrt a)
  c * 6371

/-- `utils.get_distance`, parametrised by the (network-dependent) `osrm_route`
result; with `USE_ROAD_DISTANCE = false` it always takes the Haversine
branch. -/
noncomputable def get_distance (osrm : ℝ → ℝ → ℝ → ℝ → Option (ℝ × ℝ))
    (lat1 lon1 lat2 lon2 : ℝ) : ℝ :=
  if USE_ROAD_DISTANCE then
    match osrm lat1 lon1 lat2 lon2 with
    | some result => result.1
    | none => haversine_distance lat1 lon1 lat2 lon2 * (HAVERSINE_FALLBACK_MULTIPLIER : ℝ)
  else haversine_distance lat1 lon1 lat2 lon2

/-! ### The cost function agrees with its specification (claim C3) -/

theorem lookupA_order_map :
    ∀ (orders : List Order), (orders.map Order.order_id).Nodup →
    ∀ (m : List (String × Order)) (id : String),
      lookupA (orders.foldl (fun m o => insertD m o.order_id o) m) id =
        match orders.find? (fun o => o.order_id = id) with
        | some o => some o
        | none => lookupA m id := by
  intro orders
  induction orders with
  | nil => intro _ m id; rfl
  | cons o rest ih =>
    intro hnd m id
    rw [List.map_cons, List.nodup_cons] at hnd
    obtain ⟨hno, hnd'⟩ := hnd
    rw [List.foldl_cons, ih hnd' (insertD m o.order_id o) id]
    by_cases hid : o.order_id = id
    · have hfind : rest.find? (fun o' => o'.order_id = id) = none := by
        rw [List.find?_eq_none]
        intro o' ho' hcontra
        apply hno
        rw [List.mem_map]
        refine ⟨o', ho', ?_⟩
        rw [hid]
        exact of_decide_eq_true hcontra
      rw [hfind, List.find?_cons_of_pos _ (by simpa using hid)]
      simp only
      rw [lookupA_insertD, if_pos hid]
    · rw [List.find?_cons_of_neg _ (by simpa using hid)]
      cases hf : rest.find? (fun o' => o'.order_id = id) with
      | some o' => rfl
      | none =>
        simp only
        rw [lookupA_insertD, if_neg hid]

theorem mem_eq_find?_of_nodup :
    ∀ (orders : List Order), (orders.map Order.order_id).Nodup →
    ∀ (id : String) (o o' : Order),
      orders.find? (fun x => x.order_id = id) = some o →
      o' ∈ orders → o'.order_id = id → o' = o := by
  intro orders
  induction orders with
  | nil => intro _ id o o' hfind hmem _; cases hmem
  | cons x rest ih =>
    intro hnd id o o' hfind hmem hid
    rw [List.map_cons, List.nodup_cons] at hnd
    obtain ⟨hno, hnd'⟩ := hnd
    by_cases hx : x.order_id = id
    · rw [List.find?_cons_of_pos _ (by simpa using hx)] at hfind
      have hxo : x = o := Option.some.inj hfind
      rcases List.mem_cons.mp hmem with h1 | h1
      · rw [h1, hxo]
      · exfalso
        apply hno
        rw [List.mem_map]
        exact ⟨o', h1, by rw [hid, hx]⟩
    · rw [List.find?_cons_of_neg _ (by simpa using hx)] at hfind
      rcases List.mem_cons.mp hmem with h1 | h1
      · exact absurd (h1 ▸ hid) hx
      · exact ih hnd' id o o' hfind h1 hid

theorem stopTimes_cons (D : Dist) (last_loc : Loc) (t : ℚ) (stop : Stop)
    (rest : List Stop) :
    stopTimes D last_loc t (stop :: rest) =
      (t + get_travel_time D last_loc stop.location + SERVICE_TIME_MINS) ::
        stopTimes D stop.location
          (t + get_travel_time D last_loc stop.location + SERVICE_TIME_MINS) rest := rfl

theorem tripWalk_cons (D : Dist) (m : List (String × Order)) (stop : Stop)
    (rest : List Stop) (last_loc : Loc) (t acc : ℚ) :
    tripWalk D m (stop :: rest) last_loc t acc =
      if stop.stop_type = StopType.DROPOFF then
        match lookupA m stop.order_id with
        | none => none
        | some order =>
          if MAX_DELIVERY_TIME_MINS <
              t + get_travel_time D last_loc stop.location + SERVICE_TIME_MINS
                - order.created_time then some none
          else
            tripWalk D m rest stop.location
              (t + get_travel_time D last_loc stop.location + SERVICE_TIME_MINS)
              (if 0 < t + get_travel_time D last_loc stop.location + SERVICE_TIME_MINS
                    - order.created_time - order.estimated_delivery_time_min then
                 acc + min (t + get_travel_time D last_loc stop.location + SERVICE_TIME_MINS
                    - order.created_time - order.estimated_delivery_time_min) 20
               else acc)
      else
        tripWalk D m rest stop.location
          (t + get_travel_time D last_loc stop.location + SERVICE_TIME_MINS) acc := rfl

theorem tripWalk_spec (D : Dist) (orders : List Order)
    (hnd : (orders.map Order.order_id).Nodup) :
    ∀ (route : List Stop) (last_loc : Loc) (t acc : ℚ),
      (∀ s ∈ route, s.stop_type = StopType.DROPOFF →
        s.order_id ∈ orders.map Order.order_id) →
      tripWalk D (orders.foldl (fun m o => insertD m o.order_id o) [])
          route last_loc t acc =
        if ∃ p ∈ route.zip (stopTimes D last_loc t route),
            p.1.stop_type = StopType.DROPOFF ∧
            ∃ o ∈ orders, o.order_id = p.1.order_id ∧
              MAX_DELIVERY_TIME_MINS < p.2 - o.created_time
        then some none
        else some (some (acc + ((route.zip (stopTimes D last_loc t route)).map
          (fun p => specDelay orders p.1 p.2)).sum)) := by
  intro route
  induction route with
  | nil =>
    intro last_loc t acc _
    rw [if_neg (by simp)]
    simp [tripWalk, stopTimes]
  | cons stop rest ih =>
    intro last_loc t acc hdrop
    have hdrop' : ∀ s ∈ rest, s.stop_type = StopType.DROPOFF →
        s.order_id ∈ orders.map Order.order_id :=
      fun s hs => hdrop s (List.mem_cons_of_mem _ hs)
    rw [tripWalk_cons, stopTimes_cons]
    set t1 := t + get_travel_time D last_loc stop.location + SERVICE_TIME_MINS with ht1
    rw [List.zip_cons_cons]
    by_cases hst : stop.stop_type = StopType.DROPOFF
    · rw [if_pos hst]
      obtain ⟨o0, ho0, ho0id⟩ := by
        have h := hdrop stop (List.mem_cons_self _ _) hst
        rw [List.mem_map] at h
        exact h
      have hfindex : ∃ o, orders.find? (fun x => x.order_id = stop.order_id) = some o := by
        cases hf : orders.find? (fun x => x.order_id = stop.order_id) with
        | some o => exact ⟨o, rfl⟩
        | none =>
          exfalso
          rw [List.find?_eq_none] at hf
          exact absurd (by simp [ho0id]) (hf o0 ho0)
      obtain ⟨o, hfind⟩ := hfindex
      have homem : o ∈ orders := List.mem_of_find?_eq_some hfind
      have hoid : o.order_id = stop.order_id := by
        have h := List.find?_some hfind
        simpa using h
      have hlook : lookupA (orders.foldl (fun m o => insertD m o.order_id o) [])
          stop.order_id = some o := by
        rw [lookupA_order_map orders hnd [] stop.order_id, hfind]
      rw [hlook]
      simp only
      by_cases hsla : MAX_DELIVERY_TIME_MINS < t1 - o.created_time
      · rw [if_pos hsla, if_pos ⟨(stop, t1), List.mem_cons_self _ _, hst,
          o, homem, hoid, hsla⟩]
      · rw [if_neg hsla, ih stop.location t1
          (if 0 < t1 - o.created_time - o.estimated_delivery_time_min then
            acc + min (t1 - o.created_time - o.estimated_delivery_time_min) 20
          else acc) hdrop']
        have hcond : (∃ p ∈ rest.zip (stopTimes D stop.location t1 rest),
              p.1.stop_type = StopType.DROPOFF ∧
              ∃ o' ∈ orders, o'.order_id = p.1.order_id ∧
                MAX_DELIVERY_TIME_MINS < p.2 - o'.created_time) ↔
            (∃ p ∈ (stop, t1) :: rest.zip (stopTimes D stop.location t1 rest),
              p.1.stop_type = StopType.DROPOFF ∧
              ∃ o' ∈ orders, o'.order_id = p.1.order_id ∧
                MAX_DELIVERY_TIME_MINS < p.2 - o'.created_time) := by
          constructor
          · rintro ⟨p, hp, hC⟩
            exact ⟨p, List.mem_cons_of_mem _ hp, hC⟩
          · rintro ⟨p, hp, hCd, o', ho', ho'id, ho'sla⟩
            rcases List.mem_cons.mp hp with h1 | h1
            · exfalso
              rw [h1] at ho'id ho'sla
              have : o' = o :=
                mem_eq_find?_of_nodup orders hnd stop.order_id o o' hfind ho' ho'id
              rw [this] at ho'sla
              exact hsla ho'sla
            · exact ⟨p, h1, hCd, o', ho', ho'id, ho'sla⟩
        by_cases hv : ∃ p ∈ rest.zip (stopTimes D stop.location t1 rest),
            p.1.stop_type = StopType.DROPOFF ∧
            ∃ o' ∈ orders, o'.order_id = p.1.order_id ∧
              MAX_DELIVERY_TIME_MINS < p.2 - o'.created_time
        · rw [if_pos hv, if_pos (hcond.mp hv)]
        · rw [if_neg hv, if_neg (fun hc => hv (hcond.mpr hc))]
          rw [List.map_cons, List.sum_cons]
          have hsd : specDelay orders stop t1 =
              min (max 0 (t1 - o.created_time - o.estimated_delivery_time_min)) 20 := by
            unfold specDelay
            rw [if_pos hst, hfind]
          by_cases hd : 0 < t1 - o.created_time - o.estimated_delivery_time_min
          · rw [if_pos hd, hsd,
              max_eq_right (le_of_lt hd)]
            congr 1
            congr 1
            ring
          · rw [if_neg hd, hsd, max_eq_left (not_lt.mp hd)]
            congr 1
            congr 1
            rw [show min (0 : ℚ) 20 = 0 by norm_num]
            ring
    · rw [if_neg hst, ih stop.location t1 acc hdrop']
      have hcond : (∃ p ∈ rest.zip (stopTimes D stop.location t1 rest),
            p.1.stop_type = StopType.DROPOFF ∧
            ∃ o' ∈ orders, o'.order_id = p.1.order_id ∧
              MAX_DELIVERY_TIME_MINS < p.2 - o'.created_time) ↔
          (∃ p ∈ (stop, t1) :: rest.zip (stopTimes D stop.location t1 rest),
            p.1.stop_type = StopType.DROPOFF ∧
            ∃ o' ∈ orders, o'.order_id = p.1.order_id ∧
              MAX_DELIVERY_TIME_MINS < p.2 - o'.created_time) := by
        constructor
        · rintro ⟨p, hp, hC⟩
          exact ⟨p, List.mem_cons_of_mem _ hp, hC⟩
        · rintro ⟨p, hp, hCd, hrest⟩
          rcases List.mem_cons.mp hp with h1 | h1
          · exact absurd (by rw [h1] at hCd; exact hCd) hst
          · exact ⟨p, h1, hCd, hrest⟩
      by_cases hv : ∃ p ∈ rest.zip (stopTimes D stop.location t1 rest),
          p.1.stop_type = StopType.DROPOFF ∧
          ∃ o' ∈ orders, o'.order_id = p.1.order_id ∧
            MAX_DELIVERY_TIME_MINS < p.2 - o'.created_time
      · rw [if_pos hv, if_pos (hcond.mp hv)]
      · rw [if_neg hv, if_neg (fun hc => hv (hcond.mpr hc))]
        rw [List.map_cons, List.sum_cons]
        have hsd : specDelay orders stop t1 = 0 := by
          unfold specDelay
          rw [if_neg hst]
        rw [hsd, zero_add]

/-- **C3** (cost function): given a non-empty bundle with pairwise distinct
order ids whose route's dropoff stops all refer to bundle orders,
`calculate_trip_cost` returns exactly the specified value: `+∞` precisely
when capacity is exceeded or some dropoff busts the hard SLA, and otherwise
the discounted, vehicle-weighted, per-order marginal score. -/
theorem calculate_trip_cost_spec (D : Dist) (driver : Driver) (bundle : Bundle)
    (current_time existing_route_distance : ℚ)
    (hne : bundle.orders ≠ [])
    (hnd : (bundle.orders.map Order.order_id).Nodup)
    (hdrop : ∀ s ∈ bundle.route_sequence, s.stop_type = StopType.DROPOFF →
      s.order_id ∈ bundle.orders.map Order.order_id) :
    calculate_trip_cost D driver bundle current_time existing_route_distance =
      some (tripCostSpec D driver bundle current_time existing_route_distance) := by
  unfold calculate_trip_cost tripCostSpec
  by_cases hcap : driver.capacity < bundle.num_orders
  · rw [if_pos hcap, if_pos (Or.inl hcap)]
  · rw [if_neg hcap]
    dsimp only
    rw [tripWalk_spec D bundle.orders hnd bundle.route_sequence
      driver.current_loc current_time 0 hdrop]
    have hn0 : ¬(bundle.num_orders = 0) := by
      unfold Bundle.num_orders
      simpa using hne
    by_cases hv : ∃ p ∈ bundle.route_sequence.zip
        (stopTimes D driver.current_loc current_time bundle.route_sequence),
        p.1.stop_type = StopType.DROPOFF ∧
        ∃ o ∈ bundle.orders, o.order_id = p.1.order_id ∧
          MAX_DELIVERY_TIME_MINS < p.2 - o.created_time
    · rw [if_pos hv, if_pos (Or.inr hv)]
    · rw [if_neg hv, if_neg (fun hc => hc.elim hcap hv)]
      simp only
      rw [if_neg hn0]
      by_cases h1 : 1 < bundle.num_orders
      · rw [if_pos h1]
        congr 2
        rw [zero_add]
      · rw [if_neg h1]
        have hn1 : bundle.num_orders = 1 := by omega
        rw [hn1]
        congr 2
        push_cast
        ring

/-- Witness bundle for the cost-function claim: one order, its pickup and
dropoff. -/
def bun : Bundle :=
  { orders := [oA],
    route_sequence := [⟨(0, 0), StopType.PICKUP, "A"⟩, ⟨(1, 1), StopType.DROPOFF, "A"⟩],
    total_distance := 2 }

/-- Witness driver for the cost-function and sequential-dispatch claims. -/
def drv : Driver :=
  { driver_id := "d1", start_lat := 0, start_lng := 0, vehicle_type := "motorbike",
    capacity := 2, available_from := 0, current_lat := 0, current_lng := 0,
    arrival_time_at_next_stop := 0 }

/-- Witness for C3: the cost-function characterisation applied to a concrete
driver and one-order bundle. -/
theorem calculate_trip_cost_spec_witness :
    calculate_trip_cost D0 drv bun 0 0 = some (tripCostSpec D0 drv bun 0 0) :=
  calculate_trip_cost_spec D0 drv bun 0 0 (by decide) (by decide) (by decide)

/-- **C9** (total vehicle-penalty lookup): for every vehicle-type string
whose lowercasing lies outside the penalty table's keys, `get_vehicle_penalty`
returns the default multiplier 1 rather than failing. -/
theorem get_vehicle_penalty_default (v : String)
    (h : pyLower v ∉ ["motorbike", "bike", "car"]) :
    get_vehicle_penalty v = 1 := by
  simp only [List.mem_cons, List.not_mem_nil, or_false, not_or] at h
  obtain ⟨h1, h2, h3⟩ := h
  unfold get_vehicle_penalty VEHICLE_PENALTIES
  simp [lookupA, Ne.symm h1, Ne.symm h2, Ne.symm h3]

/-- Witness for C9: a concrete vehicle type outside the table gets penalty 1. -/
theorem get_vehicle_penalty_default_witness :
    pyLower "truck" ∉ ["motorbike", "bike", "car"] ∧ get_vehicle_penalty "truck" = 1 :=
  ⟨by decide, get_vehicle_penalty_default "truck" (by decide)⟩

/-- **C10** (distance symmetry): with `USE_ROAD_DISTANCE = false`,
`get_distance` is symmetric in its two endpoints, whatever the OSRM oracle
does, because the Haversine formula is symmetric. -/
theorem get_distance_symm (osrm : ℝ → ℝ → ℝ → ℝ → Option (ℝ × ℝ))
    (lat1 lon1 lat2 lon2 : ℝ) :
    get_distance osrm lat1 lon1 lat2 lon2 = get_distance osrm lat2 lon2 lat1 lon1 := by
  unfold get_distance
  rw [if_neg (by simp [USE_ROAD_DISTANCE]), if_neg (by simp [USE_ROAD_DISTANCE])]
  unfold haversine_distance radians
  dsimp only
  have key : ∀ x y : ℝ, Real.sin ((x * Real.pi / 180 - y * Real.pi / 180) / 2) ^ 2 =
      Real.sin ((y * Real.pi / 180 - x * Real.pi / 180) / 2) ^ 2 := by
    intro x y
    rw [show (x * Real.pi / 180 - y * Real.pi / 180) / 2 =
        -((y * Real.pi / 180 - x * Real.pi / 180) / 2) by ring, Real.sin_neg, neg_sq]
  rw [key lat2 lat1, key lon2 lon1,
    mul_comm (Real.cos (lat1 * Real.pi / 180)) (Real.cos (lat2 * Real.pi / 180))]

/-! ## The dispatch engine (`src/dispatch.py`, `DispatchEngine`)

Python mutates shared `Order` and `Driver` objects in place.  The model
threads an explicit order store (`List Order`, keyed by `order_id`) and a
fleet list (`List Driver`, keyed by `driver_id`); mutating an aliased object
becomes updating every record with the same key.  Operations that would
dereference a missing key (impossible in the program's reachable states)
return `none`. -/

def setOrderStatus (store : List Order) (id : String) (st : OrderStatus) : List Order :=
  store.map (fun o => if o.order_id = id then { o with status := st } else o)

def updateDriver (drivers : List Driver) (id : String) (f : Driver → Driver) :
    List Driver :=
  drivers.map (fun d => if d.driver_id = id then f d else d)

def lookupDriver (drivers : List Driver) (id : String) : Option Driver :=
  drivers.find? (fun d => d.driver_id = id)

def getOrders (store : List Order) : List String → Option (List Order)
  | [] => some []
  | oid :: rest =>
    match store.find? (fun o => o.order_id = oid), getOrders store rest with
    | some o, some os => some (o :: os)
    | _, _ => none

def getDrivers (drivers : List Driver) : List String → Option (List Driver)
  | [] => some []
  | did :: rest =>
    match lookupDriver drivers did, getDrivers drivers rest with
    | some d, some ds => some (d :: ds)
    | _, _ => none

/-- `DispatchEngine._assign_bundle_to_driver` (lines 418–454).  Replaces the
driver's assignment with the bundle, sets ACCRUING, route and stop index,
computes the arrival time at the first stop (`driver.route[0]` raises
`IndexError` on an empty route: `none`), and finally sets every bundle
order's status to ASSIGNED — unconditionally, whatever its previous status. -/
def _assign_bundle_to_driver (D : Dist) (store : List Order) (drivers : List Driver)
    (driver_id : String) (bundle : Bundle) (current_time : ℚ) :
    Option (List Order × List Driver) :=
  match bundle.route_sequence with
  | [] => none
  | first_stop :: _ =>
    let drivers' := updateDriver drivers driver_id (fun d =>
      { d with
        assigned_orders := bundle.orders.map (fun o => o.order_id),
        status := DriverStatus.ACCRUING,
        route := bundle.route_sequence,
        current_stop_index := 0,
        arrival_time_at_next_stop :=
          add_minutes_to_time current_time
            (get_travel_time D d.current_loc first_stop.location) })
    let store' := bundle.orders.foldl
      (fun s o => setOrderStatus s o.order_id OrderStatus.ASSIGNED) store
    some (store', drivers')

/-- The first-strict-improvement nearest-driver scan (`run_baseline` lines
492–500 and the sequential fallback lines 660–667): `min_dist = ∞`,
`best = None`, update on strictly smaller distance. -/
def nearestFold (D : Dist) (target : Loc) :
    List Driver → WithTop ℚ × Option String → WithTop ℚ × Option String
  | [], acc => acc
  | d :: rest, acc =>
    if (D d.current_loc target : WithTop ℚ) < acc.1 then
      nearestFold D target rest ((D d.current_loc target : WithTop ℚ), some d.driver_id)
    else nearestFold D target rest acc

structure BaseState where
  store : List Order
  drivers : List Driver
  idle : List String
  assigned : List String
  total : ℚ
deriving Repr

/-- One iteration of `run_baseline`'s order loop (lines 487–535). -/
def baselineStep (D : Dist) (current_time : ℚ) (st : BaseState) (order : Order) :
    Option BaseState :=
  if st.idle = [] then some st
  else
    match getDrivers st.drivers st.idle with
    | none => none
    | some ds =>
      match (nearestFold D order.pickup_loc ds ((⊤ : WithTop ℚ), none)).2 with
      | none => some st
      | some bdid =>
        let min_dist := (nearestFold D order.pickup_loc ds ((⊤ : WithTop ℚ), none)).1.untop' 0
        let pickup_stop : Stop := ⟨order.pickup_loc, StopType.PICKUP, order.order_id⟩
        let dropoff_stop : Stop := ⟨order.dropoff_loc, StopType.DROPOFF, order.order_id⟩
        let full_route_dist := min_dist + D order.pickup_loc order.dropoff_loc
        let bundle : Bundle := ⟨[order], [pickup_stop, dropoff_stop], full_route_dist⟩
        match _assign_bundle_to_driver D st.store st.drivers bdid bundle current_time with
        | none => none
        | some (store1, drivers1) =>
          some ⟨store1, drivers1, st.idle.erase bdid,
            st.assigned ++ [order.order_id], st.total + full_route_dist⟩

/-- `DispatchEngine.run_baseline` (lines 456–536): greedy
nearest-idle-driver assignment, one order per driver, no capacity check. -/
def run_baseline (D : Dist) (store : List Order) (drivers : List Driver)
    (orders : List Order) (current_time : ℚ) : Option BaseState :=
  let idle := (drivers.filter (fun d =>
    decide (d.status = DriverStatus.IDLE) && decide (d.available_from ≤ current_time))).map
    (fun d => d.driver_id)
  orders.foldlM (baselineStep D current_time) ⟨store, drivers, idle, [], 0⟩

structure SeqState where
  store : List Order
  drivers : List Driver
  eligible : List String
  existing : List (String × ℚ)
  assigned : List String
  total : ℚ
deriving Repr

/-- The existing-route-distance map of `run_sequential` (lines 572–580):
for every non-IDLE driver with assignments, the optimal-route distance of its
current load, else 0. -/
def seqExisting (D : Dist) (store : List Order) :
    List Driver → List (String × ℚ) → Option (List (String × ℚ))
  | [], m => some m
  | d :: rest, m =>
    if d.status ≠ DriverStatus.IDLE ∧ d.assigned_orders ≠ [] then
      match getOrders store d.assigned_orders with
      | none => none
      | some recs =>
        let picked := recs.filter (fun o => decide (o.status = OrderStatus.PICKED_UP))
        seqExisting D store rest
          (insertD m d.driver_id (find_optimal_route D d.current_loc recs picked).2)
    else seqExisting D store rest (insertD m d.driver_id 0)

/-- The eligible-driver list of `run_sequential` (lines 583–594): IDLE and
available, or ACCRUING with spare capacity; DELIVERING is excluded. -/
def seqEligible (drivers : List Driver) (current_time : ℚ) : List String :=
  (drivers.filter (fun d =>
    (decide (d.status = DriverStatus.IDLE) && decide (d.available_from ≤ current_time)) ||
    (decide (d.status = DriverStatus.ACCRUING) &&
      decide (d.assigned_orders.length < d.capacity)))).map (fun d => d.driver_id)

/-- The bid scan of `run_sequential` (lines 602–638): every eligible driver
with spare capacity computes the optimal route for its current load plus the
order and bids its marginal trip cost; first strict improvement wins.
Accumulator: (best bid, winner id and bundle, winner's marginal distance). -/
def seqBidFold (D : Dist) (store : List Order) (drivers : List Driver)
    (current_time : ℚ) (existing : List (String × ℚ)) (order : Order) :
    List String → WithTop ℚ × Option (String × Bundle) × ℚ →
      Option (WithTop ℚ × Option (String × Bundle) × ℚ)
  | [], acc => some acc
  | did :: rest, acc =>
    match lookupDriver drivers did with
    | none => none
    | some d =>
      match getOrders store d.assigned_orders with
      | none => none
      | some assigned_recs =>
        let potential_orders := assigned_recs ++ [order]
        if d.capacity < potential_orders.length then
          seqBidFold D store drivers current_time existing order rest acc
        else
          let already_picked_up := assigned_recs.filter
            (fun o => decide (o.status = OrderStatus.PICKED_UP))
          let rt := find_optimal_route D d.current_loc potential_orders already_picked_up
          if rt.1 = [] then seqBidFold D store drivers current_time existing order rest acc
          else
            let new_bundle : Bundle := ⟨potential_orders, rt.1, rt.2⟩
            let existing_dist := (lookupA existing d.driver_id).getD 0
            match calculate_trip_cost D d new_bundle current_time existing_dist with
            | none => none
            | some bid =>
              if bid < acc.1 then
                seqBidFold D store drivers current_time existing order rest
                  (bid, some (did, new_bundle), rt.2 - existing_dist)
              else seqBidFold D store drivers current_time existing order rest acc

/-- One iteration of `run_sequential`'s order loop (lines 596–688): run the
bid scan; on a winner, assign the winning bundle, mark the order ASSIGNED,
update the winner's existing distance and drop it from the eligible list when
full; with no winner, fall back to the nearest eligible IDLE driver with a
plain pickup→dropoff route (lines 653–688). -/
def seqStep (D : Dist) (current_time : ℚ) (st : SeqState) (order : Order) :
    Option SeqState :=
  match seqBidFold D st.store st.drivers current_time st.existing order st.eligible
      ((⊤ : WithTop ℚ), none, 0) with
  | none => none
  | some (_, some (did, bundle), marginal) =>
    match _assign_bundle_to_driver D st.store st.drivers did bundle current_time with
    | none => none
    | some (store1, drivers1) =>
      let store2 := setOrderStatus store1 order.order_id OrderStatus.ASSIGNED
      match lookupDriver drivers1 did with
      | none => none
      | some dUpd =>
        let elig1 := if dUpd.capacity ≤ dUpd.assigned_orders.length then
          st.eligible.erase did else st.eligible
        some ⟨store2, drivers1, elig1, insertD st.existing did bundle.total_distance,
          st.assigned ++ [order.order_id], st.total + marginal⟩
  | some (_, none, _) =>
    let idle := st.eligible.filter (fun did =>
      match lookupDriver st.drivers did with
      | some d => decide (d.status = DriverStatus.IDLE)
      | none => false)
    if idle = [] then some st
    else
      match getDrivers st.drivers idle with
      | none => none
      | some ds =>
        match (nearestFold D order.pickup_loc ds ((⊤ : WithTop ℚ), none)).2 with
        | none => some st
        | some fid =>
          let min_dist := (nearestFold D order.pickup_loc ds ((⊤ : WithTop ℚ), none)).1.untop' 0
          let pickup_stop : Stop := ⟨order.pickup_loc, StopType.PICKUP, order.order_id⟩
          let dropoff_stop : Stop := ⟨order.dropoff_loc, StopType.DROPOFF, order.order_id⟩
          let full := min_dist + D order.pickup_loc order.dropoff_loc
          let bundle : Bundle := ⟨[order], [pickup_stop, dropoff_stop], full⟩
          match _assign_bundle_to_driver D st.store st.drivers fid bundle current_time with
          | none => none
          | some (store1, drivers1) =>
            let store2 := setOrderStatus store1 order.order_id OrderStatus.ASSIGNED
            match lookupDriver drivers1 fid with
            | none => none
            | some dUpd =>
              let elig1 := if dUpd.capacity ≤ dUpd.assigned_orders.length then
                st.eligible.erase fid else st.eligible
              some ⟨store2, drivers1, elig1, insertD st.existing fid full,
                st.assigned ++ [order.order_id], st.total + full⟩

/-- `DispatchEngine.run_sequential` (lines 538–691).  Returns the final
state; its `assigned` and `total` components are the Python return value,
`store`/`drivers` the side effects on the shared objects. -/
def run_sequential (D : Dist) (store : List Order) (drivers : List Driver)
    (new_orders : List Order) (current_time : ℚ) : Option SeqState :=
  match seqExisting D store drivers [] with
  | none => none
  | some existing =>
    new_orders.foldlM (seqStep D current_time)
      ⟨store, drivers, seqEligible drivers current_time, existing, [], 0⟩

/-! ### Engine fixtures -/

/-- The zero distance oracle: everything is co-located. -/
def Dz : Dist := fun _ _ => 0

/-- A distance oracle with far-apart distinct points: any travel between
distinct locations takes `100 / 35 * 60 ≈ 171` minutes, busting the 52-minute
SLA. -/
def Dfar : Dist := fun a b => if a = b then 0 else 100

/-- An order already picked up by its courier. -/
def oP : Order :=
  { order_id := "P", pickup_lat := 0, pickup_lng := 0, dropoff_lat := 1, dropoff_lng := 1,
    created_time := 0, deadline := 30, estimated_delivery_time_min := 30,
    status := .PICKED_UP }

/-- A fresh pending order. -/
def oQ : Order :=
  { order_id := "Q", pickup_lat := 0, pickup_lng := 0, dropoff_lat := 1, dropoff_lng := 1,
    created_time := 0, deadline := 30, estimated_delivery_time_min := 30 }

/-- A courier that has picked up `oP` and still has spare capacity. -/
def dAcc : Driver :=
  { driver_id := "d1", start_lat := 0, start_lng := 0, vehicle_type := "motorbike",
    capacity := 2, available_from := 0, current_lat := 0, current_lng := 0,
    status := .ACCRUING, assigned_orders := ["P"], arrival_time_at_next_stop := 0 }

/-- An idle courier with integer capacity 0. -/
def d0cap : Driver :=
  { driver_id := "d0", start_lat := 0, start_lng := 0, vehicle_type := "motorbike",
    capacity := 0, available_from := 0, current_lat := 0, current_lng := 0,
    arrival_time_at_next_stop := 0 }

/-- An idle courier too far from every order for any feasible bid. -/
def dFar : Driver :=
  { driver_id := "df", start_lat := 50, start_lng := 50, vehicle_type := "motorbike",
    capacity := 2, available_from := 0, current_lat := 50, current_lng := 50,
    arrival_time_at_next_stop := 0 }

/-- **C2** (code bug): from a reachable state — courier `d1` ACCRUING with
order `P` already PICKED_UP, pending order `Q` arriving — `run_sequential`
lets `d1` win the bid on `Q` and `_assign_bundle_to_driver` (dispatch.py
lines 453–454) then sets every order of the winning bundle to ASSIGNED,
demoting `P` from PICKED_UP back to ASSIGNED. -/
theorem run_sequential_demotes_picked_up :
    oP.status = OrderStatus.PICKED_UP ∧
    (run_sequential Dz [oP, oQ] [dAcc] [oQ] 0).map
      (fun res => res.store.map Order.status) =
      some [OrderStatus.ASSIGNED, OrderStatus.ASSIGNED] := by
  constructor
  · rfl
  · with_unfolding_all decide

/-! ### Capacity (claim C4) -/

/-- Counterexample to C4 as stated: the baseline strategy assigns to the
nearest idle courier without any capacity check, so a courier with capacity 0
ends the call with one assigned order. -/
theorem run_baseline_capacity_violation :
    (run_baseline Dz [oQ] [d0cap] [oQ] 0).map
      (fun res => res.drivers.map
        (fun d => decide (d.assigned_orders.length ≤ d.capacity))) =
      some [false] := by
  with_unfolding_all decide

/-- The fleet invariant the amended claim preserves: distinct courier ids,
every load within capacity, every capacity at least 1. -/
def DriversOK (drivers : List Driver) : Prop :=
  (drivers.map Driver.driver_id).Nodup ∧
  ∀ d ∈ drivers, d.assigned_orders.length ≤ d.capacity ∧ 1 ≤ d.capacity

theorem foldlM_option_inv {α β : Type} (P : β → Prop) (f : β → α → Option β)
    (h : ∀ b a, P b → ∀ b', f b a = some b' → P b') :
    ∀ (l : List α) (b b' : β), P b → l.foldlM f b = some b' → P b' := by
  intro l
  induction l with
  | nil =>
    intro b b' hb hfold
    rw [List.foldlM_nil] at hfold
    cases hfold
    exact hb
  | cons a rest ih =>
    intro b b' hb hfold
    rw [List.foldlM_cons] at hfold
    cases hf : f b a with
    | none => rw [hf] at hfold; simp at hfold
    | some b1 =>
      rw [hf] at hfold
      exact ih b1 b' (h b a hb b1 hf) hfold

theorem lookupDriver_unique :
    ∀ (drivers : List Driver), (drivers.map Driver.driver_id).Nodup →
    ∀ (did : String) (d d' : Driver),
      lookupDriver drivers did = some d →
      d' ∈ drivers → d'.driver_id = did → d' = d := by
  intro drivers
  induction drivers with
  | nil => intro _ did d d' hfind hmem _; cases hmem
  | cons x rest ih =>
    intro hnd did d d' hfind hmem hid
    rw [List.map_cons, List.nodup_cons] at hnd
    obtain ⟨hno, hnd'⟩ := hnd
    unfold lookupDriver at hfind ih
    by_cases hx : x.driver_id = did
    · rw [List.find?_cons_of_pos _ (by simpa using hx)] at hfind
      have hxo : x = d := Option.some.inj hfind
      rcases List.mem_cons.mp hmem with h1 | h1
      · rw [h1, hxo]
      · exfalso
        apply hno
        rw [List.mem_map]
        exact ⟨d', h1, by rw [hid, hx]⟩
    · rw [List.find?_cons_of_neg _ (by simpa using hx)] at hfind
      rcases List.mem_cons.mp hmem with h1 | h1
      · exact absurd (h1 ▸ hid) hx
      · exact ih hnd' did d d' hfind h1 hid

theorem updateDriver_map_id (drivers : List Driver) (id : String) (f : Driver → Driver)
    (hf : ∀ d, (f d).driver_id = d.driver_id) :
    (updateDriver drivers id f).map Driver.driver_id = drivers.map Driver.driver_id := by
  unfold updateDriver
  rw [List.map_map]
  apply List.map_congr_left
  intro d _
  by_cases hd : d.driver_id = id
  · simp only [Function.comp_apply, if_pos hd]
    rw [hf d]
  · simp only [Function.comp_apply, if_neg hd]

theorem assign_DriversOK (D : Dist) (store : List Order) (drivers : List Driver)
    (did : String) (bundle : Bundle) (t : ℚ)
    (hok : DriversOK drivers)
    (hlen : ∀ d ∈ drivers, d.driver_id = did → bundle.orders.length ≤ d.capacity) :
    ∀ res, _assign_bundle_to_driver D store drivers did bundle t = some res →
      DriversOK res.2 := by
  intro res hres
  unfold _assign_bundle_to_driver at hres
  cases hroute : bundle.route_sequence with
  | nil => rw [hroute] at hres; cases hres
  | cons first rest =>
    rw [hroute] at hres
    simp only at hres
    cases hres
    refine ⟨?_, ?_⟩
    · rw [updateDriver_map_id]
      · exact hok.1
      · exact fun d => rfl
    · intro d' hd'
      obtain ⟨d, hd, hd'eq⟩ := List.mem_map.mp hd'
      by_cases hid : d.driver_id = did
      · rw [← hd'eq, if_pos hid]
        refine ⟨?_, (hok.2 d hd).2⟩
        rw [List.length_map]
        exact hlen d hd hid
      · rw [← hd'eq, if_neg hid]
        exact hok.2 d hd

/-- The bid-scan accumulator only ever records winners whose bundle fits the
winning courier's capacity. -/
def WinnerCapOK (drivers : List Driver)
    (acc : WithTop ℚ × Option (String × Bundle) × ℚ) : Prop :=
  ∀ did b, acc.2.1 = some (did, b) →
    ∀ d ∈ drivers, d.driver_id = did → b.orders.length ≤ d.capacity

theorem seqBidFold_winner_cap (D : Dist) (store : List Order) (drivers : List Driver)
    (t : ℚ) (existing : List (String × ℚ)) (order : Order)
    (hnd : (drivers.map Driver.driver_id).Nodup) :
    ∀ (l : List String) (acc), WinnerCapOK drivers acc →
      ∀ res, seqBidFold D store drivers t existing order l acc = some res →
        WinnerCapOK drivers res := by
  intro l
  induction l with
  | nil =>
    intro acc hacc res hres
    rw [seqBidFold] at hres
    cases hres
    exact hacc
  | cons did rest ih =>
    intro acc hacc res hres
    rw [seqBidFold] at hres
    cases hlk : lookupDriver drivers did with
    | none => rw [hlk] at hres; simp at hres
    | some d =>
      rw [hlk] at hres
      simp only at hres
      cases hgo : getOrders store d.assigned_orders with
      | none => rw [hgo] at hres; simp at hres
      | some recs =>
        rw [hgo] at hres
        simp only at hres
        by_cases hcap : d.capacity < (recs ++ [order]).length
        · rw [if_pos hcap] at hres
          exact ih acc hacc res hres
        · rw [if_neg hcap] at hres
          by_cases hrt : (find_optimal_route D d.current_loc (recs ++ [order])
              (recs.filter (fun o => decide (o.status = OrderStatus.PICKED_UP)))).1 = []
          · rw [if_pos hrt] at hres
            exact ih acc hacc res hres
          · rw [if_neg hrt] at hres
            cases hbid : calculate_trip_cost D d
                ⟨recs ++ [order],
                  (find_optimal_route D d.current_loc (recs ++ [order])
                    (recs.filter (fun o => decide (o.status = OrderStatus.PICKED_UP)))).1,
                  (find_optimal_route D d.current_loc (recs ++ [order])
                    (recs.filter (fun o => decide (o.status = OrderStatus.PICKED_UP)))).2⟩
                t ((lookupA existing d.driver_id).getD 0) with
            | none => rw [hbid] at hres; simp at hres
            | some bid =>
              rw [hbid] at hres
              simp only at hres
              by_cases hlt : bid < acc.1
              · rw [if_pos hlt] at hres
                refine ih _ ?_ res hres
                intro did' b' hb' d' hd' hdid'
                simp only at hb'
                obtain ⟨hdid, hbeq⟩ := Prod.mk.injEq .. ▸ Option.some.inj hb'
                have hd'd : d' = d := by
                  apply lookupDriver_unique drivers hnd did d d' hlk hd'
                  rw [hdid'] at *
                  rw [hdid]
                rw [hd'd, ← hbeq]
                exact not_lt.mp hcap
              · rw [if_neg hlt] at hres
                exact ih acc hacc res hres

theorem seqStep_DriversOK (D : Dist) (t : ℚ) (st : SeqState) (order : Order)
    (hok : DriversOK st.drivers) :
    ∀ st', seqStep D t st order = some st' → DriversOK st'.drivers := by
  intro st' hstep
  unfold seqStep at hstep
  cases hbid : seqBidFold D st.store st.drivers t st.existing order st.eligible
      ((⊤ : WithTop ℚ), none, 0) with
  | none => rw [hbid] at hstep; simp at hstep
  | some acc =>
    rw [hbid] at hstep
    obtain ⟨bb, w, marg⟩ := acc
    cases w with
    | some p =>
      obtain ⟨did, bundle⟩ := p
      simp only at hstep
      have hw : WinnerCapOK st.drivers (bb, some (did, bundle), marg) :=
        seqBidFold_winner_cap D st.store st.drivers t st.existing order hok.1
          st.eligible ((⊤ : WithTop ℚ), none, 0) (fun did' b' hb' => by cases hb') _ hbid
      cases hassign : _assign_bundle_to_driver D st.store st.drivers did bundle t with
      | none => rw [hassign] at hstep; simp at hstep
      | some pr =>
        rw [hassign] at hstep
        obtain ⟨store1, drivers1⟩ := pr
        simp only at hstep
        have hok1 : DriversOK drivers1 :=
          assign_DriversOK D st.store st.drivers did bundle t hok
            (fun d hd hdid => hw did bundle rfl d hd hdid) (store1, drivers1) hassign
        cases hlk : lookupDriver drivers1 did with
        | none => rw [hlk] at hstep; simp at hstep
        | some dUpd =>
          rw [hlk] at hstep
          simp only at hstep
          cases hstep
          exact hok1
    | none =>
      simp only at hstep
      by_cases hidle : (st.eligible.filter (fun did =>
          match lookupDriver st.drivers did with
          | some d => decide (d.status = DriverStatus.IDLE)
          | none => false)) = []
      · rw [if_pos hidle] at hstep
        cases hstep
        exact hok
      · rw [if_neg hidle] at hstep
        cases hgd : getDrivers st.drivers (st.eligible.filter (fun did =>
            match lookupDriver st.drivers did with
            | some d => decide (d.status = DriverStatus.IDLE)
            | none => false)) with
        | none => rw [hgd] at hstep; simp at hstep
        | some ds =>
          rw [hgd] at hstep
          simp only at hstep
          cases hnf : (nearestFold D order.pickup_loc ds ((⊤ : WithTop ℚ), none)).2 with
          | none =>
            rw [hnf] at hstep
            cases hstep
            exact hok
          | some fid =>
            rw [hnf] at hstep
            simp only at hstep
            cases hassign : _assign_bundle_to_driver D st.store st.drivers fid
                ⟨[order],
                 [⟨order.pickup_loc, StopType.PICKUP, order.order_id⟩,
                  ⟨order.dropoff_loc, StopType.DROPOFF, order.order_id⟩],
                 (nearestFold D order.pickup_loc ds ((⊤ : WithTop ℚ), none)).1.untop' 0 +
                   D order.pickup_loc order.dropoff_loc⟩ t with
            | none => rw [hassign] at hstep; simp at hstep
            | some pr =>
              rw [hassign] at hstep
              obtain ⟨store1, drivers1⟩ := pr
              simp only at hstep
              have hok1 : DriversOK drivers1 :=
                assign_DriversOK D st.store st.drivers fid
                  ⟨[order],
                   [⟨order.pickup_loc, StopType.PICKUP, order.order_id⟩,
                    ⟨order.dropoff_loc, StopType.DROPOFF, order.order_id⟩],
                   (nearestFold D order.pickup_loc ds ((⊤ : WithTop ℚ), none)).1.untop' 0 +
                     D order.pickup_loc order.dropoff_loc⟩ t hok
                  (fun d hd _ => (hok.2 d hd).2) (store1, drivers1) hassign
              cases hlk : lookupDriver drivers1 fid with
              | none => rw [hlk] at hstep; simp at hstep
              | some dUpd =>
                rw [hlk] at hstep
                simp only at hstep
                cases hstep
                exact hok1

theorem baselineStep_DriversOK (D : Dist) (t : ℚ) (st : BaseState) (order : Order)
    (hok : DriversOK st.drivers) :
    ∀ st', baselineStep D t st order = some st' → DriversOK st'.drivers := by
  intro st' hstep
  unfold baselineStep at hstep
  by_cases hid : st.idle = []
  · rw [if_pos hid] at hstep
    cases hstep
    exact hok
  · rw [if_neg hid] at hstep
    cases hgd : getDrivers st.drivers st.idle with
    | none => rw [hgd] at hstep; simp at hstep
    | some ds =>
      rw [hgd] at hstep
      simp only at hstep
      cases hnf : (nearestFold D order.pickup_loc ds ((⊤ : WithTop ℚ), none)).2 with
      | none =>
        rw [hnf] at hstep
        cases hstep
        exact hok
      | some bdid =>
        rw [hnf] at hstep
        simp only at hstep
        cases hassign : _assign_bundle_to_driver D st.store st.drivers bdid
            ⟨[order],
             [⟨order.pickup_loc, StopType.PICKUP, order.order_id⟩,
              ⟨order.dropoff_loc, StopType.DROPOFF, order.order_id⟩],
             (nearestFold D order.pickup_loc ds ((⊤ : WithTop ℚ), none)).1.untop' 0 +
               D order.pickup_loc order.dropoff_loc⟩ t with
        | none => rw [hassign] at hstep; simp at hstep
        | some pr =>
          rw [hassign] at hstep
          obtain ⟨store1, drivers1⟩ := pr
          simp only at hstep
          cases hstep
          exact assign_DriversOK D st.store st.drivers bdid
            ⟨[order],
             [⟨order.pickup_loc, StopType.PICKUP, order.order_id⟩,
              ⟨order.dropoff_loc, StopType.DROPOFF, order.order_id⟩],
             (nearestFold D order.pickup_loc ds ((⊤ : WithTop ℚ), none)).1.untop' 0 +
               D order.pickup_loc order.dropoff_loc⟩ t hok
            (fun d hd _ => (hok.2 d hd).2) (store1, drivers1) hassign

/-! ### The sequential fallback (claim C7) -/

theorem nearestFold_cons (D : Dist) (target : Loc) (d : Driver) (rest : List Driver)
    (acc : WithTop ℚ × Option String) :
    nearestFold D target (d :: rest) acc =
      if (D d.current_loc target : WithTop ℚ) < acc.1 then
        nearestFold D target rest
          ((D d.current_loc target : WithTop ℚ), some d.driver_id)
      else nearestFold D target rest acc := rfl

theorem nearestFold_inv (D : Dist) (target : Loc) (P : Driver → Prop) :
    ∀ (l : List Driver), (∀ d ∈ l, P d) →
    ∀ acc : WithTop ℚ × Option String,
      (match acc.2 with
       | none => acc.1 = ⊤
       | some fid => ∃ de, P de ∧ de.driver_id = fid ∧
           (D de.current_loc target : WithTop ℚ) = acc.1) →
      (match (nearestFold D target l acc).2 with
       | none => (nearestFold D target l acc).1 = ⊤
       | some fid => ∃ de, P de ∧ de.driver_id = fid ∧
           (D de.current_loc target : WithTop ℚ) = (nearestFold D target l acc).1) ∧
      (∀ d ∈ l, (nearestFold D target l acc).1 ≤ (D d.current_loc target : WithTop ℚ)) ∧
      (nearestFold D target l acc).1 ≤ acc.1 := by
  intro l
  induction l with
  | nil =>
    intro _ acc hacc
    exact ⟨hacc, by simp, le_refl _⟩
  | cons d rest ih =>
    intro hP acc hacc
    rw [nearestFold_cons]
    by_cases hx : (D d.current_loc target : WithTop ℚ) < acc.1
    · rw [if_pos hx]
      obtain ⟨hinv, hall, hle⟩ := ih (fun x hx => hP x (List.mem_cons_of_mem _ hx))
        ((D d.current_loc target : WithTop ℚ), some d.driver_id)
        ⟨d, hP d (List.mem_cons_self _ _), rfl, rfl⟩
      refine ⟨hinv, ?_, le_trans hle (le_of_lt hx)⟩
      intro x hxm
      rcases List.mem_cons.mp hxm with h1 | h1
      · subst h1
        exact le_trans hle (le_refl _)
      · exact hall x h1
    · rw [if_neg hx]
      obtain ⟨hinv, hall, hle⟩ := ih (fun x hx => hP x (List.mem_cons_of_mem _ hx)) acc hacc
      refine ⟨hinv, ?_, hle⟩
      intro x hxm
      rcases List.mem_cons.mp hxm with h1 | h1
      · subst h1
        exact le_trans hle (not_lt.mp hx)
      · exact hall x h1

theorem nearestFold_stays_some (D : Dist) (target : Loc) :
    ∀ (l : List Driver) (acc : WithTop ℚ × Option String),
      acc.2.isSome → ((nearestFold D target l acc).2).isSome := by
  intro l
  induction l with
  | nil => intro acc hacc; exact hacc
  | cons d rest ih =>
    intro acc hacc
    rw [nearestFold_cons]
    by_cases hx : (D d.current_loc target : WithTop ℚ) < acc.1
    · rw [if_pos hx]
      exact ih _ rfl
    · rw [if_neg hx]
      exact ih acc hacc

theorem nearestFold_some_of_ne_nil (D : Dist) (target : Loc) (l : List Driver)
    (h : l ≠ []) :
    ((nearestFold D target l ((⊤ : WithTop ℚ), none)).2).isSome := by
  cases l with
  | nil => exact absurd rfl h
  | cons d rest =>
    rw [nearestFold_cons, if_pos (WithTop.coe_lt_top _)]
    exact nearestFold_stays_some D target rest _ rfl

theorem getDrivers_ne_nil (drivers : List Driver) (ids : List String)
    (ds : List Driver) (hne : ids ≠ [])
    (h : getDrivers drivers ids = some ds) : ds ≠ [] := by
  cases ids with
  | nil => exact absurd rfl hne
  | cons did rest =>
    unfold getDrivers at h
    cases hlk : lookupDriver drivers did with
    | none => rw [hlk] at h; simp at h
    | some d =>
      rw [hlk] at h
      cases hg : getDrivers drivers rest with
      | none => rw [hg] at h; simp at h
      | some ds' =>
        rw [hg] at h
        simp only at h
        cases h
        simp

theorem setOrderStatus_mem (store : List Order) (id : String) (s : OrderStatus)
    (o' : Order) (h : o' ∈ setOrderStatus store id s) (hid : o'.order_id = id) :
    o'.status = s := by
  unfold setOrderStatus at h
  obtain ⟨o, ho, hoeq⟩ := List.mem_map.mp h
  by_cases hoid : o.order_id = id
  · rw [← hoeq, if_pos hoid]
  · rw [← hoeq, if_neg hoid] at hid ⊢
    exact absurd hid hoid

theorem getDrivers_mem (drivers : List Driver) :
    ∀ (ids : List String) (ds : List Driver), getDrivers drivers ids = some ds →
      ∀ d ∈ ds, d ∈ drivers := by
  intro ids
  induction ids with
  | nil =>
    intro ds h d hd
    unfold getDrivers at h
    cases h
    cases hd
  | cons did rest ih =>
    intro ds h d hd
    unfold getDrivers at h
    cases hlk : lookupDriver drivers did with
    | none => rw [hlk] at h; simp at h
    | some d0 =>
      rw [hlk] at h
      cases hg : getDrivers drivers rest with
      | none => rw [hg] at h; simp at h
      | some ds' =>
        rw [hg] at h
        simp only at h
        cases h
        rcases List.mem_cons.mp hd with h1 | h1
        · rw [h1]
          exact List.mem_of_find?_eq_some hlk
        · exact ih ds' hg d h1

theorem lookupDriver_updateDriver_isSome (drivers : List Driver) (fid : String)
    (f : Driver → Driver) (hf : ∀ d, (f d).driver_id = d.driver_id)
    (d : Driver) (hd : d ∈ drivers) (hid : d.driver_id = fid) :
    (lookupDriver (updateDriver drivers fid f) fid).isSome := by
  unfold lookupDriver
  rw [List.find?_isSome]
  refine ⟨f d, ?_, by rw [hf d, hid]; simp⟩
  unfold updateDriver
  rw [List.mem_map]
  exact ⟨d, hd, by rw [if_pos hid]⟩

theorem mem_updateDriver_id (drivers : List Driver) (fid : String) (f : Driver → Driver)
    (hf : ∀ d, (f d).driver_id = d.driver_id)
    (d' : Driver) (hd' : d' ∈ updateDriver drivers fid f) (hid : d'.driver_id = fid) :
    ∃ d ∈ drivers, d.driver_id = fid ∧ d' = f d := by
  unfold updateDriver at hd'
  obtain ⟨d, hd, hdeq⟩ := List.mem_map.mp hd'
  by_cases h : d.driver_id = fid
  · exact ⟨d, hd, h, by rw [← hdeq, if_pos h]⟩
  · rw [← hdeq, if_neg h] at hid
    exact absurd hid h

/-- **C7** (sequential fallback): when the bid scan for an order finds no
winner (every eligible courier's bid was `+∞` or skipped) but some eligible
IDLE courier exists, `run_sequential`'s per-order step still assigns the
order: it picks an IDLE courier at minimum distance to the order's pickup,
gives it exactly the plain pickup→dropoff route for that order, and marks the
order ASSIGNED rather than leaving it pending. -/
theorem seqStep_fallback (D : Dist) (t : ℚ) (st : SeqState) (order : Order)
    (bb : WithTop ℚ) (bm : ℚ)
    (hbid : seqBidFold D st.store st.drivers t st.existing order st.eligible
      ((⊤ : WithTop ℚ), none, 0) = some (bb, none, bm))
    (hidle : st.eligible.filter (fun did =>
        match lookupDriver st.drivers did with
        | some d => decide (d.status = DriverStatus.IDLE)
        | none => false) ≠ [])
    (ds : List Driver)
    (hds : getDrivers st.drivers (st.eligible.filter (fun did =>
        match lookupDriver st.drivers did with
        | some d => decide (d.status = DriverStatus.IDLE)
        | none => false)) = some ds) :
    ∃ fid st', seqStep D t st order = some st' ∧
      (∃ de ∈ ds, de.driver_id = fid ∧
        ∀ d ∈ ds, (D de.current_loc order.pickup_loc : WithTop ℚ) ≤
          (D d.current_loc order.pickup_loc : WithTop ℚ)) ∧
      (∀ o' ∈ st'.store, o'.order_id = order.order_id →
        o'.status = OrderStatus.ASSIGNED) ∧
      (∀ d' ∈ st'.drivers, d'.driver_id = fid →
        d'.status = DriverStatus.ACCRUING ∧
        d'.assigned_orders = [order.order_id] ∧
        d'.route = [⟨order.pickup_loc, StopType.PICKUP, order.order_id⟩,
                    ⟨order.dropoff_loc, StopType.DROPOFF, order.order_id⟩]) ∧
      st'.assigned = st.assigned ++ [order.order_id] := by
  have hdsne : ds ≠ [] := getDrivers_ne_nil st.drivers _ ds hidle hds
  have hsome := nearestFold_some_of_ne_nil D order.pickup_loc ds hdsne
  cases hnf : (nearestFold D order.pickup_loc ds ((⊤ : WithTop ℚ), none)).2 with
  | none => rw [hnf] at hsome; simp at hsome
  | some fid =>
    obtain ⟨hinv, hall, -⟩ := nearestFold_inv D order.pickup_loc (fun d => d ∈ ds) ds
      (fun d hd => hd) ((⊤ : WithTop ℚ), none) (by simp)
    rw [hnf] at hinv
    simp only at hinv
    obtain ⟨de, hde, hdeid, hdeval⟩ := hinv
    have hdeS : de ∈ st.drivers := getDrivers_mem st.drivers _ ds hds de hde
    have hassign : _assign_bundle_to_driver D st.store st.drivers fid
        ⟨[order],
         [⟨order.pickup_loc, StopType.PICKUP, order.order_id⟩,
          ⟨order.dropoff_loc, StopType.DROPOFF, order.order_id⟩],
         (nearestFold D order.pickup_loc ds ((⊤ : WithTop ℚ), none)).1.untop' 0 +
           D order.pickup_loc order.dropoff_loc⟩ t =
        some (setOrderStatus st.store order.order_id OrderStatus.ASSIGNED,
          updateDriver st.drivers fid (fun d =>
            { d with
              assigned_orders := [order.order_id],
              status := DriverStatus.ACCRUING,
              route := [⟨order.pickup_loc, StopType.PICKUP, order.order_id⟩,
                        ⟨order.dropoff_loc, StopType.DROPOFF, order.order_id⟩],
              current_stop_index := 0,
              arrival_time_at_next_stop := add_minutes_to_time t
                (get_travel_time D d.current_loc order.pickup_loc) })) := rfl
    have hlks := lookupDriver_updateDriver_isSome st.drivers fid
      (fun d =>
        { d with
          assigned_orders := [order.order_id],
          status := DriverStatus.ACCRUING,
          route := [⟨order.pickup_loc, StopType.PICKUP, order.order_id⟩,
                    ⟨order.dropoff_loc, StopType.DROPOFF, order.order_id⟩],
          current_stop_index := 0,
          arrival_time_at_next_stop := add_minutes_to_time t
            (get_travel_time D d.current_loc order.pickup_loc) })
      (fun d => rfl) de hdeS hdeid
    obtain ⟨dU, hdU⟩ := Option.isSome_iff_exists.mp hlks
    refine ⟨fid, ?_⟩
    unfold seqStep
    rw [hbid]
    simp only
    rw [if_neg hidle, hds]
    simp only
    rw [hnf]
    simp only
    rw [hassign]
    simp only
    rw [hdU]
    simp only
    refine ⟨_, rfl, ⟨de, hde, hdeid, ?_⟩, ?_, ?_, rfl⟩
    · intro d hd
      rw [hdeval]
      exact hall d hd
    · intro o' ho' hoid
      exact setOrderStatus_mem _ _ _ o' ho' hoid
    · intro d' hd' hdid
      obtain ⟨d0, hd0, hid0, hd'eq⟩ :=
        mem_updateDriver_id st.drivers fid
          (fun d =>
            { d with
              assigned_orders := [order.order_id],
              status := DriverStatus.ACCRUING,
              route := [⟨order.pickup_loc, StopType.PICKUP, order.order_id⟩,
                        ⟨order.dropoff_loc, StopType.DROPOFF, order.order_id⟩],
              current_stop_index := 0,
              arrival_time_at_next_stop := add_minutes_to_time t
                (get_travel_time D d.current_loc order.pickup_loc) })
          (fun d => rfl) d' hd' hdid
      rw [hd'eq]
      exact ⟨rfl, rfl, rfl⟩

/-- Witness for C7: with a single far-away IDLE courier, every bid on the
order is infinite, and the fallback still assigns the order to that courier
with a plain pickup→dropoff route. -/
theorem seqStep_fallback_witness :
    ∃ fid st',
      seqStep Dfar 0 ⟨[oQ], [dFar], seqEligible [dFar] 0, [("df", 0)], [], 0⟩ oQ =
        some st' ∧
      (∃ de ∈ [dFar], de.driver_id = fid ∧
        ∀ d ∈ [dFar], (Dfar de.current_loc oQ.pickup_loc : WithTop ℚ) ≤
          (Dfar d.current_loc oQ.pickup_loc : WithTop ℚ)) ∧
      (∀ o' ∈ st'.store, o'.order_id = oQ.order_id →
        o'.status = OrderStatus.ASSIGNED) ∧
      (∀ d' ∈ st'.drivers, d'.driver_id = fid →
        d'.status = DriverStatus.ACCRUING ∧
        d'.assigned_orders = [oQ.order_id] ∧
        d'.route = [⟨oQ.pickup_loc, StopType.PICKUP, oQ.order_id⟩,
                    ⟨oQ.dropoff_loc, StopType.DROPOFF, oQ.order_id⟩]) ∧
      st'.assigned = [] ++ [oQ.order_id] :=
  seqStep_fallback Dfar 0 ⟨[oQ], [dFar], seqEligible [dFar] 0, [("df", 0)], [], 0⟩ oQ
    ⊤ 0 (by with_unfolding_all decide) (by decide) [dFar] (by decide)

/-! ## Spatial bundle generation (`src/dispatch.py` lines 55–213, claim C6) -/

/-- Inner loop of `_build_distance_matrix` (lines 60–69): for the fixed outer
order `o1` at index `i`, insert both orientations of each pair `(i, j)` with
`i < j`. -/
def bdmInner (D : Dist) (o1 : Order) (i : ℕ) :
    List (ℕ × Order) → List ((String × String) × ℚ) → List ((String × String) × ℚ)
  | [], ds => ds
  | (j, o2) :: rest, ds =>
    if i < j then
      bdmInner D o1 i rest
        (insertD
          (insertD ds (o1.order_id, o2.order_id) (D o1.pickup_loc o2.pickup_loc))
          (o2.order_id, o1.order_id) (D o1.pickup_loc o2.pickup_loc))
    else bdmInner D o1 i rest ds

/-- Outer loop of `_build_distance_matrix`. -/
def bdmOuter (D : Dist) (allEnum : List (ℕ × Order)) :
    List (ℕ × Order) → List ((String × String) × ℚ) → List ((String × String) × ℚ)
  | [], ds => ds
  | (i, o1) :: rest, ds => bdmOuter D allEnum rest (bdmInner D o1 i allEnum ds)

/-- `dispatch._build_distance_matrix`: pairwise pickup distances keyed by
ordered id pairs, both orientations. -/
def _build_distance_matrix (D : Dist) (orders : List Order) :
    List ((String × String) × ℚ) :=
  bdmOuter D orders.enum orders.enum []

/-- A bundle's signature for duplicate detection (line 163):
`frozenset(o.order_id for o in bundle)`. -/
def bundleSig (b : List Order) : Finset String := (b.map Order.order_id).toFinset

structure GenState where
  bundles : List (List Order)
  seen : Finset (Finset String)

/-- `add_bundle_if_new` (lines 161–166). -/
def add_bundle_if_new (st : GenState) (b : List Order) : GenState :=
  if bundleSig b ∈ st.seen then st
  else ⟨st.bundles ++ [b], insert (bundleSig b) st.seen⟩

/-- The greedy max-cut accumulation loop of `_greedy_max_cut` (lines 91–109):
each order joins the group it is (weakly) farther from. -/
def gmcLoop (ds : List ((String × String) × ℚ)) :
    List Order → List Order → List Order → List Order × List Order
  | [], a, b => (a, b)
  | o :: rest, a, b =>
    let dist_to_a := (a.map (fun x => (lookupA ds (o.order_id, x.order_id)).getD 0)).sum
    let dist_to_b := (b.map (fun x => (lookupA ds (o.order_id, x.order_id)).getD 0)).sum
    if dist_to_b ≤ dist_to_a then gmcLoop ds rest (a ++ [o]) b
    else gmcLoop ds rest a (b ++ [o])

/-- `dispatch._greedy_max_cut` (lines 72–109). -/
def _greedy_max_cut (ds : List ((String × String) × ℚ)) (orders : List Order) :
    List Order × List Order :=
  if orders.length ≤ 1 then (orders, [])
  else gmcLoop ds orders [] []

/-- `recursive_split` (lines 168–194), with `fuel = 5 - depth` making the
`depth < 5` guard structural: at fuel 0 the group is still added when small
enough, but no further splitting recursion happens. -/
def recursive_split (ds : List ((String × String) × ℚ)) (k : ℕ) :
    ℕ → List Order → GenState → GenState
  | 0, order_group, st =>
    if order_group = [] then st
    else if order_group.length = 1 then add_bundle_if_new st order_group
    else
      let st1 := if order_group.length ≤ k then add_bundle_if_new st order_group else st
      let gab := _greedy_max_cut ds order_group
      let st2 := if 1 < gab.1.length ∧ gab.1.length ≤ k then add_bundle_if_new st1 gab.1
        else st1
      if 1 < gab.2.length ∧ gab.2.length ≤ k then add_bundle_if_new st2 gab.2 else st2
  | fuel + 1, order_group, st =>
    if order_group = [] then st
    else if order_group.length = 1 then add_bundle_if_new st order_group
    else
      let st1 := if order_group.length ≤ k then add_bundle_if_new st order_group else st
      let gab := _greedy_max_cut ds order_group
      let st2 := if 1 < gab.1.length ∧ gab.1.length ≤ k then add_bundle_if_new st1 gab.1
        else st1
      let st3 := if 1 < gab.2.length ∧ gab.2.length ≤ k then add_bundle_if_new st2 gab.2
        else st2
      let st4 := if k < gab.1.length then recursive_split ds k fuel gab.1 st3 else st3
      if k < gab.2.length then recursive_split ds k fuel gab.2 st4 else st4

/-- The nearby-pair loop (lines 199–207): every index pair `i < j` whose
pickup distance (`∞` on a matrix miss) is within `MAX_PICKUP_DISTANCE_KM` is
added as a pair bundle — with no check against `max_bundle_size`. -/
def pairInner (ds : List ((String × String) × ℚ)) (o1 : Order) (i : ℕ) :
    List (ℕ × Order) → GenState → GenState
  | [], st => st
  | (j, o2) :: rest, st =>
    if i < j then
      match lookupA ds (o1.order_id, o2.order_id) with
      | none => pairInner ds o1 i rest st
      | some dist =>
        if dist ≤ MAX_PICKUP_DISTANCE_KM then
          pairInner ds o1 i rest (add_bundle_if_new st [o1, o2])
        else pairInner ds o1 i rest st
    else pairInner ds o1 i rest st

def pairOuter (ds : List ((String × String) × ℚ)) (allEnum : List (ℕ × Order)) :
    List (ℕ × Order) → GenState → GenState
  | [], st => st
  | (i, o1) :: rest, st => pairOuter ds allEnum rest (pairInner ds o1 i allEnum st)

/-- `dispatch.generate_spatial_bundles` (lines 112–213) on the default
(no prebuilt matrix) path: recursive graph-cut splitting, then nearby pairs,
then all singles. -/
def generate_spatial_bundles (D : Dist) (orders : List Order)
    (max_bundle_size : ℕ) : List (List Order) :=
  if orders = [] then []
  else
    let distances := _build_distance_matrix D orders
    let st1 := recursive_split distances max_bundle_size 5 orders ⟨[], ∅⟩
    let st2 := pairOuter distances orders.enum orders.enum st1
    (orders.foldl (fun st o => add_bundle_if_new st [o]) st2).bundles

/-! ### Generator invariants -/

/-- What claim C6 asserts of each emitted bundle, relative to the input
order list: non-empty, within the size cap, drawn from the input, with
pairwise distinct order ids. -/
def GoodBundle (orders : List Order) (k : ℕ) (b : List Order) : Prop :=
  b ≠ [] ∧ b.length ≤ k ∧ (∀ x ∈ b, x ∈ orders) ∧ (b.map Order.order_id).Nodup

/-- Generator-state invariant: every emitted bundle is good, signatures are
pairwise distinct, and `seen` is exactly the signature set of the emitted
bundles. -/
def GenInv (P : List Order → Prop) (st : GenState) : Prop :=
  (∀ b ∈ st.bundles, P b) ∧
  (st.bundles.map bundleSig).Nodup ∧
  st.seen = (st.bundles.map bundleSig).toFinset

theorem add_GenInv (P : List Order → Prop) (st : GenState) (b : List Order)
    (hinv : GenInv P st) (hb : P b) : GenInv P (add_bundle_if_new st b) := by
  unfold add_bundle_if_new
  by_cases hs : bundleSig b ∈ st.seen
  · rw [if_pos hs]
    exact hinv
  · rw [if_neg hs]
    obtain ⟨h1, h2, h3⟩ := hinv
    refine ⟨?_, ?_, ?_⟩
    · intro x hx
      rcases List.mem_append.mp hx with h | h
      · exact h1 x h
      · rw [List.mem_singleton.mp h]
        exact hb
    · rw [List.map_append]
      rw [List.nodup_append]
      refine ⟨h2, by simp, ?_⟩
      intro s hsm hss
      simp only [List.map_cons, List.map_nil, List.mem_singleton] at hss
      rw [hss] at hsm
      apply hs
      rw [h3]
      exact List.mem_toFinset.mpr hsm
    · rw [List.map_append, List.toFinset_append]
      simp only [List.map_cons, List.map_nil]
      rw [h3]
      rw [Finset.union_comm]
      rfl

theorem add_sig_seen (st : GenState) (b : List Order) :
    bundleSig b ∈ (add_bundle_if_new st b).seen := by
  unfold add_bundle_if_new
  by_cases hs : bundleSig b ∈ st.seen
  · rw [if_pos hs]
    exact hs
  · rw [if_neg hs]
    exact Finset.mem_insert_self _ _

/-- Monotonicity order on generator states: adding never removes. -/
def GenLE (st st' : GenState) : Prop :=
  (∀ b ∈ st.bundles, b ∈ st'.bundles) ∧ st.seen ⊆ st'.seen

theorem GenLE_refl (st : GenState) : GenLE st st := ⟨fun b hb => hb, le_refl _⟩

theorem GenLE_trans {s1 s2 s3 : GenState} (h1 : GenLE s1 s2) (h2 : GenLE s2 s3) :
    GenLE s1 s3 :=
  ⟨fun b hb => h2.1 b (h1.1 b hb), le_trans h1.2 h2.2⟩

theorem add_GenLE (st : GenState) (b : List Order) :
    GenLE st (add_bundle_if_new st b) := by
  unfold add_bundle_if_new
  by_cases hs : bundleSig b ∈ st.seen
  · rw [if_pos hs]
    exact GenLE_refl st
  · rw [if_neg hs]
    exact ⟨fun x hx => List.mem_append.mpr (Or.inl hx),
      fun s hsm => Finset.mem_insert_of_mem hsm⟩

theorem seen_exists_bundle (P : List Order → Prop) (st : GenState)
    (hinv : GenInv P st) (s : Finset String) (hs : s ∈ st.seen) :
    ∃ b ∈ st.bundles, bundleSig b = s := by
  rw [hinv.2.2] at hs
  obtain ⟨x, hx, hxs⟩ := List.mem_map.mp (List.mem_toFinset.mp hs)
  exact ⟨x, hx, hxs⟩

/-! ### The greedy cut permutes its input -/

theorem gmcLoop_perm (ds : List ((String × String) × ℚ)) :
    ∀ (l a b : List Order),
      List.Perm ((gmcLoop ds l a b).1 ++ (gmcLoop ds l a b).2) ((a ++ b) ++ l) := by
  intro l
  induction l with
  | nil =>
    intro a b
    simp [gmcLoop]
  | cons o rest ih =>
    intro a b
    rw [gmcLoop]
    by_cases hc : (b.map (fun x => (lookupA ds (o.order_id, x.order_id)).getD 0)).sum ≤
        (a.map (fun x => (lookupA ds (o.order_id, x.order_id)).getD 0)).sum
    · rw [if_pos hc]
      have h := ih (a ++ [o]) b
      rw [show ((a ++ [o]) ++ b) = a ++ (o :: b) by simp] at h
      refine h.trans ?_
      rw [show (a ++ b) ++ (o :: rest) = a ++ (b ++ (o :: rest)) by simp]
      rw [show a ++ (o :: b) ++ rest = a ++ (o :: (b ++ rest)) by simp]
      exact List.Perm.append_left a List.perm_middle.symm
    · rw [if_neg hc]
      have h := ih a (b ++ [o])
      rw [show (a ++ (b ++ [o])) ++ rest = (a ++ b) ++ (o :: rest) by simp] at h
      exact h

theorem greedy_max_cut_perm (ds : List ((String × String) × ℚ)) (g : List Order) :
    List.Perm ((_greedy_max_cut ds g).1 ++ (_greedy_max_cut ds g).2) g := by
  unfold _greedy_max_cut
  by_cases h : g.length ≤ 1
  · rw [if_pos h]
    simp
  · rw [if_neg h]
    have := gmcLoop_perm ds g [] []
    simpa using this

theorem greedy_max_cut_sub_nodup (ds : List ((String × String) × ℚ)) (orders : List Order)
    (g : List Order) (hsub : ∀ x ∈ g, x ∈ orders)
    (hnd : (g.map Order.order_id).Nodup) :
    ((∀ x ∈ (_greedy_max_cut ds g).1, x ∈ orders) ∧
      ((_greedy_max_cut ds g).1.map Order.order_id).Nodup) ∧
    ((∀ x ∈ (_greedy_max_cut ds g).2, x ∈ orders) ∧
      ((_greedy_max_cut ds g).2.map Order.order_id).Nodup) := by
  have hperm := greedy_max_cut_perm ds g
  have hmem : ∀ x ∈ (_greedy_max_cut ds g).1 ++ (_greedy_max_cut ds g).2, x ∈ orders :=
    fun x hx => hsub x (hperm.mem_iff.mp hx)
  have hmap : ((_greedy_max_cut ds g).1 ++ (_greedy_max_cut ds g).2).map
      Order.order_id |>.Nodup := by
    have := (hperm.map Order.order_id).nodup_iff.mpr hnd
    exact this
  rw [List.map_append, List.nodup_append] at hmap
  exact ⟨⟨fun x hx => hmem x (List.mem_append.mpr (Or.inl hx)), hmap.1⟩,
    ⟨fun x hx => hmem x (List.mem_append.mpr (Or.inr hx)), hmap.2.1⟩⟩

theorem recursive_split_GenInv (ds : List ((String × String) × ℚ))
    (orders : List Order) (k : ℕ) (hk : 1 ≤ k) :
    ∀ (fuel : ℕ) (g : List Order) (st : GenState),
      (∀ x ∈ g, x ∈ orders) → (g.map Order.order_id).Nodup →
      GenInv (GoodBundle orders k) st →
      GenInv (GoodBundle orders k) (recursive_split ds k fuel g st) ∧
      GenLE st (recursive_split ds k fuel g st) := by
  intro fuel
  induction fuel with
  | zero =>
    intro g st hsub hnd hinv
    rw [recursive_split]
    by_cases h0 : g = []
    · rw [if_pos h0]
      exact ⟨hinv, GenLE_refl st⟩
    · rw [if_neg h0]
      by_cases h1 : g.length = 1
      · rw [if_pos h1]
        refine ⟨add_GenInv _ _ _ hinv ⟨h0, by omega, hsub, hnd⟩, add_GenLE _ _⟩
      · rw [if_neg h1]
        obtain ⟨⟨hsa, hna⟩, hsb, hnb⟩ := greedy_max_cut_sub_nodup ds orders g hsub hnd
        have step1 : GenInv (GoodBundle orders k)
              (if g.length ≤ k then add_bundle_if_new st g else st) ∧
            GenLE st (if g.length ≤ k then add_bundle_if_new st g else st) := by
          by_cases hgk : g.length ≤ k
          · rw [if_pos hgk]
            exact ⟨add_GenInv _ _ _ hinv ⟨h0, hgk, hsub, hnd⟩, add_GenLE _ _⟩
          · rw [if_neg hgk]
            exact ⟨hinv, GenLE_refl st⟩
        obtain ⟨hinv1, hle1⟩ := step1
        have step2 : GenInv (GoodBundle orders k)
              (if 1 < (_greedy_max_cut ds g).1.length ∧ (_greedy_max_cut ds g).1.length ≤ k
                then add_bundle_if_new (if g.length ≤ k then add_bundle_if_new st g else st)
                  (_greedy_max_cut ds g).1
                else (if g.length ≤ k then add_bundle_if_new st g else st)) ∧
            GenLE (if g.length ≤ k then add_bundle_if_new st g else st)
              (if 1 < (_greedy_max_cut ds g).1.length ∧ (_greedy_max_cut ds g).1.length ≤ k
                then add_bundle_if_new (if g.length ≤ k then add_bundle_if_new st g else st)
                  (_greedy_max_cut ds g).1
                else (if g.length ≤ k then add_bundle_if_new st g else st)) := by
          by_cases hga : 1 < (_greedy_max_cut ds g).1.length ∧
              (_greedy_max_cut ds g).1.length ≤ k
          · rw [if_pos hga]
            refine ⟨add_GenInv _ _ _ hinv1 ⟨?_, hga.2, hsa, hna⟩, add_GenLE _ _⟩
            intro hcontra
            rw [hcontra] at hga
            simp at hga
          · rw [if_neg hga]
            exact ⟨hinv1, GenLE_refl _⟩
        obtain ⟨hinv2, hle2⟩ := step2
        by_cases hgb : 1 < (_greedy_max_cut ds g).2.length ∧
            (_greedy_max_cut ds g).2.length ≤ k
        · rw [if_pos hgb]
          refine ⟨add_GenInv _ _ _ hinv2 ⟨?_, hgb.2, hsb, hnb⟩,
            GenLE_trans hle1 (GenLE_trans hle2 (add_GenLE _ _))⟩
          intro hcontra
          rw [hcontra] at hgb
          simp at hgb
        · rw [if_neg hgb]
          exact ⟨hinv2, GenLE_trans hle1 hle2⟩
  | succ fuel ih =>
    intro g st hsub hnd hinv
    rw [recursive_split]
    by_cases h0 : g = []
    · rw [if_pos h0]
      exact ⟨hinv, GenLE_refl st⟩
    · rw [if_neg h0]
      by_cases h1 : g.length = 1
      · rw [if_pos h1]
        refine ⟨add_GenInv _ _ _ hinv ⟨h0, by omega, hsub, hnd⟩, add_GenLE _ _⟩
      · rw [if_neg h1]
        obtain ⟨⟨hsa, hna⟩, hsb, hnb⟩ := greedy_max_cut_sub_nodup ds orders g hsub hnd
        have step1 : GenInv (GoodBundle orders k)
              (if g.length ≤ k then add_bundle_if_new st g else st) ∧
            GenLE st (if g.length ≤ k then add_bundle_if_new st g else st) := by
          by_cases hgk : g.length ≤ k
          · rw [if_pos hgk]
            exact ⟨add_GenInv _ _ _ hinv ⟨h0, hgk, hsub, hnd⟩, add_GenLE _ _⟩
          · rw [if_neg hgk]
            exact ⟨hinv, GenLE_refl st⟩
        obtain ⟨hinv1, hle1⟩ := step1
        have step2 : GenInv (GoodBundle orders k)
              (if 1 < (_greedy_max_cut ds g).1.length ∧ (_greedy_max_cut ds g).1.length ≤ k
                then add_bundle_if_new (if g.length ≤ k then add_bundle_if_new st g else st)
                  (_greedy_max_cut ds g).1
                else (if g.length ≤ k then add_bundle_if_new st g else st)) ∧
            GenLE (if g.length ≤ k then add_bundle_if_new st g else st)
              (if 1 < (_greedy_max_cut ds g).1.length ∧ (_greedy_max_cut ds g).1.length ≤ k
                then add_bundle_if_new (if g.length ≤ k then add_bundle_if_new st g else st)
                  (_greedy_max_cut ds g).1
                else (if g.length ≤ k then add_bundle_if_new st g else st)) := by
          by_cases hga : 1 < (_greedy_max_cut ds g).1.length ∧
              (_greedy_max_cut ds g).1.length ≤ k
          · rw [if_pos hga]
            refine ⟨add_GenInv _ _ _ hinv1 ⟨?_, hga.2, hsa, hna⟩, add_GenLE _ _⟩
            intro hcontra
            rw [hcontra] at hga
            simp at hga
          · rw [if_neg hga]
            exact ⟨hinv1, GenLE_refl _⟩
        obtain ⟨hinv2, hle2⟩ := step2
        have hle12 := GenLE_trans hle1 hle2
        have step3 : ∀ st2 : GenState, GenInv (GoodBundle orders k) st2 →
            GenInv (GoodBundle orders k)
              (if 1 < (_greedy_max_cut ds g).2.length ∧ (_greedy_max_cut ds g).2.length ≤ k
                then add_bundle_if_new st2 (_greedy_max_cut ds g).2 else st2) ∧
            GenLE st2
              (if 1 < (_greedy_max_cut ds g).2.length ∧ (_greedy_max_cut ds g).2.length ≤ k
                then add_bundle_if_new st2 (_greedy_max_cut ds g).2 else st2) := by
          intro st2 hinv2'
          by_cases hgb : 1 < (_greedy_max_cut ds g).2.length ∧
              (_greedy_max_cut ds g).2.length ≤ k
          · rw [if_pos hgb]
            refine ⟨add_GenInv _ _ _ hinv2' ⟨?_, hgb.2, hsb, hnb⟩, add_GenLE _ _⟩
            intro hcontra
            rw [hcontra] at hgb
            simp at hgb
          · rw [if_neg hgb]
            exact ⟨hinv2', GenLE_refl _⟩
        obtain ⟨hinv3, hle3⟩ := step3 _ hinv2
        have step4 : ∀ st3 : GenState, GenInv (GoodBundle orders k) st3 →
            GenInv (GoodBundle orders k)
              (if k < (_greedy_max_cut ds g).1.length
                then recursive_split ds k fuel (_greedy_max_cut ds g).1 st3 else st3) ∧
            GenLE st3
              (if k < (_greedy_max_cut ds g).1.length
                then recursive_split ds k fuel (_greedy_max_cut ds g).1 st3 else st3) := by
          intro st3 hinv3'
          by_cases hra : k < (_greedy_max_cut ds g).1.length
          · rw [if_pos hra]
            exact ih (_greedy_max_cut ds g).1 st3 hsa hna hinv3'
          · rw [if_neg hra]
            exact ⟨hinv3', GenLE_refl _⟩
        obtain ⟨hinv4, hle4⟩ := step4 _ hinv3
        by_cases hrb : k < (_greedy_max_cut ds g).2.length
        · rw [if_pos hrb]
          obtain ⟨hinv5, hle5⟩ := ih (_greedy_max_cut ds g).2 _ hsb hnb hinv4
          exact ⟨hinv5,
            GenLE_trans hle12 (GenLE_trans hle3 (GenLE_trans hle4 hle5))⟩
        · rw [if_neg hrb]
          exact ⟨hinv4, GenLE_trans hle12 (GenLE_trans hle3 hle4)⟩

theorem snd_mem_of_mem_enum (l : List Order) (p : ℕ × Order) (h : p ∈ l.enum) :
    p.2 ∈ l := by
  have h2 : p.2 ∈ l.enum.map Prod.snd := List.mem_map_of_mem _ h
  rwa [List.enum_map_snd] at h2

theorem pairInner_GenInv (ds : List ((String × String) × ℚ)) (orders : List Order)
    (k : ℕ) (hk : 2 ≤ k) (o1 : Order) (i : ℕ) (ho1 : o1 ∈ orders)
    (hid1 : ∀ (j : ℕ) (o2 : Order), (j, o2) ∈ orders.enum → i < j →
      o1.order_id ≠ o2.order_id) :
    ∀ (l : List (ℕ × Order)) (st : GenState),
      (∀ p ∈ l, p ∈ orders.enum) →
      GenInv (GoodBundle orders k) st →
      GenInv (GoodBundle orders k) (pairInner ds o1 i l st) ∧
      GenLE st (pairInner ds o1 i l st) := by
  intro l
  induction l with
  | nil => intro st _ hinv; exact ⟨hinv, GenLE_refl st⟩
  | cons p rest ih =>
    obtain ⟨j, o2⟩ := p
    intro st hsub hinv
    rw [pairInner]
    by_cases hij : i < j
    · rw [if_pos hij]
      cases hlk : lookupA ds (o1.order_id, o2.order_id) with
      | none => exact ih st (fun q hq => hsub q (List.mem_cons_of_mem _ hq)) hinv
      | some dist =>
        simp only
        by_cases hd : dist ≤ MAX_PICKUP_DISTANCE_KM
        · rw [if_pos hd]
          have ho2 : o2 ∈ orders :=
            snd_mem_of_mem_enum orders (j, o2) (hsub (j, o2) (List.mem_cons_self _ _))
          have hgood : GoodBundle orders k [o1, o2] := by
            refine ⟨by simp, by simpa using hk, ?_, ?_⟩
            · intro x hx
              rcases List.mem_cons.mp hx with h | h
              · rw [h]; exact ho1
              · rw [List.mem_singleton.mp h]; exact ho2
            · have hne := hid1 j o2 (hsub (j, o2) (List.mem_cons_self _ _)) hij
              simp [hne]
          obtain ⟨hinv2, hle2⟩ := ih (add_bundle_if_new st [o1, o2])
            (fun q hq => hsub q (List.mem_cons_of_mem _ hq))
            (add_GenInv _ _ _ hinv hgood)
          exact ⟨hinv2, GenLE_trans (add_GenLE _ _) hle2⟩
        · rw [if_neg hd]
          exact ih st (fun q hq => hsub q (List.mem_cons_of_mem _ hq)) hinv
    · rw [if_neg hij]
      exact ih st (fun q hq => hsub q (List.mem_cons_of_mem _ hq)) hinv

theorem pairOuter_GenInv (ds : List ((String × String) × ℚ)) (orders : List Order)
    (k : ℕ) (hk : 2 ≤ k)
    (hids : ∀ (i j : ℕ) (x y : Order), (i, x) ∈ orders.enum → (j, y) ∈ orders.enum →
      i < j → x.order_id ≠ y.order_id) :
    ∀ (l : List (ℕ × Order)) (st : GenState),
      (∀ p ∈ l, p ∈ orders.enum) →
      GenInv (GoodBundle orders k) st →
      GenInv (GoodBundle orders k) (pairOuter ds orders.enum l st) ∧
      GenLE st (pairOuter ds orders.enum l st) := by
  intro l
  induction l with
  | nil => intro st _ hinv; exact ⟨hinv, GenLE_refl st⟩
  | cons p rest ih =>
    obtain ⟨i, o1⟩ := p
    intro st hsub hinv
    rw [pairOuter]
    have ho1 : o1 ∈ orders :=
      snd_mem_of_mem_enum orders (i, o1) (hsub (i, o1) (List.mem_cons_self _ _))
    obtain ⟨hinv1, hle1⟩ := pairInner_GenInv ds orders k hk o1 i ho1
      (fun j o2 hj hij => hids i j o1 o2 (hsub (i, o1) (List.mem_cons_self _ _)) hj hij)
      orders.enum st (fun q hq => hq) hinv
    obtain ⟨hinv2, hle2⟩ := ih _ (fun q hq => hsub q (List.mem_cons_of_mem _ hq)) hinv1
    exact ⟨hinv2, GenLE_trans hle1 hle2⟩

theorem pairInner_GenLE (ds : List ((String × String) × ℚ)) (o1 : Order) (i : ℕ) :
    ∀ (l : List (ℕ × Order)) (st : GenState), GenLE st (pairInner ds o1 i l st) := by
  intro l
  induction l with
  | nil => intro st; exact GenLE_refl st
  | cons p rest ih =>
    obtain ⟨j, o2⟩ := p
    intro st
    rw [pairInner]
    by_cases hij : i < j
    · rw [if_pos hij]
      cases hlk : lookupA ds (o1.order_id, o2.order_id) with
      | none => exact ih st
      | some dist =>
        simp only
        by_cases hd : dist ≤ MAX_PICKUP_DISTANCE_KM
        · rw [if_pos hd]
          exact GenLE_trans (add_GenLE _ _) (ih _)
        · rw [if_neg hd]
          exact ih st
    · rw [if_neg hij]
      exact ih st

theorem pairInner_found (ds : List ((String × String) × ℚ)) (o1 : Order) (i : ℕ)
    (j : ℕ) (o2 : Order) (dist : ℚ)
    (hij : i < j)
    (hlk : lookupA ds (o1.order_id, o2.order_id) = some dist)
    (hd : dist ≤ MAX_PICKUP_DISTANCE_KM) :
    ∀ (l : List (ℕ × Order)) (st : GenState), (j, o2) ∈ l →
      bundleSig [o1, o2] ∈ (pairInner ds o1 i l st).seen := by
  intro l
  induction l with
  | nil => intro st h; cases h
  | cons p rest ih =>
    intro st hmem
    obtain ⟨j', o2'⟩ := p
    rw [pairInner]
    rcases List.mem_cons.mp hmem with h1 | h1
    · injection h1 with hj ho
      subst hj
      subst ho
      rw [if_pos hij, hlk]
      simp only
      rw [if_pos hd]
      exact (pairInner_GenLE ds o1 i rest _).2 (add_sig_seen st [o1, o2])
    · by_cases hij' : i < j'
      · rw [if_pos hij']
        cases hlk' : lookupA ds (o1.order_id, o2'.order_id) with
        | none => exact ih st h1
        | some dist' =>
          simp only
          by_cases hd' : dist' ≤ MAX_PICKUP_DISTANCE_KM
          · rw [if_pos hd']
            exact ih _ h1
          · rw [if_neg hd']
            exact ih st h1
      · rw [if_neg hij']
        exact ih st h1

theorem pairOuter_GenLE (ds : List ((String × String) × ℚ))
    (allEnum : List (ℕ × Order)) :
    ∀ (l : List (ℕ × Order)) (st : GenState), GenLE st (pairOuter ds allEnum l st) := by
  intro l
  induction l with
  | nil => intro st; exact GenLE_refl st
  | cons p rest ih =>
    obtain ⟨i, o1⟩ := p
    intro st
    rw [pairOuter]
    exact GenLE_trans (pairInner_GenLE ds o1 i allEnum st) (ih _)

theorem pairOuter_found (ds : List ((String × String) × ℚ))
    (allEnum : List (ℕ × Order)) (i : ℕ) (o1 : Order) (j : ℕ) (o2 : Order) (dist : ℚ)
    (hij : i < j) (hmem2 : (j, o2) ∈ allEnum)
    (hlk : lookupA ds (o1.order_id, o2.order_id) = some dist)
    (hd : dist ≤ MAX_PICKUP_DISTANCE_KM) :
    ∀ (l : List (ℕ × Order)) (st : GenState), (i, o1) ∈ l →
      bundleSig [o1, o2] ∈ (pairOuter ds allEnum l st).seen := by
  intro l
  induction l with
  | nil => intro st h; cases h
  | cons p rest ih =>
    intro st hmem
    obtain ⟨i', o1'⟩ := p
    rw [pairOuter]
    rcases List.mem_cons.mp hmem with h1 | h1
    · injection h1 with hi ho
      subst hi
      subst ho
      exact (pairOuter_GenLE ds allEnum rest _).2
        (pairInner_found ds o1 i j o2 dist hij hlk hd allEnum st hmem2)
    · exact ih _ h1

theorem singlesFold_GenLE :
    ∀ (l : List Order) (st : GenState),
      GenLE st (l.foldl (fun st o => add_bundle_if_new st [o]) st) := by
  intro l
  induction l with
  | nil => intro st; exact GenLE_refl st
  | cons o rest ih =>
    intro st
    rw [List.foldl_cons]
    exact GenLE_trans (add_GenLE st [o]) (ih _)

theorem singlesFold_GenInv (orders : List Order) (k : ℕ) (hk : 1 ≤ k) :
    ∀ (l : List Order) (st : GenState), (∀ x ∈ l, x ∈ orders) →
      GenInv (GoodBundle orders k) st →
      GenInv (GoodBundle orders k) (l.foldl (fun st o => add_bundle_if_new st [o]) st) := by
  intro l
  induction l with
  | nil => intro st _ hinv; exact hinv
  | cons o rest ih =>
    intro st hsub hinv
    rw [List.foldl_cons]
    refine ih _ (fun x hx => hsub x (List.mem_cons_of_mem _ hx)) ?_
    refine add_GenInv _ _ _ hinv ⟨by simp, by simpa using hk, ?_, by simp⟩
    intro x hx
    rw [List.mem_singleton.mp hx]
    exact hsub o (List.mem_cons_self _ _)

theorem singlesFold_found :
    ∀ (l : List Order) (st : GenState) (o : Order), o ∈ l →
      bundleSig [o] ∈ (l.foldl (fun st o => add_bundle_if_new st [o]) st).seen := by
  intro l
  induction l with
  | nil => intro st o h; cases h
  | cons x rest ih =>
    intro st o hmem
    rw [List.foldl_cons]
    rcases List.mem_cons.mp hmem with h1 | h1
    · subst h1
      exact (singlesFold_GenLE rest _).2 (add_sig_seen st [o])
    · exact ih _ o h1

/-! ### The built distance matrix answers pair lookups -/

theorem bdmInner_preserve (D : Dist) (o1 : Order) (i : ℕ) :
    ∀ (l : List (ℕ × Order)) (ds : List ((String × String) × ℚ))
      (key : String × String),
      (∀ p ∈ l, i < p.1 →
        key ≠ (o1.order_id, p.2.order_id) ∧ key ≠ (p.2.order_id, o1.order_id)) →
      lookupA (bdmInner D o1 i l ds) key = lookupA ds key := by
  intro l
  induction l with
  | nil => intro ds key _; rfl
  | cons p rest ih =>
    obtain ⟨j, o2⟩ := p
    intro ds key hkey
    rw [bdmInner]
    by_cases hij : i < j
    · rw [if_pos hij]
      rw [ih _ key (fun q hq hiq => hkey q (List.mem_cons_of_mem _ hq) hiq)]
      obtain ⟨hk1, hk2⟩ := hkey (j, o2) (List.mem_cons_self _ _) hij
      rw [lookupA_insertD, if_neg (fun h => hk2 h.symm),
        lookupA_insertD, if_neg (fun h => hk1 h.symm)]
    · rw [if_neg hij]
      exact ih _ key (fun q hq hiq => hkey q (List.mem_cons_of_mem _ hq) hiq)

theorem bdmOuter_preserve (D : Dist) (allEnum : List (ℕ × Order)) :
    ∀ (l : List (ℕ × Order)) (ds : List ((String × String) × ℚ))
      (key : String × String),
      (∀ p ∈ l, ∀ q ∈ allEnum, p.1 < q.1 →
        key ≠ (p.2.order_id, q.2.order_id) ∧ key ≠ (q.2.order_id, p.2.order_id)) →
      lookupA (bdmOuter D allEnum l ds) key = lookupA ds key := by
  intro l
  induction l with
  | nil => intro ds key _; rfl
  | cons p rest ih =>
    obtain ⟨i, o1⟩ := p
    intro ds key hkey
    rw [bdmOuter]
    rw [ih _ key (fun q hq => hkey q (List.mem_cons_of_mem _ hq))]
    exact bdmInner_preserve D o1 i allEnum ds key
      (fun q hq hiq => hkey (i, o1) (List.mem_cons_self _ _) q hq hiq)

theorem bdmInner_found (D : Dist) (o1 : Order) (i : ℕ) (j : ℕ) (o2 : Order)
    (hij : i < j) :
    ∀ (l : List (ℕ × Order)) (ds : List ((String × String) × ℚ)),
      (j, o2) ∈ l → l.Nodup →
      (∀ p ∈ l, ∀ q ∈ l, p.2.order_id = q.2.order_id → p = q) →
      (∀ p ∈ l, p.2.order_id = o1.order_id → p.1 = i) →
      lookupA (bdmInner D o1 i l ds) (o1.order_id, o2.order_id) =
        some (D o1.pickup_loc o2.pickup_loc) := by
  intro l
  induction l with
  | nil => intro ds h; cases h
  | cons p rest ih =>
    obtain ⟨j', o2'⟩ := p
    intro ds hmem hnodup hids hnotI
    rw [List.nodup_cons] at hnodup
    rw [bdmInner]
    rcases List.mem_cons.mp hmem with h1 | h1
    · injection h1 with hj ho
      subst hj
      subst ho
      rw [if_pos hij]
      rw [bdmInner_preserve D o1 i rest _ (o1.order_id, o2.order_id) ?_]
      · have hne12 : o1.order_id ≠ o2.order_id := by
          intro hcontra
          have := hnotI (j, o2) (List.mem_cons_self _ _) hcontra.symm
          omega
        rw [lookupA_insertD, if_neg ?_, lookupA_insertD, if_pos rfl]
        intro hcontra
        injection hcontra with hc1 hc2
        exact hne12 hc2
      · intro q hq hiq
        constructor
        · intro hcontra
          injection hcontra with hc1 hc2
          have : (j, o2) = q := hids (j, o2) (List.mem_cons_self _ _)
            q (List.mem_cons_of_mem _ hq) hc2
          rw [← this] at hq
          exact hnodup.1 hq
        · intro hcontra
          injection hcontra with hc1 hc2
          have := hnotI q (List.mem_cons_of_mem _ hq) hc1.symm
          omega
    · by_cases hij' : i < j'
      · rw [if_pos hij']
        exact ih _ h1 hnodup.2
          (fun p hp q hq => hids p (List.mem_cons_of_mem _ hp) q (List.mem_cons_of_mem _ hq))
          (fun p hp => hnotI p (List.mem_cons_of_mem _ hp))
      · rw [if_neg hij']
        exact ih ds h1 hnodup.2
          (fun p hp q hq => hids p (List.mem_cons_of_mem _ hp) q (List.mem_cons_of_mem _ hq))
          (fun p hp => hnotI p (List.mem_cons_of_mem _ hp))

theorem bdmOuter_found (D : Dist) (allEnum : List (ℕ × Order)) (i : ℕ) (o1 : Order)
    (j : ℕ) (o2 : Order) (hij : i < j)
    (hmem2 : (j, o2) ∈ allEnum) (hnodall : allEnum.Nodup)
    (hidsall : ∀ p ∈ allEnum, ∀ q ∈ allEnum, p.2.order_id = q.2.order_id → p = q)
    (hmem1 : (i, o1) ∈ allEnum) :
    ∀ (l : List (ℕ × Order)) (ds : List ((String × String) × ℚ)),
      (i, o1) ∈ l → l.Nodup → (∀ p ∈ l, p ∈ allEnum) →
      lookupA (bdmOuter D allEnum l ds) (o1.order_id, o2.order_id) =
        some (D o1.pickup_loc o2.pickup_loc) := by
  intro l
  induction l with
  | nil => intro ds h; cases h
  | cons p rest ih =>
    obtain ⟨i', o1'⟩ := p
    intro ds hmem hnodup hsub
    rw [List.nodup_cons] at hnodup
    rw [bdmOuter]
    rcases List.mem_cons.mp hmem with h1 | h1
    · injection h1 with hi ho
      subst hi
      subst ho
      rw [bdmOuter_preserve D allEnum rest _ (o1.order_id, o2.order_id) ?_]
      · exact bdmInner_found D o1 i j o2 hij allEnum ds hmem2 hnodall hidsall
          (fun p hp hpid => by
            have : p = (i, o1) := hidsall p hp (i, o1) hmem1 hpid
            rw [this])
      · intro p hp q hq hpq
        constructor
        · intro hcontra
          injection hcontra with hc1 hc2
          have hpe : p = (i, o1) := hidsall p (hsub p (List.mem_cons_of_mem _ hp))
            (i, o1) hmem1 hc1.symm
          rw [hpe] at hp
          exact hnodup.1 hp
        · intro hcontra
          injection hcontra with hc1 hc2
          have hqe : q = (i, o1) := hidsall q hq (i, o1) hmem1 hc1.symm
          have hpe : p = (j, o2) := hidsall p (hsub p (List.mem_cons_of_mem _ hp))
            (j, o2) hmem2 hc2.symm
          rw [hqe, hpe] at hpq
          simp only at hpq
          omega
    · exact ih _ h1 hnodup.2 (fun p hp => hsub p (List.mem_cons_of_mem _ hp))

theorem enum_nodup (orders : List Order) : orders.enum.Nodup := by
  have h := List.nodup_range orders.length
  rw [← List.enum_map_fst orders] at h
  exact h.of_map Prod.fst

theorem enum_snd_eq (orders : List Order) (p : ℕ × Order) (h : p ∈ orders.enum) :
    ∃ hn : p.1 < orders.length, p.2 = orders.get ⟨p.1, hn⟩ := by
  obtain ⟨n, hn, he⟩ := List.mem_iff_getElem.mp h
  have hlen : n < orders.length := by simpa using hn
  have h2 : orders.enum[n] = (n, orders[n]) := List.getElem_enum _ _ hn
  rw [h2] at he
  subst he
  exact ⟨hlen, by simp⟩

theorem enum_ids_unique (orders : List Order)
    (hnd : (orders.map Order.order_id).Nodup) :
    ∀ p ∈ orders.enum, ∀ q ∈ orders.enum, p.2.order_id = q.2.order_id → p = q := by
  intro p hp q hq hpq
  obtain ⟨hp1, hp2⟩ := enum_snd_eq orders p hp
  obtain ⟨hq1, hq2⟩ := enum_snd_eq orders q hq
  have hinj := List.inj_on_of_nodup_map hnd
  have heq : orders.get ⟨p.1, hp1⟩ = orders.get ⟨q.1, hq1⟩ := by
    apply hinj
    · exact List.get_mem _ _ _
    · exact List.get_mem _ _ _
    · rw [← hp2, ← hq2]
      exact hpq
  have hidx : p.1 = q.1 := by
    rw [List.Nodup.get_inj_iff (List.Nodup.of_map Order.order_id hnd)] at heq
    exact congrArg Fin.val heq
  obtain ⟨pa, pb⟩ := p
  obtain ⟨qa, qb⟩ := q
  simp only at hp2 hq2 hidx
  subst hidx
  rw [Prod.mk.injEq]
  refine ⟨rfl, ?_⟩
  rw [hp2, hq2]

theorem mem_enum_get (orders : List Order) (i : ℕ) (hi : i < orders.length) :
    (i, orders.get ⟨i, hi⟩) ∈ orders.enum := by
  have hi2 : i < orders.enum.length := by simpa using hi
  have h2 : orders.enum[i] = (i, orders[i]) := List.getElem_enum _ _ hi2
  have h3 : (i, orders.get ⟨i, hi⟩) = orders.enum[i] := by
    rw [h2]
    simp
  rw [h3]
  exact List.getElem_mem _

theorem build_matrix_lookup (D : Dist) (orders : List Order)
    (hnd : (orders.map Order.order_id).Nodup) (i j : ℕ)
    (hi : i < orders.length) (hj : j < orders.length) (hij : i < j) :
    lookupA (_build_distance_matrix D orders)
        ((orders.get ⟨i, hi⟩).order_id, (orders.get ⟨j, hj⟩).order_id) =
      some (D (orders.get ⟨i, hi⟩).pickup_loc (orders.get ⟨j, hj⟩).pickup_loc) := by
  unfold _build_distance_matrix
  exact bdmOuter_found D orders.enum i (orders.get ⟨i, hi⟩) j (orders.get ⟨j, hj⟩)
    hij (mem_enum_get orders j hj) (enum_nodup orders) (enum_ids_unique orders hnd)
    (mem_enum_get orders i hi) orders.enum [] (mem_enum_get orders i hi)
    (enum_nodup orders) (fun p hp => hp)

/-- Counterexample to C6 as stated: with maximum bundle size k = 1 (the claim
allows every k ≥ 1) and two orders 1 km apart, the nearby-pair loop — which
never checks `max_bundle_size` — still emits their size-2 bundle. -/
theorem generate_spatial_bundles_size1_pair :
    [oA, oB] ∈ generate_spatial_bundles D0 [oA, oB] 1 ∧ ¬([oA, oB].length ≤ 1) := by
  constructor
  · with_unfolding_all decide
  · decide

/-- **C6** (amended — `k ≥ 2` instead of `k ≥ 1`, pairwise distinct order
ids): `generate_spatial_bundles` returns only bundles of size 1…k drawn from
the input with distinct ids; every single order appears as its own size-1
bundle; every index pair `i < j` with pickup distance within
`MAX_PICKUP_DISTANCE_KM` appears as a size-2 bundle with exactly those two
ids; and no two returned bundles share the same unordered id set.  For
`k = 1` the pair coverage loop violates the size bound, hence the amendment. -/
theorem generate_spatial_bundles_coverage (D : Dist) (orders : List Order) (k : ℕ)
    (hk : 2 ≤ k) (hnd : (orders.map Order.order_id).Nodup) :
    (∀ b ∈ generate_spatial_bundles D orders k, 1 ≤ b.length ∧ b.length ≤ k) ∧
    (∀ o ∈ orders, [o] ∈ generate_spatial_bundles D orders k) ∧
    (∀ (i j : ℕ) (hi : i < orders.length) (hj : j < orders.length), i < j →
      D (orders.get ⟨i, hi⟩).pickup_loc (orders.get ⟨j, hj⟩).pickup_loc ≤
        MAX_PICKUP_DISTANCE_KM →
      ∃ b ∈ generate_spatial_bundles D orders k, b.length = 2 ∧
        bundleSig b = {(orders.get ⟨i, hi⟩).order_id, (orders.get ⟨j, hj⟩).order_id}) ∧
    ((generate_spatial_bundles D orders k).map bundleSig).Nodup := by
  have hk1 : 1 ≤ k := by omega
  by_cases h0 : orders = []
  · subst h0
    have hgnil : generate_spatial_bundles D [] k = [] := rfl
    refine ⟨?_, ?_, ?_, ?_⟩
    · intro b hb
      rw [hgnil] at hb
      cases hb
    · intro o ho
      cases ho
    · intro i j hi _ _ _
      exact absurd hi (by simp)
    · rw [hgnil]
      simp
  · have hres : generate_spatial_bundles D orders k =
        (orders.foldl (fun st o => add_bundle_if_new st [o])
          (pairOuter (_build_distance_matrix D orders) orders.enum orders.enum
            (recursive_split (_build_distance_matrix D orders) k 5 orders
              ⟨[], ∅⟩))).bundles := by
      unfold generate_spatial_bundles
      rw [if_neg h0]
    have hinv0 : GenInv (GoodBundle orders k) ⟨[], ∅⟩ :=
      ⟨fun b hb => absurd hb (List.not_mem_nil b), List.nodup_nil, by simp⟩
    obtain ⟨hinv1, hle1⟩ := recursive_split_GenInv (_build_distance_matrix D orders)
      orders k hk1 5 orders ⟨[], ∅⟩ (fun x hx => hx) hnd hinv0
    have hids : ∀ (i j : ℕ) (x y : Order), (i, x) ∈ orders.enum →
        (j, y) ∈ orders.enum → i < j → x.order_id ≠ y.order_id := by
      intro i j x y hx hy hij hcontra
      have := enum_ids_unique orders hnd (i, x) hx (j, y) hy hcontra
      injection this with h1 h2
      omega
    obtain ⟨hinv2, hle2⟩ := pairOuter_GenInv (_build_distance_matrix D orders)
      orders k hk hids orders.enum _ (fun p hp => hp) hinv1
    have hinvF := singlesFold_GenInv orders k hk1 orders _ (fun x hx => hx) hinv2
    have hinj := List.inj_on_of_nodup_map hnd
    refine ⟨?_, ?_, ?_, ?_⟩
    · intro b hb
      rw [hres] at hb
      obtain ⟨hne, hlen, -, -⟩ := hinvF.1 b hb
      exact ⟨List.length_pos.mpr hne, hlen⟩
    · intro o ho
      have hseen := singlesFold_found orders
        (pairOuter (_build_distance_matrix D orders) orders.enum orders.enum
          (recursive_split (_build_distance_matrix D orders) k 5 orders ⟨[], ∅⟩)) o ho
      obtain ⟨b, hb, hsig⟩ := seen_exists_bundle _ _ hinvF _ hseen
      obtain ⟨hbne, hblen, hbsub, hbnd⟩ := hinvF.1 b hb
      have hsig' : (b.map Order.order_id).toFinset = {o.order_id} := by
        unfold bundleSig at hsig
        rw [hsig]
        rfl
      have hcard : (b.map Order.order_id).length = 1 := by
        rw [← List.toFinset_card_of_nodup hbnd, hsig']
        rfl
      have hblen1 : b.length = 1 := by
        rw [List.length_map] at hcard
        exact hcard
      obtain ⟨x, hx⟩ := List.length_eq_one.mp hblen1
      have hxid : x.order_id = o.order_id := by
        have hxm : x.order_id ∈ (b.map Order.order_id).toFinset := by
          rw [hx]
          simp
        rw [hsig'] at hxm
        simpa using hxm
      have hxo : x = o := by
        apply hinj
        · exact hbsub x (by rw [hx]; simp)
        · exact ho
        · exact hxid
      rw [hres]
      rw [hx, hxo] at hb
      exact hb
    · intro i j hi hj hij hdist
      have hlk := build_matrix_lookup D orders hnd i j hi hj hij
      have hseen2 := pairOuter_found (_build_distance_matrix D orders) orders.enum
        i (orders.get ⟨i, hi⟩) j (orders.get ⟨j, hj⟩) _ hij (mem_enum_get orders j hj)
        hlk hdist orders.enum
        (recursive_split (_build_distance_matrix D orders) k 5 orders ⟨[], ∅⟩)
        (mem_enum_get orders i hi)
      have hseenF := (singlesFold_GenLE orders _).2 hseen2
      obtain ⟨b, hb, hsig⟩ := seen_exists_bundle _ _ hinvF _ hseenF
      obtain ⟨hbne, hblen, hbsub, hbnd⟩ := hinvF.1 b hb
      have hidne : (orders.get ⟨i, hi⟩).order_id ≠ (orders.get ⟨j, hj⟩).order_id := by
        intro hcontra
        have heq : orders.get ⟨i, hi⟩ = orders.get ⟨j, hj⟩ := by
          apply hinj
          · exact List.get_mem _ _ _
          · exact List.get_mem _ _ _
          · exact hcontra
        rw [List.Nodup.get_inj_iff (List.Nodup.of_map Order.order_id hnd)] at heq
        have := congrArg Fin.val heq
        simp only at this
        omega
      have hsig2 : bundleSig b =
          {(orders.get ⟨i, hi⟩).order_id, (orders.get ⟨j, hj⟩).order_id} := by
        rw [hsig]
        unfold bundleSig
        simp
      refine ⟨b, by rw [hres]; exact hb, ?_, hsig2⟩
      have hcard2 : (bundleSig b).card = 2 := by
        rw [hsig2]
        exact Finset.card_pair hidne
      unfold bundleSig at hcard2
      rw [List.toFinset_card_of_nodup hbnd, List.length_map] at hcard2
      exact hcard2
    · rw [hres]
      exact hinvF.2.1

/-- Witness for C6 (amended): the coverage theorem applied to two concrete
orders 1 km apart with k = 2. -/
theorem generate_spatial_bundles_coverage_witness :
    (∀ b ∈ generate_spatial_bundles D0 [oA, oB] 2, 1 ≤ b.length ∧ b.length ≤ 2) ∧
    (∀ o ∈ [oA, oB], [o] ∈ generate_spatial_bundles D0 [oA, oB] 2) ∧
    (∀ (i j : ℕ) (hi : i < [oA, oB].length) (hj : j < [oA, oB].length), i < j →
      D0 ([oA, oB].get ⟨i, hi⟩).pickup_loc ([oA, oB].get ⟨j, hj⟩).pickup_loc ≤
        MAX_PICKUP_DISTANCE_KM →
      ∃ b ∈ generate_spatial_bundles D0 [oA, oB] 2, b.length = 2 ∧
        bundleSig b = {([oA, oB].get ⟨i, hi⟩).order_id,
          ([oA, oB].get ⟨j, hj⟩).order_id}) ∧
    ((generate_spatial_bundles D0 [oA, oB] 2).map bundleSig).Nodup :=
  generate_spatial_bundles_coverage D0 [oA, oB] 2 (by decide) (by decide)

/-! ### The combinatorial strategy (`run_combinatorial`, claim C4) -/

/-- Materialising `getOrders` keeps one record per id. -/
theorem getOrders_length (store : List Order) :
    ∀ (ids : List String) (recs : List Order), getOrders store ids = some recs →
      recs.length = ids.length := by
  intro ids
  induction ids with
  | nil =>
    intro recs h
    unfold getOrders at h
    cases h
    rfl
  | cons oid rest ih =>
    intro recs h
    unfold getOrders at h
    cases hf : store.find? (fun o => o.order_id = oid) with
    | none => rw [hf] at h; simp at h
    | some o =>
      rw [hf] at h
      cases hg : getOrders store rest with
      | none => rw [hg] at h; simp at h
      | some os =>
        rw [hg] at h
        simp only at h
        cases h
        simp [ih os hg]

/-- The capacity-skipping nearest scan of the combinatorial fallback (lines
815-825 and 829-839): couriers already at capacity are skipped, strict
improvement updates the running minimum. -/
def nearestCapFold (D : Dist) (target : Loc) :
    List Driver → WithTop ℚ × Option String → WithTop ℚ × Option String
  | [], acc => acc
  | d :: rest, acc =>
    if d.capacity ≤ d.assigned_orders.length then nearestCapFold D target rest acc
    else if (D d.current_loc target : WithTop ℚ) < acc.1 then
      nearestCapFold D target rest
        ((D d.current_loc target : WithTop ℚ), some d.driver_id)
    else nearestCapFold D target rest acc

theorem nearestCapFold_cons (D : Dist) (target : Loc) (d : Driver)
    (rest : List Driver) (acc : WithTop ℚ × Option String) :
    nearestCapFold D target (d :: rest) acc =
      if d.capacity ≤ d.assigned_orders.length then nearestCapFold D target rest acc
      else if (D d.current_loc target : WithTop ℚ) < acc.1 then
        nearestCapFold D target rest
          ((D d.current_loc target : WithTop ℚ), some d.driver_id)
      else nearestCapFold D target rest acc := rfl

/-- Whatever the capacity-skipping scan selects comes from the scanned list
and has spare capacity. -/
theorem nearestCapFold_sel (D : Dist) (target : Loc) (P : Driver → Prop) :
    ∀ (l : List Driver), (∀ d ∈ l, P d) →
    ∀ acc : WithTop ℚ × Option String,
      (∀ fid, acc.2 = some fid → ∃ de, P de ∧ de.driver_id = fid ∧
        de.assigned_orders.length < de.capacity) →
      ∀ fid, (nearestCapFold D target l acc).2 = some fid →
        ∃ de, P de ∧ de.driver_id = fid ∧
          de.assigned_orders.length < de.capacity := by
  intro l
  induction l with
  | nil => intro _ acc hacc fid h; exact hacc fid h
  | cons d rest ih =>
    intro hP acc hacc fid h
    rw [nearestCapFold_cons] at h
    by_cases h1 : d.capacity ≤ d.assigned_orders.length
    · rw [if_pos h1] at h
      exact ih (fun x hx => hP x (List.mem_cons_of_mem _ hx)) acc hacc fid h
    · rw [if_neg h1] at h
      by_cases h2 : (D d.current_loc target : WithTop ℚ) < acc.1
      · rw [if_pos h2] at h
        refine ih (fun x hx => hP x (List.mem_cons_of_mem _ hx)) _ ?_ fid h
        intro fid2 hf
        simp only at hf
        exact ⟨d, hP d (List.mem_cons_self _ _), Option.some.inj hf, not_le.mp h1⟩
      · rw [if_neg h2] at h
        exact ih (fun x hx => hP x (List.mem_cons_of_mem _ hx)) acc hacc fid h

/-- The mutable state of `run_combinatorial` (lines 694-919): the shared
order store and fleet, the eligible-courier ids, the existing-distance dict,
the pending orders, the assigned ids of the cycle, and the tick distance. -/
structure CombState where
  store : List Order
  drivers : List Driver
  eligible : List String
  existing : List (String × ℚ)
  pending : List Order
  assigned : List String
  total : ℚ
deriving Repr

/-- The per-bundle bid scan of `run_combinatorial` (lines 762-800): every
eligible courier whose load plus the combo fits its capacity solves the
route, bids its trip cost, and the finite-cost tuples
`(cost, driver, bundle, new orders, marginal distance)` are collected. -/
def combBidsInner (D : Dist) (store : List Order) (drivers : List Driver)
    (current_time : ℚ) (existing : List (String × ℚ)) (combo : List Order) :
    List String → List (WithTop ℚ × String × Bundle × List Order × ℚ) →
      Option (List (WithTop ℚ × String × Bundle × List Order × ℚ))
  | [], acc => some acc
  | did :: rest, acc =>
    match lookupDriver drivers did with
    | none => none
    | some d =>
      if d.capacity < d.assigned_orders.length + combo.length then
        combBidsInner D store drivers current_time existing combo rest acc
      else
        match getOrders store d.assigned_orders with
        | none => none
        | some assigned_recs =>
          let all_orders := assigned_recs ++ combo
          let already_picked_up := assigned_recs.filter
            (fun o => decide (o.status = OrderStatus.PICKED_UP))
          let rt := find_optimal_route D d.current_loc all_orders already_picked_up
          if rt.1 = [] then
            combBidsInner D store drivers current_time existing combo rest acc
          else
            let bundle : Bundle := ⟨all_orders, rt.1, rt.2⟩
            let existing_dist := (lookupA existing d.driver_id).getD 0
            match calculate_trip_cost D d bundle current_time existing_dist with
            | none => none
            | some cost =>
              if cost = ⊤ then
                combBidsInner D store drivers current_time existing combo rest acc
              else
                combBidsInner D store drivers current_time existing combo rest
                  (acc ++ [(cost, did, bundle, combo, rt.2 - existing_dist)])

/-- The outer loop of the bid collection: one inner scan per candidate
bundle. -/
def combBidsOuter (D : Dist) (store : List Order) (drivers : List Driver)
    (current_time : ℚ) (existing : List (String × ℚ)) (eligible : List String) :
    List (List Order) → List (WithTop ℚ × String × Bundle × List Order × ℚ) →
      Option (List (WithTop ℚ × String × Bundle × List Order × ℚ))
  | [], acc => some acc
  | combo :: rest, acc =>
    match combBidsInner D store drivers current_time existing combo eligible acc with
    | none => none
    | some acc1 => combBidsOuter D store drivers current_time existing eligible rest acc1

/-- The selection key of line 899: `(cost, -bundle_size)`, compared
lexicographically. -/
def combKeyLt (x y : WithTop ℚ × String × Bundle × List Order × ℚ) : Bool :=
  decide (x.1 < y.1) ||
    (decide (x.1 = y.1) && decide (y.2.2.2.1.length < x.2.2.2.1.length))

/-- Python `min` with a key: scan the tail, keep the first strict minimum. -/
def combMin :
    List (WithTop ℚ × String × Bundle × List Order × ℚ) →
      WithTop ℚ × String × Bundle × List Order × ℚ →
      WithTop ℚ × String × Bundle × List Order × ℚ
  | [], best => best
  | x :: rest, best =>
    if combKeyLt x best then combMin rest x else combMin rest best

theorem combMin_mem :
    ∀ (l : List (WithTop ℚ × String × Bundle × List Order × ℚ)) (a),
      combMin l a ∈ a :: l := by
  intro l
  induction l with
  | nil => intro a; exact List.mem_cons_self _ _
  | cons x rest ih =>
    intro a
    rw [combMin]
    by_cases h : combKeyLt x a = true
    · rw [if_pos h]
      exact List.mem_cons_of_mem _ (ih x)
    · rw [if_neg h]
      rcases List.mem_cons.mp (ih a) with h1 | h1
      · rw [h1]
        exact List.mem_cons_self _ _
      · exact List.mem_cons_of_mem _ (List.mem_cons_of_mem _ h1)

/-- The winning greedy assignment (lines 897-917): assign the best bundle,
record its distance, drop its new orders from pending and the courier from
the eligible list when full. -/
def combSelectFinish (D : Dist) (current_time : ℚ) (st : CombState)
    (best : WithTop ℚ × String × Bundle × List Order × ℚ) : Option CombState :=
  match _assign_bundle_to_driver D st.store st.drivers best.2.1 best.2.2.1
      current_time with
  | none => none
  | some (store1, drivers1) =>
    match lookupDriver drivers1 best.2.1 with
    | none => none
    | some dUpd =>
      let elig1 := if dUpd.capacity ≤ dUpd.assigned_orders.length then
        st.eligible.erase best.2.1 else st.eligible
      some ⟨store1, drivers1, elig1,
        insertD st.existing best.2.1 best.2.2.1.total_distance,
        best.2.2.2.1.foldl (fun p o => p.erase o) st.pending,
        st.assigned ++ best.2.2.2.1.map (fun o => o.order_id),
        st.total + best.2.2.2.2⟩

/-- The two-stage fallback courier pick (lines 812-839): nearest IDLE courier
with spare capacity; only if none is found, nearest ACCRUING courier with
spare capacity (the accumulator is still `(∞, None)` then). -/
def combFallbackPick (D : Dist) (order : Order) (eds : List Driver) :
    WithTop ℚ × Option String :=
  let accI := nearestCapFold D order.pickup_loc
    (eds.filter (fun d => decide (d.status = DriverStatus.IDLE)))
    ((⊤ : WithTop ℚ), none)
  match accI.2 with
  | some _ => accI
  | none => nearestCapFold D order.pickup_loc
      (eds.filter (fun d => decide (d.status = DriverStatus.ACCRUING))) accI

theorem combFallbackPick_sel (D : Dist) (order : Order) (eds : List Driver)
    (fid : String) (h : (combFallbackPick D order eds).2 = some fid) :
    ∃ de, de ∈ eds ∧ de.driver_id = fid ∧
      de.assigned_orders.length < de.capacity := by
  unfold combFallbackPick at h
  dsimp only at h
  cases haccI : (nearestCapFold D order.pickup_loc
      (eds.filter (fun d => decide (d.status = DriverStatus.IDLE)))
      ((⊤ : WithTop ℚ), none)).2 with
  | some fid0 =>
    rw [haccI] at h
    simp only at h
    rw [haccI] at h
    have hfe : fid0 = fid := Option.some.inj h
    subst hfe
    exact nearestCapFold_sel D order.pickup_loc (fun d => d ∈ eds) _
      (fun d hd => List.mem_of_mem_filter hd) ((⊤ : WithTop ℚ), none)
      (fun fid2 hf => by cases hf) fid0 haccI
  | none =>
    rw [haccI] at h
    simp only at h
    exact nearestCapFold_sel D order.pickup_loc (fun d => d ∈ eds) _
      (fun d hd => List.mem_of_mem_filter hd) _
      (fun fid2 hf => by rw [haccI] at hf; cases hf) fid h

/-- The common tail of both fallback assignments (lines 841-881): assign the
bundle, mark the order ASSIGNED, and drop the courier from the eligible list
when it reaches capacity.  `existing1` and `add` are the branch-specific
distance-dict update and tick-distance increment. -/
def combFallbackFinish (D : Dist) (current_time : ℚ) (st : CombState)
    (order : Order) (fid : String) (bundle : Bundle)
    (existing1 : List (String × ℚ)) (add : ℚ) : Option CombState :=
  match _assign_bundle_to_driver D st.store st.drivers fid bundle current_time with
  | none => none
  | some (store1, drivers1) =>
    let store2 := setOrderStatus store1 order.order_id OrderStatus.ASSIGNED
    match lookupDriver drivers1 fid with
    | none => none
    | some fUpd =>
      let elig1 := if fUpd.capacity ≤ fUpd.assigned_orders.length then
        st.eligible.erase fid else st.eligible
      some ⟨store2, drivers1, elig1, existing1, st.pending,
        st.assigned ++ [order.order_id], st.total + add⟩

/-- One order of the combinatorial fallback loop (lines 806-881): pick the
nearest courier with spare capacity (IDLE first, then ACCRUING); an IDLE
winner gets a plain pickup-dropoff route, an ACCRUING winner gets a
re-optimised route over its load plus the order (skipping the order if no
route exists).  The second accumulator component collects the orders
assigned in the fallback (`orders_assigned_in_fallback`). -/
def combFallbackStep (D : Dist) (current_time : ℚ)
    (acc : CombState × List Order) (order : Order) :
    Option (CombState × List Order) :=
  if acc.1.eligible = [] then some acc
  else
    match getDrivers acc.1.drivers acc.1.eligible with
    | none => none
    | some eds =>
      match (combFallbackPick D order eds).2 with
      | none => some acc
      | some fid =>
        match lookupDriver acc.1.drivers fid with
        | none => none
        | some fd =>
          if fd.status = DriverStatus.IDLE then
            let pickup_stop : Stop := ⟨order.pickup_loc, StopType.PICKUP, order.order_id⟩
            let dropoff_stop : Stop := ⟨order.dropoff_loc, StopType.DROPOFF, order.order_id⟩
            let full := (combFallbackPick D order eds).1.untop' 0 +
              D order.pickup_loc order.dropoff_loc
            match combFallbackFinish D current_time acc.1 order fid
                ⟨[order], [pickup_stop, dropoff_stop], full⟩ acc.1.existing full with
            | none => none
            | some st1 => some (st1, acc.2 ++ [order])
          else
            match getOrders acc.1.store fd.assigned_orders with
            | none => none
            | some recs =>
              let all_orders := recs ++ [order]
              let already_picked_up := recs.filter
                (fun o => decide (o.status = OrderStatus.PICKED_UP))
              let rt := find_optimal_route D fd.current_loc all_orders already_picked_up
              if rt.1 = [] then some acc
              else
                let existing_dist := (lookupA acc.1.existing fd.driver_id).getD 0
                match combFallbackFinish D current_time acc.1 order fid
                    ⟨all_orders, rt.1, rt.2⟩
                    (insertD acc.1.existing fid rt.2) (rt.2 - existing_dist) with
                | none => none
                | some st1 => some (st1, acc.2 ++ [order])

/-- The whole fallback pass (lines 801-891) over a snapshot of the pending
orders. -/
def combFallback (D : Dist) (current_time : ℚ) (st : CombState) :
    Option (CombState × List Order) :=
  st.pending.foldlM (combFallbackStep D current_time) (st, [])

/-- The `while eligible_drivers and pending_orders` loop of
`run_combinatorial` (lines 751-917), with explicit fuel (each continuing
iteration assigns at least one pending order, so `|orders| + 1` iterations
suffice; exhausted fuel yields `none`).  Candidate bundles are regenerated
from the remaining pending orders each iteration; the prebuilt distance
matrix the Python passes is only a cache whose entries agree with the
distance oracle (`build_matrix_lookup`), so the regeneration is
observationally identical. -/
def combLoop (D : Dist) (current_time : ℚ) : ℕ → CombState → Option CombState
  | 0, _ => none
  | fuel + 1, st =>
    if st.eligible = [] ∨ st.pending = [] then some st
    else
      match combBidsOuter D st.store st.drivers current_time st.existing
          st.eligible (generate_spatial_bundles D st.pending MAX_BUNDLE_SIZE) [] with
      | none => none
      | some [] =>
        match combFallback D current_time st with
        | none => none
        | some (st1, fassigned) =>
          let st2 : CombState := { st1 with
            pending := fassigned.foldl (fun p o => p.erase o) st1.pending }
          if fassigned = [] then some st2
          else combLoop D current_time fuel st2
      | some (a :: rest) =>
        match combSelectFinish D current_time st (combMin rest a) with
        | none => none
        | some st1 => combLoop D current_time fuel st1

/-- `DispatchEngine.run_combinatorial` (lines 694-919): existing-distance
dict (lines 724-733, as in `run_sequential`), eligible list (lines 735-744,
as in `run_sequential`), then the greedy bundle-assignment loop.  Returns
the final state; `assigned` and `total` are the Python return value,
`store`/`drivers` the side effects on the shared objects. -/
def run_combinatorial (D : Dist) (store : List Order) (drivers : List Driver)
    (orders : List Order) (current_time : ℚ) : Option CombState :=
  match seqExisting D store drivers [] with
  | none => none
  | some existing =>
    combLoop D current_time (orders.length + 1)
      ⟨store, drivers, seqEligible drivers current_time, existing, orders, [], 0⟩

/-- Every collected bid tuple fits the bidding courier's capacity. -/
def CandOK (drivers : List Driver)
    (lst : List (WithTop ℚ × String × Bundle × List Order × ℚ)) : Prop :=
  ∀ x ∈ lst, ∀ d ∈ drivers, d.driver_id = x.2.1 →
    x.2.2.1.orders.length ≤ d.capacity

theorem combBidsInner_cand (D : Dist) (store : List Order) (drivers : List Driver)
    (t : ℚ) (existing : List (String × ℚ)) (combo : List Order)
    (hnd : (drivers.map Driver.driver_id).Nodup) :
    ∀ (l : List String) (acc), CandOK drivers acc →
      ∀ res, combBidsInner D store drivers t existing combo l acc = some res →
        CandOK drivers res := by
  intro l
  induction l with
  | nil =>
    intro acc hacc res h
    rw [combBidsInner] at h
    cases h
    exact hacc
  | cons did rest ih =>
    intro acc hacc res h
    rw [combBidsInner] at h
    cases hlk : lookupDriver drivers did with
    | none => rw [hlk] at h; simp at h
    | some d =>
      rw [hlk] at h
      simp only at h
      by_cases hcap : d.capacity < d.assigned_orders.length + combo.length
      · rw [if_pos hcap] at h
        exact ih acc hacc res h
      · rw [if_neg hcap] at h
        cases hgo : getOrders store d.assigned_orders with
        | none => rw [hgo] at h; simp at h
        | some recs =>
          rw [hgo] at h
          simp only at h
          by_cases hrt : (find_optimal_route D d.current_loc (recs ++ combo)
              (recs.filter (fun o => decide (o.status = OrderStatus.PICKED_UP)))).1 = []
          · rw [if_pos hrt] at h
            exact ih acc hacc res h
          · rw [if_neg hrt] at h
            cases hc : calculate_trip_cost D d
                ⟨recs ++ combo,
                  (find_optimal_route D d.current_loc (recs ++ combo)
                    (recs.filter (fun o => decide (o.status = OrderStatus.PICKED_UP)))).1,
                  (find_optimal_route D d.current_loc (recs ++ combo)
                    (recs.filter (fun o => decide (o.status = OrderStatus.PICKED_UP)))).2⟩
                t ((lookupA existing d.driver_id).getD 0) with
            | none => rw [hc] at h; simp at h
            | some cost =>
              rw [hc] at h
              simp only at h
              by_cases htop : cost = ⊤
              · rw [if_pos htop] at h
                exact ih acc hacc res h
              · rw [if_neg htop] at h
                refine ih _ ?_ res h
                intro x hx d2 hd2 hdid
                rcases List.mem_append.mp hx with h1 | h1
                · exact hacc x h1 d2 hd2 hdid
                · rw [List.mem_singleton] at h1
                  subst h1
                  have hd2d : d2 = d :=
                    lookupDriver_unique drivers hnd did d d2 hlk hd2 hdid
                  rw [hd2d]
                  show (recs ++ combo).length ≤ d.capacity
                  have hrl : recs.length = d.assigned_orders.length :=
                    getOrders_length store d.assigned_orders recs hgo
                  rw [List.length_append, hrl]
                  omega

theorem combBidsOuter_cand (D : Dist) (store : List Order) (drivers : List Driver)
    (t : ℚ) (existing : List (String × ℚ)) (eligible : List String)
    (hnd : (drivers.map Driver.driver_id).Nodup) :
    ∀ (combos : List (List Order)) (acc), CandOK drivers acc →
      ∀ res, combBidsOuter D store drivers t existing eligible combos acc = some res →
        CandOK drivers res := by
  intro combos
  induction combos with
  | nil =>
    intro acc hacc res h
    rw [combBidsOuter] at h
    cases h
    exact hacc
  | cons combo rest ih =>
    intro acc hacc res h
    rw [combBidsOuter] at h
    cases hin : combBidsInner D store drivers t existing combo eligible acc with
    | none => rw [hin] at h; simp at h
    | some acc1 =>
      rw [hin] at h
      exact ih acc1
        (combBidsInner_cand D store drivers t existing combo hnd eligible acc
          hacc acc1 hin) res h

theorem combSelectFinish_DriversOK (D : Dist) (t : ℚ) (st : CombState)
    (best : WithTop ℚ × String × Bundle × List Order × ℚ)
    (hok : DriversOK st.drivers)
    (hlen : ∀ d ∈ st.drivers, d.driver_id = best.2.1 →
      best.2.2.1.orders.length ≤ d.capacity) :
    ∀ st1, combSelectFinish D t st best = some st1 → DriversOK st1.drivers := by
  intro st1 h
  unfold combSelectFinish at h
  cases hassign : _assign_bundle_to_driver D st.store st.drivers best.2.1 best.2.2.1 t with
  | none => rw [hassign] at h; simp at h
  | some pr =>
    rw [hassign] at h
    obtain ⟨store1, drivers1⟩ := pr
    simp only at h
    have hok1 : DriversOK drivers1 :=
      assign_DriversOK D st.store st.drivers best.2.1 best.2.2.1 t hok hlen
        (store1, drivers1) hassign
    cases hlk : lookupDriver drivers1 best.2.1 with
    | none => rw [hlk] at h; simp at h
    | some dUpd =>
      rw [hlk] at h
      simp only at h
      cases h
      exact hok1

theorem combFallbackFinish_DriversOK (D : Dist) (t : ℚ) (st : CombState)
    (order : Order) (fid : String) (bundle : Bundle)
    (existing1 : List (String × ℚ)) (add : ℚ)
    (hok : DriversOK st.drivers)
    (hlen : ∀ d ∈ st.drivers, d.driver_id = fid →
      bundle.orders.length ≤ d.capacity) :
    ∀ st1, combFallbackFinish D t st order fid bundle existing1 add = some st1 →
      DriversOK st1.drivers := by
  intro st1 h
  unfold combFallbackFinish at h
  cases hassign : _assign_bundle_to_driver D st.store st.drivers fid bundle t with
  | none => rw [hassign] at h; simp at h
  | some pr =>
    rw [hassign] at h
    obtain ⟨store1, drivers1⟩ := pr
    simp only at h
    have hok1 : DriversOK drivers1 :=
      assign_DriversOK D st.store st.drivers fid bundle t hok hlen
        (store1, drivers1) hassign
    cases hlk : lookupDriver drivers1 fid with
    | none => rw [hlk] at h; simp at h
    | some fUpd =>
      rw [hlk] at h
      simp only at h
      cases h
      exact hok1

theorem combFallbackStep_DriversOK (D : Dist) (t : ℚ)
    (acc : CombState × List Order) (order : Order)
    (hok : DriversOK acc.1.drivers) :
    ∀ acc2, combFallbackStep D t acc order = some acc2 →
      DriversOK acc2.1.drivers := by
  intro acc2 h
  unfold combFallbackStep at h
  by_cases he : acc.1.eligible = []
  · rw [if_pos he] at h
    cases h
    exact hok
  · rw [if_neg he] at h
    cases hgd : getDrivers acc.1.drivers acc.1.eligible with
    | none => rw [hgd] at h; simp at h
    | some eds =>
      rw [hgd] at h
      simp only at h
      cases hpick : (combFallbackPick D order eds).2 with
      | none =>
        rw [hpick] at h
        cases h
        exact hok
      | some fid =>
        rw [hpick] at h
        simp only at h
        cases hlk : lookupDriver acc.1.drivers fid with
        | none => rw [hlk] at h; simp at h
        | some fd =>
          rw [hlk] at h
          simp only at h
          by_cases hst : fd.status = DriverStatus.IDLE
          · rw [if_pos hst] at h
            cases hfin : combFallbackFinish D t acc.1 order fid
                ⟨[order],
                 [⟨order.pickup_loc, StopType.PICKUP, order.order_id⟩,
                  ⟨order.dropoff_loc, StopType.DROPOFF, order.order_id⟩],
                 (combFallbackPick D order eds).1.untop' 0 +
                   D order.pickup_loc order.dropoff_loc⟩
                acc.1.existing
                ((combFallbackPick D order eds).1.untop' 0 +
                  D order.pickup_loc order.dropoff_loc) with
            | none => rw [hfin] at h; simp at h
            | some st1 =>
              rw [hfin] at h
              simp only at h
              cases h
              refine combFallbackFinish_DriversOK D t acc.1 order fid _ _ _ hok
                ?_ st1 hfin
              exact fun d hd _ => (hok.2 d hd).2
          · rw [if_neg hst] at h
            cases hgo : getOrders acc.1.store fd.assigned_orders with
            | none => rw [hgo] at h; simp at h
            | some recs =>
              rw [hgo] at h
              simp only at h
              by_cases hrt : (find_optimal_route D fd.current_loc (recs ++ [order])
                  (recs.filter (fun o => decide (o.status = OrderStatus.PICKED_UP)))).1 = []
              · rw [if_pos hrt] at h
                cases h
                exact hok
              · rw [if_neg hrt] at h
                cases hfin : combFallbackFinish D t acc.1 order fid
                    ⟨recs ++ [order],
                     (find_optimal_route D fd.current_loc (recs ++ [order])
                       (recs.filter (fun o => decide (o.status = OrderStatus.PICKED_UP)))).1,
                     (find_optimal_route D fd.current_loc (recs ++ [order])
                       (recs.filter (fun o => decide (o.status = OrderStatus.PICKED_UP)))).2⟩
                    (insertD acc.1.existing fid
                      (find_optimal_route D fd.current_loc (recs ++ [order])
                        (recs.filter (fun o => decide (o.status = OrderStatus.PICKED_UP)))).2)
                    ((find_optimal_route D fd.current_loc (recs ++ [order])
                       (recs.filter (fun o => decide (o.status = OrderStatus.PICKED_UP)))).2 -
                      (lookupA acc.1.existing fd.driver_id).getD 0) with
                | none => rw [hfin] at h; simp at h
                | some st1 =>
                  rw [hfin] at h
                  simp only at h
                  cases h
                  refine combFallbackFinish_DriversOK D t acc.1 order fid _ _ _ hok
                    ?_ st1 hfin
                  intro d hd hdid
                  obtain ⟨de, hde, hdeid, hdecap⟩ := combFallbackPick_sel D order eds fid hpick
                  have hdemem : de ∈ acc.1.drivers :=
                    getDrivers_mem acc.1.drivers acc.1.eligible eds hgd de hde
                  have hdfd : d = fd :=
                    lookupDriver_unique acc.1.drivers hok.1 fid fd d hlk hd hdid
                  have hdefd : de = fd :=
                    lookupDriver_unique acc.1.drivers hok.1 fid fd de hlk hdemem hdeid
                  rw [hdefd] at hdecap
                  have hrl : recs.length = fd.assigned_orders.length :=
                    getOrders_length acc.1.store fd.assigned_orders recs hgo
                  rw [hdfd]
                  show (recs ++ [order]).length ≤ fd.capacity
                  rw [List.length_append, hrl]
                  simp only [List.length_singleton]
                  omega

theorem combFallback_DriversOK (D : Dist) (t : ℚ) (st : CombState)
    (hok : DriversOK st.drivers) :
    ∀ pr, combFallback D t st = some pr → DriversOK pr.1.drivers := by
  intro pr h
  unfold combFallback at h
  exact foldlM_option_inv (fun (x : CombState × List Order) => DriversOK x.1.drivers)
    (combFallbackStep D t)
    (fun b a hb b2 hfb => combFallbackStep_DriversOK D t b a hb b2 hfb)
    st.pending (st, []) pr hok h

theorem combLoop_DriversOK (D : Dist) (t : ℚ) :
    ∀ (fuel : ℕ) (st : CombState), DriversOK st.drivers →
      ∀ st2, combLoop D t fuel st = some st2 → DriversOK st2.drivers := by
  intro fuel
  induction fuel with
  | zero =>
    intro st _ st2 h
    rw [combLoop] at h
    cases h
  | succ n ih =>
    intro st hok st2 h
    rw [combLoop] at h
    by_cases hguard : st.eligible = [] ∨ st.pending = []
    · rw [if_pos hguard] at h
      cases h
      exact hok
    · rw [if_neg hguard] at h
      cases hbids : combBidsOuter D st.store st.drivers t st.existing st.eligible
          (generate_spatial_bundles D st.pending MAX_BUNDLE_SIZE) [] with
      | none => rw [hbids] at h; simp at h
      | some lst =>
        rw [hbids] at h
        have hcand : CandOK st.drivers lst :=
          combBidsOuter_cand D st.store st.drivers t st.existing st.eligible hok.1
            (generate_spatial_bundles D st.pending MAX_BUNDLE_SIZE) []
            (fun x hx => absurd hx (List.not_mem_nil x)) lst hbids
        cases lst with
        | nil =>
          simp only at h
          cases hfb : combFallback D t st with
          | none => rw [hfb] at h; simp at h
          | some pr =>
            rw [hfb] at h
            obtain ⟨st1, fassigned⟩ := pr
            simp only at h
            have hok1 : DriversOK st1.drivers :=
              combFallback_DriversOK D t st hok (st1, fassigned) hfb
            by_cases hfa : fassigned = []
            · rw [if_pos hfa] at h
              cases h
              exact hok1
            · rw [if_neg hfa] at h
              exact ih { st1 with
                pending := fassigned.foldl (fun p o => p.erase o) st1.pending }
                hok1 st2 h
        | cons a rest =>
          simp only at h
          cases hsel : combSelectFinish D t st (combMin rest a) with
          | none => rw [hsel] at h; simp at h
          | some st1 =>
            rw [hsel] at h
            have hok1 : DriversOK st1.drivers :=
              combSelectFinish_DriversOK D t st (combMin rest a) hok
                (fun d hd hdid =>
                  hcand (combMin rest a) (combMin_mem rest a) d hd hdid)
                st1 hsel
            exact ih st1 hok1 st2 h

/-- **C4** (amended): with pairwise distinct courier ids, every capacity at
least 1 and every courier initially within capacity, all three dispatch
strategies — baseline, sequential (bidding and fallback paths) and
combinatorial (greedy selection and both fallback paths) — end the tick
with every courier's assigned-order count within its capacity.  The
unamended claim — which includes capacity-0 couriers — is refuted by the
capacity-unchecked nearest-idle assignment of the baseline and sequential
fallbacks. -/
theorem dispatch_capacity_invariant (D : Dist) (store : List Order)
    (drivers : List Driver) (orders : List Order) (current_time : ℚ)
    (hnd : (drivers.map Driver.driver_id).Nodup)
    (hcap : ∀ d ∈ drivers, 1 ≤ d.capacity)
    (hpre : ∀ d ∈ drivers, d.assigned_orders.length ≤ d.capacity) :
    (∀ st', run_baseline D store drivers orders current_time = some st' →
      ∀ d ∈ st'.drivers, d.assigned_orders.length ≤ d.capacity) ∧
    (∀ st', run_sequential D store drivers orders current_time = some st' →
      ∀ d ∈ st'.drivers, d.assigned_orders.length ≤ d.capacity) ∧
    (∀ st', run_combinatorial D store drivers orders current_time = some st' →
      ∀ d ∈ st'.drivers, d.assigned_orders.length ≤ d.capacity) := by
  have hok : DriversOK drivers := ⟨hnd, fun d hd => ⟨hpre d hd, hcap d hd⟩⟩
  refine ⟨?_, ?_, ?_⟩
  · intro st' hrun d hd
    unfold run_baseline at hrun
    have hinv := foldlM_option_inv (fun (st : BaseState) => DriversOK st.drivers)
      (baselineStep D current_time)
      (fun b a hb b' hfb => baselineStep_DriversOK D current_time b a hb b' hfb)
      orders _ st' hok hrun
    exact (hinv.2 d hd).1
  · intro st' hrun d hd
    unfold run_sequential at hrun
    cases hex : seqExisting D store drivers [] with
    | none => rw [hex] at hrun; simp at hrun
    | some existing =>
      rw [hex] at hrun
      have hinv := foldlM_option_inv (fun (st : SeqState) => DriversOK st.drivers)
        (seqStep D current_time)
        (fun b a hb b' hfb => seqStep_DriversOK D current_time b a hb b' hfb)
        orders _ st' hok hrun
      exact (hinv.2 d hd).1
  · intro st' hrun d hd
    unfold run_combinatorial at hrun
    cases hex : seqExisting D store drivers [] with
    | none => rw [hex] at hrun; simp at hrun
    | some existing =>
      rw [hex] at hrun
      have hinv := combLoop_DriversOK D current_time (orders.length + 1)
        ⟨store, drivers, seqEligible drivers current_time, existing, orders, [], 0⟩
        hok st' hrun
      exact (hinv.2 d hd).1

/-- Witness for C4 (amended): the invariant applied to a concrete fleet of
one capacity-2 courier and one pending order. -/
theorem dispatch_capacity_invariant_witness :
    (∀ st', run_baseline Dz [oQ] [dAcc] [oQ] 0 = some st' →
      ∀ d ∈ st'.drivers, d.assigned_orders.length ≤ d.capacity) ∧
    (∀ st', run_sequential Dz [oQ] [dAcc] [oQ] 0 = some st' →
      ∀ d ∈ st'.drivers, d.assigned_orders.length ≤ d.capacity) ∧
    (∀ st', run_combinatorial Dz [oQ] [dAcc] [oQ] 0 = some st' →
      ∀ d ∈ st'.drivers, d.assigned_orders.length ≤ d.capacity) :=
  dispatch_capacity_invariant Dz [oQ] [dAcc] [oQ] 0
    (by decide) (by decide) (by decide)


/-! ## The OSRM result cache (`src/utils.py`, claim C8)

`_osrm_cache` is a module-level dict keyed by coordinate 4-tuples rounded to
5 decimal places; Python's `round` rounds half to even.  The dict is an
insertion-ordered association list; the network fetch is an oracle
parameter. -/

def roundHalfEven (x : ℚ) : ℤ :=
  if x - ⌊x⌋ < 1 / 2 then ⌊x⌋
  else if (1 : ℚ) / 2 < x - ⌊x⌋ then ⌊x⌋ + 1
  else if ⌊x⌋ % 2 = 0 then ⌊x⌋ else ⌊x⌋ + 1

def pyRound5 (x : ℚ) : ℚ := (roundHalfEven (x * 100000) : ℚ) / 100000

/-- `utils._get_cache_key`. -/
def _get_cache_key (lat1 lon1 lat2 lon2 : ℚ) : ℚ × ℚ × ℚ × ℚ :=
  (pyRound5 lat1, pyRound5 lon1, pyRound5 lat2, pyRound5 lon2)

abbrev Cache : Type := List ((ℚ × ℚ × ℚ × ℚ) × (ℚ × ℚ))

/-- `utils.osrm_route` (lines 66–129): cache hit (either orientation) or
fetch; on a successful fetch, if the cache has reached `OSRM_CACHE_SIZE`,
the oldest tenth is evicted before inserting. -/
def osrm_route (fetch : ℚ → ℚ → ℚ → ℚ → Option (ℚ × ℚ)) (cache : Cache)
    (lat1 lon1 lat2 lon2 : ℚ) : Option (ℚ × ℚ) × Cache :=
  let cache_key := _get_cache_key lat1 lon1 lat2 lon2
  match lookupA cache cache_key with
  | some v => (some v, cache)
  | none =>
    let reverse_key := _get_cache_key lat2 lon2 lat1 lon1
    match lookupA cache reverse_key with
    | some v => (some v, cache)
    | none =>
      match fetch lat1 lon1 lat2 lon2 with
      | none => (none, cache)
      | some result =>
        let cache1 := if OSRM_CACHE_SIZE ≤ cache.length then
            cache.drop (OSRM_CACHE_SIZE / 10) else cache
        (some result, insertD cache1 cache_key result)

/-- **C8** (amended): the single-route lookup `osrm_route` preserves the
cache-size bound, evicting the oldest tenth of the entries when the cache is
full before inserting the fresh result.  The unamended claim also covers
`precompute_distances`, which inserts one entry per ordered location pair
with no size check at all and so can blow far past the bound. -/
theorem osrm_route_cache_bound (fetch : ℚ → ℚ → ℚ → ℚ → Option (ℚ × ℚ))
    (cache : Cache) (lat1 lon1 lat2 lon2 : ℚ)
    (h : cache.length ≤ OSRM_CACHE_SIZE) :
    (osrm_route fetch cache lat1 lon1 lat2 lon2).2.length ≤ OSRM_CACHE_SIZE := by
  unfold osrm_route
  dsimp only
  cases h1 : lookupA cache (_get_cache_key lat1 lon1 lat2 lon2) with
  | some v => exact h
  | none =>
    cases h2 : lookupA cache (_get_cache_key lat2 lon2 lat1 lon1) with
    | some v => exact h
    | none =>
      cases h3 : fetch lat1 lon1 lat2 lon2 with
      | none => exact h
      | some result =>
        show (insertD (if OSRM_CACHE_SIZE ≤ cache.length then
            cache.drop (OSRM_CACHE_SIZE / 10) else cache)
          (_get_cache_key lat1 lon1 lat2 lon2) result).length ≤ OSRM_CACHE_SIZE
        by_cases hfull : OSRM_CACHE_SIZE ≤ cache.length
        · rw [if_pos hfull]
          have hdrop : (cache.drop (OSRM_CACHE_SIZE / 10)).length =
              cache.length - OSRM_CACHE_SIZE / 10 := List.length_drop _ _
          have hins := insertD_length_le (cache.drop (OSRM_CACHE_SIZE / 10))
            (_get_cache_key lat1 lon1 lat2 lon2) result
          have hsz : cache.length = OSRM_CACHE_SIZE := le_antisymm h hfull
          rw [hdrop, hsz] at hins
          refine le_trans hins ?_
          unfold OSRM_CACHE_SIZE
          omega
        · rw [if_neg hfull]
          have hins := insertD_length_le cache
            (_get_cache_key lat1 lon1 lat2 lon2) result
          omega

/-- Witness for C8 (amended): one fetch into an empty cache stays within the
bound. -/
theorem osrm_route_cache_bound_witness :
    (osrm_route (fun _ _ _ _ => some (1, 1)) [] 0 0 1 1).2.length ≤ OSRM_CACHE_SIZE :=
  osrm_route_cache_bound (fun _ _ _ _ => some (1, 1)) [] 0 0 1 1 (by decide)


/-! ### `utils.precompute_distances` (lines 299-366) and the cache bound -/

/-- The `_osrm_cache` key inserted for one ordered location pair
(`utils.py` line 335: `_get_cache_key(loc1[0], loc1[1], loc2[0], loc2[1])`). -/
def pcKey (loc1 loc2 : Loc) : ℚ × ℚ × ℚ × ℚ :=
  _get_cache_key loc1.1 loc1.2 loc2.1 loc2.2

/-- Inner loop of `precompute_distances` (`for j, loc2 in enumerate(locations)`),
Haversine branch (the config pins `USE_ROAD_DISTANCE = False`, hence
`multiplier = 1.0`); `hav` is the Haversine oracle.  The state is the `result`
dict paired with the module-level `_osrm_cache`. -/
def pcInner (hav : ℚ → ℚ → ℚ → ℚ → ℚ) (loc1 : Loc) (i : ℕ) :
    List (ℕ × Loc) → List ((Loc × Loc) × (ℚ × ℚ)) × Cache →
      List ((Loc × Loc) × (ℚ × ℚ)) × Cache
  | [], rc => rc
  | (j, loc2) :: rest, rc =>
    if i ≠ j then
      pcInner hav loc1 i rest
        (insertD rc.1 (loc1, loc2)
          (hav loc1.1 loc1.2 loc2.1 loc2.2,
            calculate_travel_time_minutes (hav loc1.1 loc1.2 loc2.1 loc2.2)),
         insertD rc.2 (pcKey loc1 loc2)
          (hav loc1.1 loc1.2 loc2.1 loc2.2,
            calculate_travel_time_minutes (hav loc1.1 loc1.2 loc2.1 loc2.2)))
    else pcInner hav loc1 i rest rc

/-- Outer loop of `precompute_distances` (`for i, loc1 in enumerate(locations)`). -/
def pcOuter (hav : ℚ → ℚ → ℚ → ℚ → ℚ) (allLocs : List (ℕ × Loc)) :
    List (ℕ × Loc) → List ((Loc × Loc) × (ℚ × ℚ)) × Cache →
      List ((Loc × Loc) × (ℚ × ℚ)) × Cache
  | [], rc => rc
  | (i, loc1) :: rest, rc => pcOuter hav allLocs rest (pcInner hav loc1 i allLocs rc)

/-- `utils.precompute_distances` (lines 299-366) in the Haversine branch taken
under the shipped config (`USE_ROAD_DISTANCE = False`): returns the result dict
together with the updated module-level `_osrm_cache`.  Note: no size check is
ever made on the cache. -/
def precompute_distances (hav : ℚ → ℚ → ℚ → ℚ → ℚ) (locations : List Loc)
    (cache : Cache) : List ((Loc × Loc) × (ℚ × ℚ)) × Cache :=
  if locations.length < 2 then ([], cache)
  else pcOuter hav locations.enum locations.enum ([], cache)

/-- The cache keys inserted by one pass of the inner loop. -/
def pcRowKeys (loc1 : Loc) (i : ℕ) (l : List (ℕ × Loc)) : List (ℚ × ℚ × ℚ × ℚ) :=
  (l.filter (fun q => decide (i ≠ q.1))).map (fun q => pcKey loc1 q.2)

/-- All cache keys inserted by the two nested loops. -/
def pcAllKeys (allLocs : List (ℕ × Loc)) (l : List (ℕ × Loc)) :
    List (ℚ × ℚ × ℚ × ℚ) :=
  l.flatMap (fun p => pcRowKeys p.2 p.1 allLocs)

theorem pcRowKeys_cons (loc1 : Loc) (i j : ℕ) (loc2 : Loc) (l : List (ℕ × Loc)) :
    pcRowKeys loc1 i ((j, loc2) :: l) =
      if i ≠ j then pcKey loc1 loc2 :: pcRowKeys loc1 i l
      else pcRowKeys loc1 i l := by
  by_cases h : i ≠ j
  · simp [pcRowKeys, h]
  · rw [not_ne_iff] at h
    simp [pcRowKeys, h]

/-- Inserting a fresh key appends it at the end of the dict. -/
theorem insertD_keys_new {K V : Type} [DecidableEq K] (l : List (K × V)) (k : K)
    (v : V) (hk : k ∉ l.map Prod.fst) :
    (insertD l k v).map Prod.fst = l.map Prod.fst ++ [k] := by
  induction l with
  | nil => rfl
  | cons p rest ih =>
    obtain ⟨k₀, v₀⟩ := p
    rw [List.map_cons] at hk
    have h1 : k₀ ≠ k := fun h => hk (by simp [h])
    have h2 : k ∉ rest.map Prod.fst := fun h => hk (List.mem_cons_of_mem _ h)
    simp only [insertD, if_neg h1, List.map_cons, ih h2, List.cons_append]

/-- The inner loop appends exactly its row of keys to the cache, provided they
are fresh and pairwise distinct. -/
theorem pcInner_keys (hav : ℚ → ℚ → ℚ → ℚ → ℚ) (loc1 : Loc) (i : ℕ)
    (l : List (ℕ × Loc)) :
    ∀ rc : List ((Loc × Loc) × (ℚ × ℚ)) × Cache,
      (∀ k ∈ pcRowKeys loc1 i l, k ∉ rc.2.map Prod.fst) →
      (pcRowKeys loc1 i l).Nodup →
      (pcInner hav loc1 i l rc).2.map Prod.fst =
        rc.2.map Prod.fst ++ pcRowKeys loc1 i l := by
  induction l with
  | nil =>
    intro rc _ _
    simp [pcInner, pcRowKeys]
  | cons p rest ih =>
    obtain ⟨j, loc2⟩ := p
    intro rc hfresh hnd
    rw [pcRowKeys_cons] at hfresh hnd ⊢
    rw [pcInner]
    by_cases hij : i ≠ j
    · simp only [if_pos hij]
      rw [if_pos hij] at hfresh hnd
      have hkey0 : pcKey loc1 loc2 ∉ rc.2.map Prod.fst :=
        hfresh _ (List.mem_cons_self _ _)
      have hkeys' := insertD_keys_new rc.2 (pcKey loc1 loc2)
        (hav loc1.1 loc1.2 loc2.1 loc2.2,
          calculate_travel_time_minutes (hav loc1.1 loc1.2 loc2.1 loc2.2)) hkey0
      obtain ⟨hhead, htail⟩ := List.nodup_cons.mp hnd
      have hfresh' : ∀ k ∈ pcRowKeys loc1 i rest,
          k ∉ (insertD rc.2 (pcKey loc1 loc2)
            (hav loc1.1 loc1.2 loc2.1 loc2.2,
              calculate_travel_time_minutes
                (hav loc1.1 loc1.2 loc2.1 loc2.2))).map Prod.fst := by
        intro k hk hmem
        rw [hkeys'] at hmem
        rcases List.mem_append.mp hmem with h | h
        · exact hfresh k (List.mem_cons_of_mem _ hk) h
        · rw [List.mem_singleton] at h
          exact hhead (h ▸ hk)
      rw [ih (insertD rc.1 (loc1, loc2)
          (hav loc1.1 loc1.2 loc2.1 loc2.2,
            calculate_travel_time_minutes (hav loc1.1 loc1.2 loc2.1 loc2.2)),
         insertD rc.2 (pcKey loc1 loc2)
          (hav loc1.1 loc1.2 loc2.1 loc2.2,
            calculate_travel_time_minutes (hav loc1.1 loc1.2 loc2.1 loc2.2)))
        hfresh' htail, hkeys', List.append_assoc, List.singleton_append]
    · simp only [if_neg hij]
      rw [if_neg hij] at hfresh hnd
      exact ih rc hfresh hnd

/-- The outer loop appends all rows of keys to the cache, provided they are
fresh and pairwise distinct. -/
theorem pcOuter_keys (hav : ℚ → ℚ → ℚ → ℚ → ℚ) (allLocs : List (ℕ × Loc))
    (l : List (ℕ × Loc)) :
    ∀ rc : List ((Loc × Loc) × (ℚ × ℚ)) × Cache,
      (∀ k ∈ pcAllKeys allLocs l, k ∉ rc.2.map Prod.fst) →
      (pcAllKeys allLocs l).Nodup →
      (pcOuter hav allLocs l rc).2.map Prod.fst =
        rc.2.map Prod.fst ++ pcAllKeys allLocs l := by
  induction l with
  | nil =>
    intro rc _ _
    simp [pcOuter, pcAllKeys]
  | cons p rest ih =>
    obtain ⟨i, loc1⟩ := p
    intro rc hfresh hnd
    have hall : pcAllKeys allLocs ((i, loc1) :: rest) =
        pcRowKeys loc1 i allLocs ++ pcAllKeys allLocs rest := by
      simp [pcAllKeys]
    rw [hall] at hfresh hnd ⊢
    rw [List.nodup_append] at hnd
    obtain ⟨hnd1, hnd2, hdisj⟩ := hnd
    have h1 := pcInner_keys hav loc1 i allLocs rc
      (fun k hk => hfresh k (List.mem_append_left _ hk)) hnd1
    have hfresh2 : ∀ k ∈ pcAllKeys allLocs rest,
        k ∉ (pcInner hav loc1 i allLocs rc).2.map Prod.fst := by
      intro k hk hmem
      rw [h1] at hmem
      rcases List.mem_append.mp hmem with h | h
      · exact hfresh k (List.mem_append_right _ hk) h
      · exact hdisj h hk
    rw [pcOuter, ih (pcInner hav loc1 i allLocs rc) hfresh2 hnd2, h1,
      List.append_assoc]

/-- `round` on an integer is the identity. -/
theorem roundHalfEven_intCast (m : ℤ) : roundHalfEven (m : ℚ) = m := by
  unfold roundHalfEven
  rw [Int.floor_intCast, if_pos (by norm_num)]

/-- `round(n, 5)` on a natural number is the identity. -/
theorem pyRound5_natCast (n : ℕ) : pyRound5 (n : ℚ) = (n : ℚ) := by
  unfold pyRound5
  have h : (n : ℚ) * 100000 = ((n * 100000 : ℤ) : ℚ) := by push_cast; ring
  rw [h, roundHalfEven_intCast]
  push_cast
  field_simp

theorem pyRound5_zero : pyRound5 0 = 0 := by
  simpa using pyRound5_natCast 0

/-- 101 grid locations: enough ordered pairs (10,100) to overflow the cache. -/
def locs101 : List Loc :=
  (List.range 101).map (fun (n : ℕ) => ((n : ℚ), (0 : ℚ)))

/-- A trivially computable Haversine oracle; the distance values are irrelevant
to the cache-size count. -/
def hav0 : ℚ → ℚ → ℚ → ℚ → ℚ := fun _ _ _ _ => 0

theorem locs101_length : locs101.length = 101 := by
  unfold locs101
  rw [List.length_map, List.length_range]

theorem locs101_get (n : ℕ) (hn : n < locs101.length) :
    locs101.get ⟨n, hn⟩ = ((n : ℚ), (0 : ℚ)) := by
  rw [List.get_eq_getElem]
  unfold locs101
  rw [List.getElem_map, List.getElem_range]

theorem enumMemChar {α : Type} (l : List α) (p : ℕ × α) (h : p ∈ l.enum) :
    ∃ hn : p.1 < l.length, p.2 = l.get ⟨p.1, hn⟩ := by
  obtain ⟨n, hn, he⟩ := List.mem_iff_getElem.mp h
  have hlen : n < l.length := by simpa using hn
  have h2 : l.enum[n] = (n, l[n]) := List.getElem_enum _ _ hn
  rw [h2] at he
  subst he
  exact ⟨hlen, by simp⟩

theorem enumNodupG {α : Type} (l : List α) : l.enum.Nodup := by
  have h := List.nodup_range l.length
  rw [← List.enum_map_fst l] at h
  exact h.of_map Prod.fst

theorem enumFstInj {α : Type} (l : List α) (p q : ℕ × α) (hp : p ∈ l.enum)
    (hq : q ∈ l.enum) (h : p.1 = q.1) : p = q := by
  obtain ⟨hp1, hp2⟩ := enumMemChar l p hp
  obtain ⟨hq1, hq2⟩ := enumMemChar l q hq
  obtain ⟨pa, pb⟩ := p
  obtain ⟨qa, qb⟩ := q
  simp only at hp2 hq2 h
  subst h
  rw [Prod.mk.injEq]
  exact ⟨rfl, by rw [hp2, hq2]⟩

theorem locs101_enum_snd (p : ℕ × Loc) (h : p ∈ locs101.enum) :
    p.2 = ((p.1 : ℚ), (0 : ℚ)) := by
  obtain ⟨hn, he⟩ := enumMemChar locs101 p h
  rw [he]
  exact locs101_get p.1 hn

/-- Every key of a row starts with the row's own index. -/
theorem pcRowKeys_fst (p : ℕ × Loc) (hp : p ∈ locs101.enum)
    (k : ℚ × ℚ × ℚ × ℚ) (hk : k ∈ pcRowKeys p.2 p.1 locs101.enum) :
    k.1 = (p.1 : ℚ) := by
  unfold pcRowKeys at hk
  obtain ⟨q, hq, hkeq⟩ := List.mem_map.mp hk
  have h2 : p.2 = ((p.1 : ℚ), (0 : ℚ)) := locs101_enum_snd p hp
  rw [← hkeq]
  have h3 : (pcKey p.2 q.2).1 = pyRound5 p.2.1 := rfl
  rw [h3, h2]
  exact pyRound5_natCast p.1

theorem pcAllKeys_locs101_nodup :
    (pcAllKeys locs101.enum locs101.enum).Nodup := by
  unfold pcAllKeys
  rw [List.nodup_flatMap]
  constructor
  · intro p hp
    unfold pcRowKeys
    apply List.Nodup.map_on
    · intro q hq q' hq' heq
      have hq0 : q ∈ locs101.enum := List.mem_of_mem_filter hq
      have hq0' : q' ∈ locs101.enum := List.mem_of_mem_filter hq'
      have h2 : q.2 = ((q.1 : ℚ), (0 : ℚ)) := locs101_enum_snd q hq0
      have h2' : q'.2 = ((q'.1 : ℚ), (0 : ℚ)) := locs101_enum_snd q' hq0'
      have h3 : pyRound5 ((q.1 : ℚ)) = pyRound5 ((q'.1 : ℚ)) := by
        have h4 : (pcKey p.2 q.2).2.2.1 = (pcKey p.2 q'.2).2.2.1 :=
          congrArg (fun t => t.2.2.1) heq
        rw [h2, h2'] at h4
        exact h4
      rw [pyRound5_natCast, pyRound5_natCast] at h3
      exact enumFstInj locs101 q q' hq0 hq0' (Nat.cast_injective h3)
    · exact List.Nodup.filter _ (enumNodupG locs101)
  · rw [List.pairwise_iff_getElem]
    intro a b ha hb hab
    have hane : locs101.enum[a].1 ≠ locs101.enum[b].1 := by
      have ha2 : a < locs101.length := by simpa using ha
      have hb2 : b < locs101.length := by simpa using hb
      have h1 : locs101.enum[a] = (a, locs101[a]) :=
        List.getElem_enum _ _ ha
      have h2 : locs101.enum[b] = (b, locs101[b]) :=
        List.getElem_enum _ _ hb
      rw [h1, h2]
      exact Nat.ne_of_lt hab
    intro k hk hk'
    have hma : locs101.enum[a] ∈ locs101.enum := List.getElem_mem _
    have hmb : locs101.enum[b] ∈ locs101.enum := List.getElem_mem _
    have h1 := pcRowKeys_fst locs101.enum[a] hma k hk
    have h2 := pcRowKeys_fst locs101.enum[b] hmb k hk'
    exact hane (Nat.cast_injective (h1.symm.trans h2))

/-- Each inner pass over the 101 locations inserts exactly 100 keys. -/
theorem pcRowKeys_locs101_length (p : ℕ × Loc) (hp : p ∈ locs101.enum) :
    (pcRowKeys p.2 p.1 locs101.enum).length = 100 := by
  unfold pcRowKeys
  rw [List.length_map]
  have h1 : (locs101.enum.filter (fun q => decide (p.1 ≠ q.1))).length
      = ((locs101.enum.map Prod.fst).filter (fun n => decide (p.1 ≠ n))).length := by
    rw [List.filter_map, List.length_map]
    rfl
  rw [h1, List.enum_map_fst]
  have hlen : locs101.length = 101 := locs101_length
  rw [hlen]
  obtain ⟨hn, -⟩ := enumMemChar locs101 p hp
  rw [hlen] at hn
  have herase : (List.range 101).filter (fun n => decide (p.1 ≠ n))
      = (List.range 101).erase p.1 := by
    rw [List.Nodup.erase_eq_filter (List.nodup_range 101) p.1]
    apply List.filter_congr
    intro a _
    by_cases h : p.1 = a
    · subst h
      simp
    · have h' : a ≠ p.1 := fun hc => h hc.symm
      simp [h, h']
  rw [herase]
  have h2 := List.length_erase_add_one (List.mem_range.mpr hn)
  rw [List.length_range] at h2
  omega

/-- `precompute_distances` on the 101 grid locations inserts 10,100 keys. -/
theorem pcAllKeys_locs101_length :
    (pcAllKeys locs101.enum locs101.enum).length = 10100 := by
  unfold pcAllKeys
  rw [List.length_flatMap]
  have hmap : List.map (List.length ∘ fun p => pcRowKeys p.2 p.1 locs101.enum)
      locs101.enum = List.map (Function.const (ℕ × Loc) 100) locs101.enum :=
    List.map_congr_left (fun p hp => pcRowKeys_locs101_length p hp)
  rw [hmap, List.map_const, List.sum_replicate, List.enum_length,
    locs101_length, smul_eq_mul]

/-- **C8** counterexample: `precompute_distances` on 101 locations (with an
initially empty cache) leaves 10,100 entries in `_osrm_cache`, far beyond
`OSRM_CACHE_SIZE = 10000` — the bulk pre-computation never checks the bound. -/
theorem precompute_distances_cache_unbounded :
    OSRM_CACHE_SIZE <
      ((precompute_distances hav0 locs101 []).2).length := by
  have hfresh : ∀ k ∈ pcAllKeys locs101.enum locs101.enum,
      k ∉ (([] : Cache)).map Prod.fst := by
    intro k _ hk
    simp at hk
  have hkeys := pcOuter_keys hav0 locs101.enum locs101.enum
    (([], []) : List ((Loc × Loc) × (ℚ × ℚ)) × Cache) hfresh
    pcAllKeys_locs101_nodup
  have hres : precompute_distances hav0 locs101 [] =
      pcOuter hav0 locs101.enum locs101.enum ([], []) := by
    unfold precompute_distances
    rw [if_neg (by rw [locs101_length]; norm_num)]
  have hlen : ((pcOuter hav0 locs101.enum locs101.enum ([], [])).2).length =
      (pcAllKeys locs101.enum locs101.enum).length := by
    have h := congrArg List.length hkeys
    simpa using h
  rw [hres, hlen, pcAllKeys_locs101_length]
  norm_num [OSRM_CACHE_SIZE]

end Snoonu
